import Mathlib

/-!
# Verification of the DDD-SND time-expansion core

A shallow embedding of the `ddd_snd` package (time-expanded graph
construction and refinement, the design-model flow-conservation
constraints, the identification-model duration/linking constraints,
the solution extractor and the instance reader), together with proofs
and refutations of the specification claims.

Modelling conventions:
* Python `float` values (costs, capacities, quantities, solver values)
  are modelled as exact rationals `ℚ`.
* Python exceptions (`IndexError`, `KeyError`, `ValueError`,
  `AssertionError`, `TypeError`) are modelled by `Option`/`Except`
  failure: a function returns `none`/`.error` exactly when the Python
  code raises.
* `rustworkx` node indices are allocated sequentially and never freed
  (the code never removes nodes); edge indices are modelled by a
  monotone counter, which keeps live indices unique.
* Python negative-list-indexing (wrap-around) is modelled by `pyGet`.
-/

namespace DDD

/-- Python `l[i]` with wrap-around for negative indices. -/
def pyGet {α : Type} (l : List α) (i : Int) : Option α :=
  if 0 ≤ i then l.get? i.toNat
  else if 0 ≤ i + l.length then l.get? (i + l.length).toNat
  else none

/-- Python `l.insert(k, x)` for `0 ≤ k` (clamps at the length, as Python does). -/
def pyInsert {α : Type} (l : List α) (k : Nat) (x : α) : List α :=
  l.take k ++ x :: l.drop k

/-- Python `l.remove(x)`: drop the first occurrence, `ValueError` if absent. -/
def pyRemove (l : List Nat) (x : Nat) : Option (List Nat) :=
  if x ∈ l then some (l.erase x) else none

/-- The loop of Python `bisect.bisect_left` (binary search); the fuel
argument only forces structural termination and never runs out when it
starts at `hi - lo + 1` (each iteration shrinks `hi - lo`). -/
def bisectLeftGo (l : List Int) (x : Int) : Nat → Nat → Nat → Nat
  | 0, lo, _ => lo
  | fuel + 1, lo, hi =>
    if lo < hi then
      let mid := (lo + hi) / 2
      if l.getD mid 0 < x then bisectLeftGo l x fuel (mid + 1) hi
      else bisectLeftGo l x fuel lo mid
    else lo

/-- Python `bisect.bisect_left(l, x)`. -/
def bisect_left (l : List Int) (x : Int) : Nat :=
  bisectLeftGo l x (l.length + 1) 0 l.length

/-- Arc payload (`instance.ArcData`); costs/capacities are rationals
standing for Python floats. -/
structure ArcData where
  travel_time : Int
  flow_cost : ℚ
  fixed_cost : ℚ
  capacity : Option ℚ
deriving DecidableEq, Repr

/-- `instance.NodeData`. -/
structure NodeData where
  name : String
deriving DecidableEq, Repr

/-- A flat (physical) arc of the `rustworkx` graph; its index is its
position in `FlatGraph.arcs`. -/
structure FlatArc where
  src : Nat
  dst : Nat
  data : ArcData
deriving DecidableEq, Repr

/-- The flat directed graph (`Instance.flat_graph`). -/
structure FlatGraph where
  nodes : List NodeData
  arcs : List FlatArc
deriving DecidableEq, Repr

/-- `time_expansion.TimeNodeData` (the `name` is assembled in
`__post_init__` from the flat node name and the time). -/
structure TimeNodeData where
  flat_node : Nat
  time : Int
  name : String
deriving DecidableEq, Repr

/-- One expanded edge: endpoints are expanded node indices. -/
structure EdgeRec where
  src : Nat
  dst : Nat
  data : ArcData
deriving DecidableEq, Repr

/-- `time_expansion.DiscretizedGraph`: the `rustworkx.PyDiGraph` subclass
together with its bookkeeping attributes.  `edges` pairs each edge with
its (unique, monotone) index. -/
structure DiscretizedGraph where
  g_flat : FlatGraph
  relaxed : Bool
  node_to_times : List (List Int)
  nodes : List TimeNodeData
  edges : List (Nat × EdgeRec)
  next_edge : Nat
  flat_to_expanded_nodes : List (List Nat)
  flat_to_expanded_arcs : List (List Nat)
deriving DecidableEq, Repr

instance : Inhabited DiscretizedGraph :=
  ⟨⟨⟨[], []⟩, false, [], [], [], 0, [], []⟩⟩

namespace DiscretizedGraph

/-- `PyDiGraph.add_node`. -/
def addNode (g : DiscretizedGraph) (d : TimeNodeData) : DiscretizedGraph × Nat :=
  ({ g with nodes := g.nodes ++ [d] }, g.nodes.length)

/-- `PyDiGraph.add_edge` (returns the new edge's index). -/
def addEdge (g : DiscretizedGraph) (i j : Nat) (d : ArcData) : DiscretizedGraph × Nat :=
  ({ g with edges := g.edges ++ [(g.next_edge, ⟨i, j, d⟩)],
            next_edge := g.next_edge + 1 }, g.next_edge)

/-- `PyDiGraph.remove_edge_from_index`. -/
def removeEdgeFromIndex (g : DiscretizedGraph) (idx : Nat) : DiscretizedGraph :=
  { g with edges := g.edges.filter (fun e => e.1 ≠ idx) }

/-- `PyDiGraph.edge_indices_from_endpoints`. -/
def edgeIndicesFromEndpoints (g : DiscretizedGraph) (i j : Nat) : List Nat :=
  (g.edges.filter (fun e => e.2.src == i && e.2.dst == j)).map Prod.fst

/-- `PyDiGraph.in_edges`: snapshot of `(predecessor, node, data)` triples. -/
def in_edges (g : DiscretizedGraph) (n : Nat) : List (Nat × Nat × ArcData) :=
  (g.edges.filter (fun e => e.2.dst == n)).map (fun e => (e.2.src, e.2.dst, e.2.data))

end DiscretizedGraph

/-- `time_expansion.get_edge_index` on the expanded graph: asserts that
there is exactly one edge between the two endpoints. -/
def get_edge_index (g : DiscretizedGraph) (i j : Nat) : Option Nat :=
  match g.edgeIndicesFromEndpoints i j with
  | [e] => some e
  | _ => none

/-- `edge_indices_from_endpoints` on the flat graph (indices are list
positions). -/
def FlatGraph.edgeIndicesFromEndpoints (g : FlatGraph) (i j : Nat) : List Nat :=
  (g.arcs.enum.filter (fun e => e.2.src == i && e.2.dst == j)).map Prod.fst

/-- `time_expansion.get_edge_index` applied to the flat graph. -/
def flat_get_edge_index (g : FlatGraph) (i j : Nat) : Option Nat :=
  match g.edgeIndicesFromEndpoints i j with
  | [e] => some e
  | _ => none

/-- `PyDiGraph.out_edges` on the flat graph: `(src, dst, data)` triples
of the arcs leaving `n`. -/
def FlatGraph.out_edges (g : FlatGraph) (n : Nat) : List (Nat × Nat × ArcData) :=
  (g.arcs.filter (fun a => a.src == n)).map (fun a => (a.src, a.dst, a.data))

/-- `self.flat_to_expanded_arcs[k].append(v)` (`KeyError` when `k` is
not a key). -/
def appendToMapping (m : List (List Nat)) (k v : Nat) : Option (List (List Nat)) := do
  let l ← m.get? k
  pure (m.set k (l ++ [v]))

/-- `self.flat_to_expanded_arcs[k].remove(v)`. -/
def removeFromMapping (m : List (List Nat)) (k v : Nat) : Option (List (List Nat)) := do
  let l ← m.get? k
  let l2 ← pyRemove l v
  pure (m.set k l2)

/-- The zero-time, zero-cost, capacity-`None` payload of holding arcs. -/
def holdingArcData : ArcData := ⟨0, 0, 0, none⟩

namespace DiscretizedGraph

/-- The body of `_add_timed_nodes` for one flat node. -/
def addTimedNodesStep (g : DiscretizedGraph) (v : Nat) :
    Option DiscretizedGraph := do
  let times ← g.node_to_times.get? v
  let nd ← g.g_flat.nodes.get? v
  let newNodes := times.map fun t =>
    TimeNodeData.mk v t (nd.name ++ "_" ++ toString t)
  let ids := (List.range times.length).map (· + g.nodes.length)
  pure { g with nodes := g.nodes ++ newNodes,
                flat_to_expanded_nodes := g.flat_to_expanded_nodes ++ [ids] }

/-- `_add_timed_nodes`: one timed node per `(flat node, time point)`,
recorded in order in `flat_to_expanded_nodes`. -/
def _add_timed_nodes (g0 : DiscretizedGraph) : Option DiscretizedGraph :=
  (List.range g0.g_flat.nodes.length).foldlM addTimedNodesStep g0

/-- The body of `_add_holding_arcs` for one flat node. -/
def addHoldingArcsStep (g : DiscretizedGraph) (v : Nat) :
    Option DiscretizedGraph := do
  let expanded ← g.flat_to_expanded_nodes.get? v
  let pairs := expanded.zip expanded.tail
  pure (pairs.foldl (fun g p => (g.addEdge p.1 p.2 holdingArcData).1) g)

/-- `_add_holding_arcs`: one holding arc between each pair of
consecutive expanded nodes of the same flat node. -/
def _add_holding_arcs (g0 : DiscretizedGraph) : Option DiscretizedGraph :=
  (List.range g0.g_flat.nodes.length).foldlM addHoldingArcsStep g0

/-- The `while` loop of `_add_travel_arcs`, structurally recursive over
the list of end nodes strictly beyond the pointer. -/
def advanceLoop (g : DiscretizedGraph) (arrival : Int) :
    Nat → List Nat → Option Nat
  | idx, [] => some idx
  | idx, nid :: rest =>
    match g.nodes.get? nid with
    | none => none
    | some nd =>
      if nd.time ≤ arrival then advanceLoop g arrival (idx + 1) rest
      else some idx

/-- The `while` loop of `_add_travel_arcs`: advance the end-node pointer
to the latest node whose time does not exceed the arrival time. -/
def advanceEnd (g : DiscretizedGraph) (pe : List Nat) (arrival : Int)
    (idx : Nat) : Option Nat :=
  advanceLoop g arrival idx (pe.drop (idx + 1))

/-- The body of `_add_travel_arcs` for one start node (the state carries
the graph and the sweeping end-node pointer). -/
def addTravelArcStep (arc : Nat) (data : ArcData) (pe_end : List Nat)
    (st : DiscretizedGraph × Nat) (start_node : Nat) :
    Option (DiscretizedGraph × Nat) := do
  let g := st.1
  let nd ← g.nodes.get? start_node
  let arrival := nd.time + data.travel_time
  let endIdx ← advanceEnd g pe_end arrival st.2
  if g.relaxed then
    let endNode ← pe_end.get? endIdx
    let (g2, e) := g.addEdge start_node endNode data
    let m ← appendToMapping g2.flat_to_expanded_arcs arc e
    pure ({ g2 with flat_to_expanded_arcs := m }, endIdx)
  else
    let nid ← pe_end.get? endIdx
    let endNd ← g.nodes.get? nid
    if endNd.time ≠ arrival then
      -- round up to the next node; skip the arc if outside the horizon
      if pe_end.length ≤ endIdx + 1 then
        pure (g, endIdx)
      else do
        let endNode ← pe_end.get? (endIdx + 1)
        let (g2, e) := g.addEdge start_node endNode data
        let m ← appendToMapping g2.flat_to_expanded_arcs arc e
        pure ({ g2 with flat_to_expanded_arcs := m }, endIdx)
    else
      let (g2, e) := g.addEdge start_node nid data
      let m ← appendToMapping g2.flat_to_expanded_arcs arc e
      pure ({ g2 with flat_to_expanded_arcs := m }, endIdx)

/-- The body of `_add_travel_arcs` for one flat arc. -/
def addTravelArcsArc (g : DiscretizedGraph) (arc : Nat) :
    Option DiscretizedGraph := do
  let fa ← g.g_flat.arcs.get? arc
  let g := { g with flat_to_expanded_arcs := g.flat_to_expanded_arcs ++ [[]] }
  let pe_start ← g.flat_to_expanded_nodes.get? fa.src
  let pe_end ← g.flat_to_expanded_nodes.get? fa.dst
  let st ← pe_start.foldlM (addTravelArcStep arc fa.data pe_end) (g, 0)
  pure st.1

/-- `_add_travel_arcs`: for every flat arc, sweep its start nodes and
connect each to the chosen end node. -/
def _add_travel_arcs (g0 : DiscretizedGraph) : Option DiscretizedGraph :=
  (List.range g0.g_flat.arcs.length).foldlM addTravelArcsArc g0

/-- `_create_time_expanded_graph`, i.e. the body of
`DiscretizedGraph.__new__`. -/
def create (g_flat : FlatGraph) (node_to_times : List (List Int))
    (relaxed : Bool) : Option DiscretizedGraph := do
  let g : DiscretizedGraph :=
    { g_flat := g_flat, relaxed := relaxed, node_to_times := node_to_times,
      nodes := [], edges := [], next_edge := 0,
      flat_to_expanded_nodes := [], flat_to_expanded_arcs := [] }
  let g ← g._add_timed_nodes
  let g ← g._add_holding_arcs
  g._add_travel_arcs

/-- One step of `_shorten_travel_arcs_unrelaxed` for one ingoing-arc
triple of the snapshot. -/
def shortenStep (new_node next_node : Nat) (time : Int)
    (g : DiscretizedGraph) (ija : Nat × Nat × ArcData) :
    Option DiscretizedGraph := do
  let (i, j, data) := ija
  let ndi ← g.nodes.get? i
  let ndj ← g.nodes.get? j
  if ndi.flat_node = ndj.flat_node then
    pure g  -- skip holding arcs
  else
    let arrival_time := ndi.time + data.travel_time
    let afterNd ← g.nodes.get? next_node
    let after_time := afterNd.time
    if arrival_time < after_time ∧ time ≤ arrival_time then do
      let flat_arc ← flat_get_edge_index g.g_flat ndi.flat_node ndj.flat_node
      let arc_to_remove ← get_edge_index g i j
      let g := g.removeEdgeFromIndex arc_to_remove
      let m ← removeFromMapping g.flat_to_expanded_arcs flat_arc arc_to_remove
      let g := { g with flat_to_expanded_arcs := m }
      let (g, new_arc) := g.addEdge i new_node data
      let m ← appendToMapping g.flat_to_expanded_arcs flat_arc new_arc
      pure { g with flat_to_expanded_arcs := m }
    else pure g

/-- `_shorten_travel_arcs_unrelaxed`: redirect to the new node the
ingoing travel arcs of `next_node` that arrive in `[time, next time)`. -/
def _shorten_travel_arcs_unrelaxed (g0 : DiscretizedGraph)
    (new_node next_node : Nat) (time : Int) : Option DiscretizedGraph :=
  (g0.in_edges next_node).foldlM (shortenStep new_node next_node time) g0

/-- `_refine_holding_arc`: add `prev → new`; when a next node exists,
replace the `prev → next` holding arc by `new → next`. -/
def _refine_holding_arc (g : DiscretizedGraph) (new_node previous_node : Nat)
    (next_node : Option Nat) : Option DiscretizedGraph :=
  let g := (g.addEdge previous_node new_node (ArcData.mk 0 0 0 none)).1
  match next_node with
  | none => some g
  | some nxt => do
    let holding_arc ← get_edge_index g previous_node nxt
    let g := g.removeEdgeFromIndex holding_arc
    pure (g.addEdge new_node nxt (ArcData.mk 0 0 0 none)).1

/-- The end-node selection of `_add_travel_arcs_new_node` for one
outgoing flat arc (the `j_ex` computation, including the bisection and
the relaxed rounding-down).  Fails (`none` at the outer level) exactly
when the Python code raises; yields `none` when the arc is skipped
(non-relaxed, outside the horizon) and `some j_ex` otherwise. -/
def travelNewTarget (g : DiscretizedGraph) (arrival_time : Int)
    (times_j : List Int) (exp_j : List Nat) : Option (Option Nat) :=
  let k_j := bisect_left times_j arrival_time
  if g.relaxed then
    if k_j = times_j.length then (pyGet exp_j (-1)).map some
    else do
      let cand ← exp_j.get? k_j
      let cnd ← g.nodes.get? cand
      if cnd.time ≠ arrival_time then
        (pyGet exp_j ((k_j : Int) - 1)).map some
      else pure (some cand)
  else
    if k_j = times_j.length then pure none  -- outside the horizon: skip
    else (exp_j.get? k_j).map some

/-- The body of `_add_travel_arcs_new_node` for one outgoing flat arc. -/
def addTravelArcNewNodeStep (nd_time : Int) (new_node : Nat)
    (g : DiscretizedGraph) (ija : Nat × Nat × ArcData) :
    Option DiscretizedGraph := do
  let (i, j, data) := ija
  let times_j ← g.node_to_times.get? j
  let exp_j ← g.flat_to_expanded_nodes.get? j
  let tgt ← travelNewTarget g (nd_time + data.travel_time) times_j exp_j
  match tgt with
  | none => pure g
  | some j_ex => do
    let (g2, new_arc) := g.addEdge new_node j_ex data
    let flat_arc ← flat_get_edge_index g2.g_flat i j
    let m ← appendToMapping g2.flat_to_expanded_arcs flat_arc new_arc
    pure { g2 with flat_to_expanded_arcs := m }

/-- `_add_travel_arcs_new_node`: add the travel arcs leaving the newly
inserted timed node. -/
def _add_travel_arcs_new_node (g0 : DiscretizedGraph) (new_node : Nat) :
    Option DiscretizedGraph := do
  let nd ← g0.nodes.get? new_node
  let outgoing := g0.g_flat.out_edges nd.flat_node
  outgoing.foldlM (addTravelArcNewNodeStep nd.time new_node) g0

/-- One step of `_lengthen_travel_arcs_relaxed` for one ingoing-arc
triple of the snapshot. -/
def lengthenStep (new_node previous_node : Nat) (time : Int)
    (g : DiscretizedGraph) (ija : Nat × Nat × ArcData) :
    Option DiscretizedGraph := do
  let (i, j, data) := ija
  let ndi ← g.nodes.get? i
  let ndj ← g.nodes.get? j
  if ndi.flat_node = ndj.flat_node then
    pure g  -- skip holding arcs
  else
    let arrival_time := ndi.time + data.travel_time
    if time ≤ arrival_time then do
      let flat_arc ← flat_get_edge_index g.g_flat ndi.flat_node ndj.flat_node
      let arc_to_remove ← get_edge_index g i previous_node
      let m ← removeFromMapping g.flat_to_expanded_arcs flat_arc arc_to_remove
      let g := { g.removeEdgeFromIndex arc_to_remove with flat_to_expanded_arcs := m }
      let (g, new_arc) := g.addEdge i new_node data
      let m ← appendToMapping g.flat_to_expanded_arcs flat_arc new_arc
      pure { g with flat_to_expanded_arcs := m }
    else pure g

/-- `_lengthen_travel_arcs_relaxed`: redirect to the new node the
ingoing travel arcs of `previous_node` that arrive no earlier than the
new time point. -/
def _lengthen_travel_arcs_relaxed (g0 : DiscretizedGraph)
    (new_node previous_node : Nat) (time : Int) : Option DiscretizedGraph :=
  (g0.in_edges previous_node).foldlM (lengthenStep new_node previous_node time) g0

/-- The `next_node` selection of `refine_discretization`: the node at
the insertion index when the new time point is not beyond the last one
(`None` otherwise, failing exactly when Python's indexing would). -/
def refineNextNode (times : List Int) (exp : List Nat) (k_new : Nat) :
    Option (Option Nat) :=
  if k_new < times.length then (exp.get? k_new).map some
  else pure none

/-- `refine_discretization(flat_node, time)`: insert a new time point
and locally rewire the expanded graph. -/
def refine_discretization (g : DiscretizedGraph) (flat_node : Nat)
    (time : Int) : Option DiscretizedGraph := do
  let times ← g.node_to_times.get? flat_node
  let k_new := bisect_left times time
  let k_previous : Int := (k_new : Int) - 1
  let exp ← g.flat_to_expanded_nodes.get? flat_node
  let previous_node ← pyGet exp k_previous
  let next_node : Option Nat ← refineNextNode times exp k_new
  let g := { g with
    node_to_times := g.node_to_times.set flat_node (pyInsert times k_new time) }
  let fnd ← g.g_flat.nodes.get? flat_node
  let (g, new_node) := g.addNode
    (TimeNodeData.mk flat_node time (fnd.name ++ "_" ++ toString time))
  let g := { g with
    flat_to_expanded_nodes :=
      g.flat_to_expanded_nodes.set flat_node (pyInsert exp k_new new_node) }
  let g ← g._refine_holding_arc new_node previous_node next_node
  let g ← g._add_travel_arcs_new_node new_node
  if g.relaxed then
    g._lengthen_travel_arcs_relaxed new_node previous_node time
  else
    match next_node with
    | some nxt => g._shorten_travel_arcs_unrelaxed new_node nxt time
    | none => pure g

end DiscretizedGraph

/-- `create_regular_discretization`. -/
def create_regular_discretization (n_nodes last_time delta_t : Nat) :
    List (List Int) :=
  (List.range n_nodes).map (fun _ =>
    (List.range (last_time / delta_t + 1)).map (fun n => (n * delta_t : Int)))

/-! ## Observations on expanded graphs

Travel and holding arcs are classified the way the code itself does it
(`self[i].flat_node == self[j].flat_node`). -/

/-- Do the two endpoints of an edge belong to the same flat node? -/
def sameFlatB (nodes : List TimeNodeData) (e : EdgeRec) : Bool :=
  match nodes.get? e.src, nodes.get? e.dst with
  | some a, some b => a.flat_node == b.flat_node
  | _, _ => false

/-- The travel arcs of an expanded graph (endpoints at distinct flat nodes). -/
def travelEdges (g : DiscretizedGraph) : List (Nat × EdgeRec) :=
  g.edges.filter (fun p => !sameFlatB g.nodes p.2)

/-- The holding arcs of an expanded graph (endpoints at the same flat node). -/
def holdingEdges (g : DiscretizedGraph) : List (Nat × EdgeRec) :=
  g.edges.filter (fun p => sameFlatB g.nodes p.2)

/-- The `((flat, time), (flat, time))` endpoint pair of an edge. -/
def arcPair (g : DiscretizedGraph) (p : Nat × EdgeRec) :
    (Nat × Int) × (Nat × Int) :=
  let a := g.nodes.getD p.2.src ⟨0, 0, ""⟩
  let b := g.nodes.getD p.2.dst ⟨0, 0, ""⟩
  ((a.flat_node, a.time), (b.flat_node, b.time))

/-- Data payloads of all edges from timed node `p` to timed node `q`. -/
def edgeDataBetween (g : DiscretizedGraph) (p q : Nat × Int) : List ArcData :=
  (g.edges.filter (fun e => decide (arcPair g e = (p, q)))).map (fun e => e.2.data)

/-! ## The tiny instance of the test suite (`conftest.py`) -/

/-- The flat graph of the tiny instance: 3 nodes, arcs `0→1`, `1→2`,
`0→2`, travel time 1 each; the diagonal has flow/fixed cost 2. -/
def tinyFlat : FlatGraph :=
  { nodes := [⟨"1"⟩, ⟨"2"⟩, ⟨"3"⟩],
    arcs := [⟨0, 1, ⟨1, 1, 1, some 2⟩⟩, ⟨1, 2, ⟨1, 1, 1, some 2⟩⟩,
             ⟨0, 2, ⟨1, 2, 2, some 2⟩⟩] }

/-- The initial relaxed discretization of the tiny instance. -/
def tinyNtt : List (List Int) := [[0, 1], [0, 1, 2], [0, 2, 3]]

/-- The relaxed time-expanded graph of the tiny instance. -/
def tinyG : DiscretizedGraph :=
  (DiscretizedGraph.create tinyFlat tinyNtt true).getD default

/-- The tiny relaxed graph after `refine_discretization(2, 1)`. -/
def tinyG2 : DiscretizedGraph :=
  (tinyG.refine_discretization 2 1).getD default

/-! ## Two-node instances exhibiting boundary behaviour -/

/-- Two nodes, one arc `u → w` of travel time 1. -/
def cexRelaxedFlat : FlatGraph :=
  { nodes := [⟨"u"⟩, ⟨"w"⟩], arcs := [⟨0, 1, ⟨1, 0, 0, some 1⟩⟩] }

/-- Sorted time lists whose second node starts only at time 5. -/
def cexRelaxedNtt : List (List Int) := [[0], [5]]

/-- The relaxed expansion of the `[[0], [5]]` discretization. -/
def cexRelaxedG : DiscretizedGraph :=
  (DiscretizedGraph.create cexRelaxedFlat cexRelaxedNtt true).getD default

/-- Two nodes, one arc `u → w` of travel time 2. -/
def cexUnrelFlat : FlatGraph :=
  { nodes := [⟨"u"⟩, ⟨"w"⟩], arcs := [⟨0, 1, ⟨2, 0, 0, some 1⟩⟩] }

/-- Time lists `[[0], [0, 3]]` for the non-relaxed counterexample. -/
def cexUnrelNtt : List (List Int) := [[0], [0, 3]]

/-- The non-relaxed expansion of `[[0], [0, 3]]`. -/
def cexUnrelG0 : DiscretizedGraph :=
  (DiscretizedGraph.create cexUnrelFlat cexUnrelNtt false).getD default

/-- The non-relaxed expansion after `refine_discretization(1, 1)`. -/
def cexUnrelG1 : DiscretizedGraph :=
  (cexUnrelG0.refine_discretization 1 1).getD default

/-! ## Instance model (`instance.py`) -/

/-- `instance.Commodity`. -/
structure Commodity where
  id : Nat
  source_node : Nat
  sink_node : Nat
  quantity : ℚ
  release : Int
  deadline : Int
deriving DecidableEq, Repr

/-- `instance.Instance`. -/
structure InstanceM where
  flat_graph : FlatGraph
  commodities : List Commodity
deriving DecidableEq, Repr

/-- Python `int(x)` on a float value: truncation towards zero. -/
def pyTrunc (q : ℚ) : Int :=
  if 0 ≤ q then q.floor else -(-q).floor

/-- Python `int(tok)` on a textual token: only an integer numeral parses. -/
def pyIntOfToken (q : ℚ) : Option Int :=
  if q.den = 1 then some q.num else none

/-- The arc-line body of `read_modified_dow_instance`:
`i, j, flow_cost, capacity, fixed_cost, travel_time = map(float, line.split()[:6])`,
`travel_time = ceil(travel_time / delta_t)`,
`add_edge(int(i) - 1, int(j) - 1, ArcData(...))`. -/
def lineToFlatArc (n_nodes : Nat) (delta_t : ℚ) (line : List ℚ) :
    Option FlatArc := do
  match line.take 6 with
  | [i, j, flow_cost, capacity, fixed_cost, travel_time] =>
    if delta_t = 0 then none
    else
      if 0 ≤ pyTrunc i - 1 ∧ pyTrunc i - 1 < (n_nodes : Int) ∧
          0 ≤ pyTrunc j - 1 ∧ pyTrunc j - 1 < (n_nodes : Int) then
        some ⟨(pyTrunc i - 1).toNat, (pyTrunc j - 1).toNat,
          ⟨(travel_time / delta_t).ceil, flow_cost, fixed_cost,
            some capacity⟩⟩
      else none  -- rustworkx add_edge raises on an unknown node index
  | _ => none

/-- The commodity-line body of `read_modified_dow_instance`. The source
stores `int(source) - 1` unchecked; node ids below 1 (which would produce
negative indices) are rejected here. -/
def lineToCommodity (delta_t : ℚ) (idx : Nat) (line : List ℚ) :
    Option Commodity := do
  match line.take 5 with
  | [source_node, sink_node, quantity, release, deadline] =>
    if delta_t = 0 then none
    else
      if 0 ≤ pyTrunc source_node - 1 ∧ 0 ≤ pyTrunc sink_node - 1 then
        some ⟨idx, (pyTrunc source_node - 1).toNat,
              (pyTrunc sink_node - 1).toNat, quantity,
              (release / delta_t).ceil, (deadline / delta_t).floor⟩
      else none
  | _ => none

/-- `instance.read_modified_dow_instance`, over a tokenised file: each
line is its list of numeric tokens (floats as rationals). -/
def read_modified_dow_instance (lines : List (List ℚ)) (delta_t : ℚ) :
    Option InstanceM := do
  let l1 ← lines.get? 1
  match l1 with
  | [a, b, c] => do
    let n_nodes ← pyIntOfToken a
    let n_arcs ← pyIntOfToken b
    let _n_commodities ← pyIntOfToken c
    let nodeList := (List.range n_nodes.toNat).map
      (fun i => NodeData.mk (toString (i + 1)))
    let arcs ← ((lines.drop 2).take n_arcs.toNat).foldlM
      (fun (acc : List FlatArc) line => do
        let fa ← lineToFlatArc n_nodes.toNat delta_t line
        pure (acc ++ [fa])) []
    let commodities ← (lines.drop (n_arcs.toNat + 2)).foldlM
      (fun (acc : List Commodity) line => do
        let com ← lineToCommodity delta_t acc.length line
        pure (acc ++ [com])) []
    pure ⟨⟨nodeList, arcs⟩, commodities⟩
  | _ => none

/-! ## Design model: flow conservation (`snd_model.py`) -/

namespace DiscretizedGraph

/-- `DiscretizedGraph.get_out_edge_indices` (= `incident_edges(node)`). -/
def get_out_edge_indices (g : DiscretizedGraph) (node : Nat) : List Nat :=
  (g.edges.filter (fun e => e.2.src == node)).map Prod.fst

/-- `DiscretizedGraph.get_in_edge_indices`: incident edges (in both
directions) filtered to those whose head is `node`. -/
def get_in_edge_indices (g : DiscretizedGraph) (node : Nat) : List Nat :=
  ((g.edges.filter (fun e => e.2.src == node || e.2.dst == node)).filter
    (fun e => e.2.dst == node)).map Prod.fst

end DiscretizedGraph

/-- One flow-conservation constraint
`Σ_{out} x[arc, com] − Σ_{in} x[arc, com] = rhs`. -/
structure FlowConstr where
  com_id : Nat
  node : Nat
  outs : List Nat
  ins : List Nat
  rhs : Int
deriving DecidableEq, Repr

/-- `snd_model.add_flow_conservation_constraints` (the constraints it
emits, in order). -/
def add_flow_conservation_constraints (g : DiscretizedGraph)
    (coms : List Commodity) : Option (List FlowConstr) :=
  coms.foldlM (fun (acc : List FlowConstr) com => do
    let timesS ← g.node_to_times.get? com.source_node
    let k_source := bisect_left timesS com.release
    let expS ← g.flat_to_expanded_nodes.get? com.source_node
    let source_node ← expS.get? k_source
    let timesT ← g.node_to_times.get? com.sink_node
    let k_sink := bisect_left timesT com.deadline
    let expT ← g.flat_to_expanded_nodes.get? com.sink_node
    let sink_node ← expT.get? k_sink
    let cs := (List.range g.nodes.length).map (fun node =>
      FlowConstr.mk com.id node (g.get_out_edge_indices node)
        (g.get_in_edge_indices node)
        (if node = source_node then 1 else if node = sink_node then -1 else 0))
    pure (acc ++ cs)) []

/-- Spec-side description (refinement target, following the words of the
specification): `n` is the first timed node of flat node `v` whose time
is at least `bound`. -/
def IsFirstTimedAtLeast (g : DiscretizedGraph) (v : Nat) (bound : Int)
    (n : Nat) : Prop :=
  ∃ k, (g.flat_to_expanded_nodes.getD v []).get? k = some n ∧
    (∃ t, (g.node_to_times.getD v []).get? k = some t ∧ bound ≤ t) ∧
    (∀ i t, i < k → (g.node_to_times.getD v []).get? i = some t → t < bound)

/-! ## Solution model (`solution.py`) -/

/-- `solution.TimedService` (all fields are required; `n_vehicles` has
no default). -/
structure TimedService where
  start_time : Int
  end_time : Int
  start_node : Nat
  end_node : Nat
  travel_time : Int
  n_vehicles : Int
  cost : ℚ
  capacity : ℚ
  commodities_transported : List Commodity
deriving DecidableEq, Repr

/-- The keyword arguments of a `TimedService(...)` call; Python raises
`TypeError` when a required field is missing. -/
structure TimedServiceKwargs where
  start_time : Option Int := none
  end_time : Option Int := none
  start_node : Option Nat := none
  end_node : Option Nat := none
  travel_time : Option Int := none
  n_vehicles : Option Int := none
  cost : Option ℚ := none
  capacity : Option ℚ := none
  commodities_transported : Option (List Commodity) := none

/-- Constructing a `TimedService` from keyword arguments: succeeds only
when every required field is supplied. -/
def TimedService.fromKwargs (kw : TimedServiceKwargs) :
    Except String TimedService :=
  match kw.start_time, kw.end_time, kw.start_node, kw.end_node,
    kw.travel_time, kw.n_vehicles, kw.cost, kw.capacity,
    kw.commodities_transported with
  | some a, some b, some c, some d, some e, some f, some g, some h, some i =>
    .ok ⟨a, b, c, d, e, f, g, h, i⟩
  | _, _, _, _, _, _, _, _, _ =>
    .error "TypeError: __init__ missing required argument"

/-- `solution.CommodityPath`. -/
structure CommodityPath where
  duration : Int
  flow_cost : ℚ
  services : List TimedService
deriving DecidableEq, Repr

/-- `solution.Solution`. -/
structure Solution where
  services : List TimedService
  commodity_paths : List CommodityPath
  total_flow_cost : ℚ
  total_fixed_cost : ℚ
  total_cost : ℚ
deriving DecidableEq, Repr

/-! ## Solution extraction (`snd_model.get_solution`) -/

/-- `GRB.OPTIMAL`. -/
def GRB_OPTIMAL : Nat := 2

/-- Python `round(x)` (banker's rounding, half to even). -/
def pyRound (q : ℚ) : Int :=
  let f := q.floor
  if q - f < 1 / 2 then f
  else if 1 / 2 < q - f then f + 1
  else if f % 2 = 0 then f else f + 1

/-- Python's `10e100` literal, used as the initial `earliest_found`. -/
def PY_BIG : Int := 10 * 10 ^ 100

/-- The candidate search inside the service-sorting loop of
`get_solution`: the earliest service leaving the current node no
earlier than the current time. -/
def findCandidate (current_node : Nat) (current_time : Int)
    (l : List TimedService) : Option TimedService :=
  (l.foldl (fun (best : Int × Option TimedService) s =>
    if s.start_node = current_node ∧ current_time ≤ s.start_time ∧
        s.start_time < best.1 then
      (s.start_time, some s)
    else best) (PY_BIG, none)).2

/-- The `while` loop sorting one commodity's services along its path;
the fuel starts at the list length and cannot expire (each round removes
the chosen service). -/
def sortComServices : Nat → Nat → Int → List TimedService →
    List TimedService → Except String (List TimedService)
  | 0, _, _, l, acc =>
    if l.isEmpty then pure acc else .error "fuel exhausted"
  | fuel + 1, current_node, current_time, l, acc =>
    if l.isEmpty then pure acc
    else
      match findCandidate current_node current_time l with
      | none => .error "Could not construct service"
      | some c =>
        sortComServices fuel c.end_node c.end_time (l.erase c) (acc ++ [c])

/-- The per-commodity body of the extraction loop: record the commodity
on the service and accumulate its flow cost.  The state is
`(commodities_transported, commodity_paths, total_flow_cost)`. -/
def solutionComStep (xv : Nat → Nat → ℚ) (arc : Nat) (e : EdgeRec)
    (st2 : List Commodity × List CommodityPath × ℚ) (com : Commodity) :
    Except String (List Commodity × List CommodityPath × ℚ) :=
  if 1 / 2 < xv arc com.id then do
    let cp ← match st2.2.1.get? com.id with
      | some cp => pure cp
      | none => Except.error "IndexError"
    let arc_flow_cost := com.quantity * e.data.flow_cost
    let cp2 : CommodityPath :=
      { cp with flow_cost := cp.flow_cost + arc_flow_cost,
                duration := cp.duration + e.data.travel_time }
    pure (st2.1 ++ [com], st2.2.1.set com.id cp2, st2.2.2 + arc_flow_cost)
  else pure st2

/-- `commodity_paths[com.id].services.append(service)`. -/
def solutionAppendStep (service : TimedService) (ps : List CommodityPath)
    (com : Commodity) : Except String (List CommodityPath) := do
  let cp ← match ps.get? com.id with
    | some cp => pure cp
    | none => Except.error "IndexError"
  pure (ps.set com.id { cp with services := cp.services ++ [service] })

/-- The per-arc body of the extraction loop in `get_solution`; the state
is `(services, commodity_paths, total_flow_cost, total_fixed_cost)`. -/
def getSolutionArcStep (xv : Nat → Nat → ℚ) (yv : Nat → ℚ)
    (coms : List Commodity) (g : DiscretizedGraph)
    (st : List TimedService × List CommodityPath × ℚ × ℚ)
    (p : Nat × EdgeRec) :
    Except String (List TimedService × List CommodityPath × ℚ × ℚ) := do
  let (services, paths, tflow, tfixed) := st
  match p.2.data.capacity with
  | none => pure st  -- holding arc
  | some cap =>
    let val := pyRound (yv p.1)
    if val = 0 then pure st
    else do
      let ndi ← match g.nodes.get? p.2.src with
        | some nd => pure nd
        | none => Except.error "IndexError"
      let ndj ← match g.nodes.get? p.2.dst with
        | some nd => pure nd
        | none => Except.error "IndexError"
      let service_cost : ℚ := (val : ℚ) * p.2.data.fixed_cost
      let tfixed := tfixed + service_cost
      let inner ← coms.foldlM (solutionComStep xv p.1 p.2) ([], paths, tflow)
      let (transported, paths, tflow) := inner
      -- the TimedService(...) call in `get_solution` supplies every
      -- field except `n_vehicles`
      let service ← TimedService.fromKwargs
        { start_time := some ndi.time, end_time := some ndj.time,
          start_node := some ndi.flat_node, end_node := some ndj.flat_node,
          travel_time := some p.2.data.travel_time,
          cost := some service_cost, capacity := some ((val : ℚ) * cap),
          commodities_transported := some transported }
      let paths ← transported.foldlM (solutionAppendStep service) paths
      pure (services ++ [service], paths, tflow, tfixed)

/-- Sorting one commodity's path in place (the per-commodity body of the
sorting loop in `get_solution`). -/
def solutionSortStep (ps : List CommodityPath) (com : Commodity) :
    Except String (List CommodityPath) := do
  let cp ← match ps.get? com.id with
    | some cp => pure cp
    | none => Except.error "IndexError"
  let sorted ← sortComServices cp.services.length com.source_node
    com.release cp.services []
  pure (ps.set com.id { cp with services := sorted })

/-- `snd_model.get_solution`, over abstract solver values: `status` and
`objVal` of the model, `xv`/`yv` the variable values. -/
def get_solution (status : Nat) (objVal : ℚ) (xv : Nat → Nat → ℚ)
    (yv : Nat → ℚ) (coms : List Commodity) (g : DiscretizedGraph) :
    Except String Solution := do
  if status ≠ GRB_OPTIMAL then
    Except.error "Optimization was stopped"
  else do
    let st ← g.edges.foldlM (getSolutionArcStep xv yv coms g)
      ([], coms.map (fun _ => (⟨0, 0, []⟩ : CommodityPath)), 0, 0)
    let (services, paths, tflow, tfixed) := st
    let paths ← coms.foldlM solutionSortStep paths
    if tflow + tfixed = objVal then
      pure ⟨services, paths, tflow, tfixed, tflow + tfixed⟩
    else
      Except.error "AssertionError: Gurobi obj does not match"

/-! ## Identification model (`discretization_discovery.py`) -/

/-- `get_commodity_node_paths`: visited flat nodes along the services,
plus the sink. -/
def get_commodity_node_paths (sol : Solution) (coms : List Commodity) :
    Option (List (List Nat)) :=
  coms.foldlM (fun (acc : List (List Nat)) com => do
    let cp ← sol.commodity_paths.get? com.id
    let visited := cp.services.map (fun s => s.start_node) ++ [com.sink_node]
    pure (acc ++ [visited])) []

/-- One `theta` variable of the identification model, with its lower
bound (the relaxed travel time). -/
structure DurVar where
  com_id : Nat
  k : Nat
  lb : Int
deriving DecidableEq, Repr

/-- `add_duration_variables`: one `theta[com, k]` per arc of the
commodity's node path, lower-bounded by the relaxed travel time. -/
def add_duration_variables (sol : Solution) (coms : List Commodity)
    (com_node_paths : List (List Nat)) : Option (List DurVar) :=
  coms.foldlM (fun (acc : List DurVar) com => do
    let path ← com_node_paths.get? com.id
    (List.range (path.length - 1)).foldlM (fun (acc2 : List DurVar) k => do
      let cp ← sol.commodity_paths.get? com.id
      let sv ← cp.services.get? k
      pure (acc2 ++ [⟨com.id, k, sv.end_time - sv.start_time⟩])) acc) []

/-- Dictionary lookup `duration[com_id, k]`. -/
def findDurVar (vars : List DurVar) (c k : Nat) : Option DurVar :=
  vars.find? (fun v => v.com_id == c && v.k == k)

/-- One linking constraint
`theta[com, k] ≥ real_tt − (real_tt − lb) · sigma[com, k]`. -/
structure LinkConstr where
  com_id : Nat
  k : Nat
  real_travel_time : Int
  lb : Int
deriving DecidableEq, Repr

/-- `add_linking_constraints` ((6) in Boland et al.). -/
def add_linking_constraints (sol : Solution) (duration : List DurVar)
    (com_node_paths : List (List Nat)) (coms : List Commodity) :
    Option (List LinkConstr) :=
  coms.foldlM (fun (acc : List LinkConstr) com => do
    let path ← com_node_paths.get? com.id
    (List.range (path.length - 1)).foldlM
      (fun (acc2 : List LinkConstr) k => do
        let cp ← sol.commodity_paths.get? com.id
        let sv ← cp.services.get? k
        let dv ← findDurVar duration com.id k
        pure (acc2 ++ [⟨com.id, k, sv.travel_time, dv.lb⟩])) acc) []

/-! ## Concrete data for the model-level claims -/

/-- A commodity `0 → 2` with release 0 and deadline 3. -/
def c7com : Commodity := ⟨0, 0, 2, 1, 0, 3⟩

/-- A single relaxed service `(0,0) → (2,2)` with real travel time 1. -/
def c7service : TimedService := ⟨0, 2, 0, 2, 1, 1, 2, 2, [c7com]⟩

/-- A one-commodity solution whose path is the single service. -/
def c7sol : Solution := ⟨[c7service], [⟨2, 2, [c7service]⟩], 2, 1, 3⟩

/-- The flow-conservation constraints of the tiny graph for `c7com`. -/
def tinyCs : List FlowConstr :=
  (add_flow_conservation_constraints tinyG [c7com]).getD []

/-- A degenerate commodity whose source and sink coincide. -/
def c6degCom : Commodity := ⟨0, 0, 0, 1, 0, 0⟩

/-- A concrete tokenised DOW file: a skipped header line, a count line
`2 1 1` (nodes, arcs, commodities), one arc line and one commodity
line, both using 1-based node ids. -/
def c9lines : List (List ℚ) :=
  [[], [2, 1, 1], [1, 2, 1, 2, 1, 1], [1, 2, 1, 0, 3]]

/-- The instance parsed from `c9lines` at `delta_t = 1`. -/
def c9ins : InstanceM :=
  ⟨⟨[⟨"1"⟩, ⟨"2"⟩], [⟨0, 1, ⟨1, 1, 1, some 2⟩⟩]⟩, [⟨0, 0, 1, 1, 0, 3⟩]⟩

/-! ## Invariants of reachable expanded graphs -/

/-- Per-flat-node time list (empty when the index is out of range). -/
def nttOf (g : DiscretizedGraph) (v : Nat) : List Int :=
  g.node_to_times.getD v []

/-- Per-flat-node expanded-node list. -/
def expOf (g : DiscretizedGraph) (v : Nat) : List Nat :=
  g.flat_to_expanded_nodes.getD v []

/-- Number of edges from expanded node `a` to expanded node `b`. -/
def countBetween (g : DiscretizedGraph) (a b : Nat) : Nat :=
  (g.edges.filter (fun e => e.2.src == a && e.2.dst == b)).length

/-- The flat graph is loop-free. -/
def FlatGraph.loopFree (fg : FlatGraph) : Prop :=
  ∀ a ∈ fg.arcs, a.src ≠ a.dst

/-- All flat travel times are nonnegative. -/
def FlatGraph.nonnegTravel (fg : FlatGraph) : Prop :=
  ∀ a ∈ fg.arcs, 0 ≤ a.data.travel_time

/-- Claim-side upper bound (relaxed mode): every travel arc arrives no
later than start time plus travel time. -/
def TravelArcUB (g : DiscretizedGraph) : Prop :=
  ∀ p ∈ g.edges, ∀ a b, g.nodes.get? p.2.src = some a →
    g.nodes.get? p.2.dst = some b → a.flat_node ≠ b.flat_node →
    b.time ≤ a.time + p.2.data.travel_time

/-- Claim-side lower bound (non-relaxed mode). -/
def TravelArcLB (g : DiscretizedGraph) : Prop :=
  ∀ p ∈ g.edges, ∀ a b, g.nodes.get? p.2.src = some a →
    g.nodes.get? p.2.dst = some b → a.flat_node ≠ b.flat_node →
    a.time + p.2.data.travel_time ≤ b.time

/-- Claim-side statement for the holding-arc structure: exactly one
holding arc between consecutive expanded nodes of each flat node, and
every same-flat-node edge is such a holding arc (zero payload,
consecutive positions). -/
def HoldingArcsExact (g : DiscretizedGraph) : Prop :=
  (∀ v, v < g.g_flat.nodes.length → ∀ k, k + 1 < (expOf g v).length →
    countBetween g ((expOf g v).getD k 0) ((expOf g v).getD (k + 1) 0) = 1) ∧
  (∀ p ∈ g.edges, ∀ a b, g.nodes.get? p.2.src = some a →
    g.nodes.get? p.2.dst = some b → a.flat_node = b.flat_node →
    p.2.data = holdingArcData ∧
      ∃ k, (expOf g a.flat_node).get? k = some p.2.src ∧
        (expOf g a.flat_node).get? (k + 1) = some p.2.dst)

/-- The structural invariant maintained by construction and refinement
(mode-independent). -/
structure CoreInv (g : DiscretizedGraph) : Prop where
  exp_len : g.flat_to_expanded_nodes.length = g.g_flat.nodes.length
  ntt_len : g.node_to_times.length = g.g_flat.nodes.length
  len_eq : ∀ v, v < g.g_flat.nodes.length →
    (expOf g v).length = (nttOf g v).length
  node_mem : ∀ v, v < g.g_flat.nodes.length → ∀ k nid,
    (expOf g v).get? k = some nid →
    ∃ nd, g.nodes.get? nid = some nd ∧ nd.flat_node = v ∧
      (nttOf g v).get? k = some nd.time
  exp_nodup : ∀ v, v < g.g_flat.nodes.length → (expOf g v).Nodup
  edge_valid : ∀ p ∈ g.edges, p.2.src < g.nodes.length ∧
    p.2.dst < g.nodes.length
  idx_bound : ∀ p ∈ g.edges, p.1 < g.next_edge
  idx_nodup : (g.edges.map Prod.fst).Nodup
  same_flat_holding : ∀ p ∈ g.edges, ∀ a b,
    g.nodes.get? p.2.src = some a → g.nodes.get? p.2.dst = some b →
    a.flat_node = b.flat_node →
    p.2.data = holdingArcData ∧
      ∃ k, (expOf g a.flat_node).get? k = some p.2.src ∧
        (expOf g a.flat_node).get? (k + 1) = some p.2.dst
  holding_one : ∀ v, v < g.g_flat.nodes.length → ∀ k,
    k + 1 < (expOf g v).length →
    countBetween g ((expOf g v).getD k 0) ((expOf g v).getD (k + 1) 0) = 1
  travel_link : ∀ p ∈ g.edges, ∀ a b,
    g.nodes.get? p.2.src = some a → g.nodes.get? p.2.dst = some b →
    a.flat_node ≠ b.flat_node →
    ∃ fa ∈ g.g_flat.arcs, fa.src = a.flat_node ∧ fa.dst = b.flat_node ∧
      fa.data = p.2.data

/-- All per-node time lists are sorted (non-decreasing). -/
def sortedNtt (g : DiscretizedGraph) : Prop :=
  ∀ v, v < g.g_flat.nodes.length → (nttOf g v).Pairwise (· ≤ ·)

/-- All per-node time lists start with the time point 0. -/
def head0Ntt (g : DiscretizedGraph) : Prop :=
  ∀ v, v < g.g_flat.nodes.length → (nttOf g v).head? = some 0

/-- Reachability: the graphs obtained from a given state by successful
`refine_discretization` calls. -/
inductive Reaches : DiscretizedGraph → DiscretizedGraph → Prop
  | refl (g : DiscretizedGraph) : Reaches g g
  | step {g g1 g2 : DiscretizedGraph} (v : Nat) (t : Int) :
    Reaches g g1 → g1.refine_discretization v t = some g2 → Reaches g g2

/-! # Theorems -/

/-! ## Monadic fold helpers -/

theorem option_bind_eq_some {α β : Type} (x : Option α) (f : α → Option β)
    (b : β) : x >>= f = some b ↔ ∃ a, x = some a ∧ f a = some b := by
  cases x <;> simp

theorem except_bind_eq_ok {ε α β : Type} (x : Except ε α)
    (f : α → Except ε β) (b : β) :
    x >>= f = .ok b ↔ ∃ a, x = .ok a ∧ f a = .ok b := by
  cases x <;> simp [Bind.bind, Except.bind]

theorem except_bind_err {ε α β : Type} (x : Except ε α) (a : α)
    (f : α → Except ε β) (e : ε) (hx : x = .ok a) (hf : f a = .error e) :
    x >>= f = .error e := by
  subst hx; simpa [Bind.bind, Except.bind] using hf

theorem get?_to_getElem {α : Type} (l : List α) (n : Nat) (a : α)
    (h : l.get? n = some a) : l[n]? = some a := by
  rw [← List.get?_eq_getElem?]; exact h

theorem getD_of_get? {α : Type} (l : List α) (n : Nat) (a d : α)
    (h : l.get? n = some a) : l.getD n d = a := by
  have hn : n < l.length := by
    by_contra h2
    rw [List.get?_eq_none.mpr (by omega)] at h
    exact absurd h (by simp)
  rw [List.getD_eq_getElem l d hn]
  rw [List.get?_eq_get hn] at h
  injection h with h

theorem foldlM_option_preserve {α β : Type} (P : β → Prop)
    (step : β → α → Option β) :
    ∀ (l : List α) (b0 bf : β), l.foldlM step b0 = some bf → P b0 →
      (∀ b a b2, a ∈ l → P b → step b a = some b2 → P b2) → P bf := by
  intro l
  induction l with
  | nil =>
    intro b0 bf h hP _
    simp only [List.foldlM_nil, Option.pure_def, Option.some.injEq] at h
    exact h ▸ hP
  | cons a l ih =>
    intro b0 bf h hP hstep
    simp only [List.foldlM_cons] at h
    rw [option_bind_eq_some] at h
    obtain ⟨b1, h1, h2⟩ := h
    exact ih b1 bf h2 (hstep b0 a b1 (by simp) hP h1)
      (fun b x b2 hx => hstep b x b2 (by simp [hx]))

theorem foldlM_except_preserve {ε α β : Type} (P : β → Prop)
    (step : β → α → Except ε β) :
    ∀ (l : List α) (b0 bf : β), l.foldlM step b0 = .ok bf → P b0 →
      (∀ b a b2, a ∈ l → P b → step b a = .ok b2 → P b2) → P bf := by
  intro l
  induction l with
  | nil =>
    intro b0 bf h hP _
    simp only [List.foldlM_nil, pure, Except.pure, Except.ok.injEq] at h
    exact h ▸ hP
  | cons a l ih =>
    intro b0 bf h hP hstep
    simp only [List.foldlM_cons] at h
    rw [except_bind_eq_ok] at h
    obtain ⟨b1, h1, h2⟩ := h
    exact ih b1 bf h2 (hstep b0 a b1 (by simp) hP h1)
      (fun b x b2 hx => hstep b x b2 (by simp [hx]))

/-! ## C4: the missing `n_vehicles` argument in `get_solution` -/

theorem solutionComFold_ok (xv : Nat → Nat → ℚ) (arc : Nat) (e : EdgeRec)
    (n : Nat) :
    ∀ (cl : List Commodity) (st2 : List Commodity × List CommodityPath × ℚ),
      st2.2.1.length = n → (∀ c ∈ cl, c.id < n) →
      ∃ res, cl.foldlM (solutionComStep xv arc e) st2 = .ok res ∧
        res.2.1.length = n := by
  intro cl
  induction cl with
  | nil =>
    intro st2 h _
    exact ⟨st2, by simp [List.foldlM_nil, pure, Except.pure], h⟩
  | cons c cl ih =>
    intro st2 h hcl
    have hcid : c.id < n := hcl c (by simp)
    by_cases hx : 1 / 2 < xv arc c.id
    · obtain ⟨cp, hcp⟩ : ∃ cp, st2.2.1.get? c.id = some cp := by
        cases hg : st2.2.1.get? c.id with
        | none => exact absurd (List.get?_eq_none.mp hg) (by omega)
        | some cp => exact ⟨cp, rfl⟩
      obtain ⟨res, hres, hlen⟩ := ih
        (st2.1 ++ [c], st2.2.1.set c.id
          { (cp : CommodityPath) with
            flow_cost := cp.flow_cost + c.quantity * e.data.flow_cost,
            duration := cp.duration + e.data.travel_time },
          st2.2.2 + c.quantity * e.data.flow_cost)
        (by simpa using h) (fun x hx2 => hcl x (by simp [hx2]))
      refine ⟨res, ?_, hlen⟩
      rw [List.foldlM_cons]
      have hstep : solutionComStep xv arc e st2 c =
          .ok (st2.1 ++ [c], st2.2.1.set c.id
            { (cp : CommodityPath) with
              flow_cost := cp.flow_cost + c.quantity * e.data.flow_cost,
              duration := cp.duration + e.data.travel_time },
            st2.2.2 + c.quantity * e.data.flow_cost) := by
        unfold solutionComStep
        rw [if_pos hx, hcp]
        rfl
      rw [hstep]
      simpa [Bind.bind, Except.bind] using hres
    · obtain ⟨res, hres, hlen⟩ := ih st2 h (fun x hx2 => hcl x (by simp [hx2]))
      refine ⟨res, ?_, hlen⟩
      rw [List.foldlM_cons]
      have hstep : solutionComStep xv arc e st2 c = .ok st2 := by
        unfold solutionComStep
        rw [if_neg hx]
        rfl
      rw [hstep]
      simpa [Bind.bind, Except.bind] using hres

theorem getSolutionArcStep_selected (xv : Nat → Nat → ℚ) (yv : Nat → ℚ)
    (coms : List Commodity) (g : DiscretizedGraph)
    (st : List TimedService × List CommodityPath × ℚ × ℚ)
    (p : Nat × EdgeRec)
    (hcap : p.2.data.capacity ≠ none) (hy : pyRound (yv p.1) ≠ 0)
    (hsrc : p.2.src < g.nodes.length) (hdst : p.2.dst < g.nodes.length)
    (hlen : st.2.1.length = coms.length)
    (hcoms : ∀ c ∈ coms, c.id < coms.length) :
    getSolutionArcStep xv yv coms g st p =
      .error "TypeError: __init__ missing required argument" := by
  obtain ⟨cap, hcap2⟩ : ∃ cap, p.2.data.capacity = some cap := by
    cases hc : p.2.data.capacity with
    | none => exact absurd hc hcap
    | some cap => exact ⟨cap, rfl⟩
  obtain ⟨ndi, hndi⟩ : ∃ nd, g.nodes.get? p.2.src = some nd := by
    cases hg : g.nodes.get? p.2.src with
    | none => exact absurd (List.get?_eq_none.mp hg) (by omega)
    | some nd => exact ⟨nd, rfl⟩
  obtain ⟨ndj, hndj⟩ : ∃ nd, g.nodes.get? p.2.dst = some nd := by
    cases hg : g.nodes.get? p.2.dst with
    | none => exact absurd (List.get?_eq_none.mp hg) (by omega)
    | some nd => exact ⟨nd, rfl⟩
  obtain ⟨inner, hinner, hilen⟩ :=
    solutionComFold_ok xv p.1 p.2 coms.length coms ([], st.2.1, st.2.2.1)
      (by simpa using hlen) hcoms
  obtain ⟨ct, ps2, tf2⟩ := inner
  simp only [getSolutionArcStep, hcap2, hy, if_neg, hndi, hndj, hinner,
    TimedService.fromKwargs, Bind.bind, Except.bind]
  simp [hy]
  rfl

theorem getSolutionArcStep_skipped (xv : Nat → Nat → ℚ) (yv : Nat → ℚ)
    (coms : List Commodity) (g : DiscretizedGraph)
    (st : List TimedService × List CommodityPath × ℚ × ℚ)
    (p : Nat × EdgeRec)
    (hp : ¬ (p.2.data.capacity ≠ none ∧ pyRound (yv p.1) ≠ 0)) :
    getSolutionArcStep xv yv coms g st p = .ok st := by
  cases hc : p.2.data.capacity with
  | none => simp [getSolutionArcStep, hc, pure, Except.pure]
  | some cap =>
    have hy : pyRound (yv p.1) = 0 := by
      by_contra hy
      exact hp ⟨by simp [hc], hy⟩
    simp [getSolutionArcStep, hc, hy, pure, Except.pure]

theorem getSolutionArcFold_spec (xv : Nat → Nat → ℚ) (yv : Nat → ℚ)
    (coms : List Commodity) (g : DiscretizedGraph)
    (hcoms : ∀ c ∈ coms, c.id < coms.length) :
    ∀ (es : List (Nat × EdgeRec))
      (st : List TimedService × List CommodityPath × ℚ × ℚ),
      st.2.1.length = coms.length →
      (∀ p ∈ es, p.2.src < g.nodes.length ∧ p.2.dst < g.nodes.length) →
      ((∃ p ∈ es, p.2.data.capacity ≠ none ∧ pyRound (yv p.1) ≠ 0) →
        es.foldlM (getSolutionArcStep xv yv coms g) st =
          .error "TypeError: __init__ missing required argument") ∧
      (∀ st', es.foldlM (getSolutionArcStep xv yv coms g) st = .ok st' →
        st' = st) := by
  intro es
  induction es with
  | nil =>
    intro st _ _
    constructor
    · rintro ⟨p, hp, -⟩
      exact absurd hp (by simp)
    · intro st' h
      simpa [List.foldlM_nil, pure, Except.pure] using h.symm
  | cons p es ih =>
    intro st hlen hval
    by_cases hp : p.2.data.capacity ≠ none ∧ pyRound (yv p.1) ≠ 0
    · have hstep := getSolutionArcStep_selected xv yv coms g st p hp.1 hp.2
        (hval p (by simp)).1 (hval p (by simp)).2 hlen hcoms
      constructor
      · intro _
        rw [List.foldlM_cons, hstep]
        simp [Bind.bind, Except.bind]
      · intro st' h
        rw [List.foldlM_cons, hstep] at h
        simp [Bind.bind, Except.bind] at h
    · have hstep := getSolutionArcStep_skipped xv yv coms g st p hp
      obtain ⟨ih1, ih2⟩ := ih st hlen (fun q hq => hval q (by simp [hq]))
      constructor
      · rintro ⟨q, hq, hqsel⟩
        have hq2 : q ∈ es := by
          rcases List.mem_cons.mp hq with h | h
          · exact absurd (h ▸ hqsel) hp
          · exact h
        rw [List.foldlM_cons, hstep]
        simpa [Bind.bind, Except.bind] using ih1 ⟨q, hq2, hqsel⟩
      · intro st' h
        rw [List.foldlM_cons, hstep] at h
        simp only [Bind.bind, Except.bind] at h
        exact ih2 st' h

theorem solutionSortFold_ok (n : Nat) :
    ∀ (cl : List Commodity) (ps : List CommodityPath),
      ps.length = n → (∀ c ∈ cl, c.id < n) →
      (∀ cp ∈ ps, cp.services = []) →
      ∃ ps', cl.foldlM solutionSortStep ps = .ok ps' := by
  intro cl
  induction cl with
  | nil => intro ps _ _ _; exact ⟨ps, by simp [List.foldlM_nil, pure, Except.pure]⟩
  | cons c cl ih =>
    intro ps hn hcl hs
    have hcid : c.id < n := hcl c (by simp)
    obtain ⟨cp, hcp⟩ : ∃ cp, ps.get? c.id = some cp := by
      cases hg : ps.get? c.id with
      | none => exact absurd (List.get?_eq_none.mp hg) (by omega)
      | some cp => exact ⟨cp, rfl⟩
    have hcs : cp.services = [] := hs cp (List.get?_mem hcp)
    obtain ⟨dur, fc, svs⟩ := cp
    have hcs2 : svs = [] := hcs
    subst hcs2
    have hstep : solutionSortStep ps c =
        .ok (ps.set c.id ⟨dur, fc, []⟩) := by
      unfold solutionSortStep
      rw [hcp]
      rfl
    obtain ⟨ps', hps'⟩ := ih (ps.set c.id ⟨dur, fc, []⟩)
      (by simpa using hn) (fun x hx => hcl x (by simp [hx]))
      (by
        intro q hq
        rcases List.mem_or_eq_of_mem_set hq with h | h
        · exact hs q h
        · simp [h])
    refine ⟨ps', ?_⟩
    rw [List.foldlM_cons, hstep]
    simpa [Bind.bind, Except.bind] using hps'

/-- C4: when `get_solution` runs on an optimal model in which some
travel arc (capacity not `None`) has a rounded design value different
from 0, it fails with the `TypeError` of the `TimedService(...)` call
that omits the required `n_vehicles` field; consequently a successfully
returned `Solution` always has an empty service list (so neither
`solve_snd` nor `solve_csnd`, which return `get_solution`'s output or
`None`, can ever return a solution with services). -/
theorem C4_get_solution_type_error (objVal : ℚ) (xv : Nat → Nat → ℚ)
    (yv : Nat → ℚ) (coms : List Commodity) (g : DiscretizedGraph)
    (hcoms : ∀ c ∈ coms, c.id < coms.length)
    (hval : ∀ p ∈ g.edges,
      p.2.src < g.nodes.length ∧ p.2.dst < g.nodes.length) :
    ((∃ p ∈ g.edges, p.2.data.capacity ≠ none ∧ pyRound (yv p.1) ≠ 0) →
      get_solution GRB_OPTIMAL objVal xv yv coms g =
        .error "TypeError: __init__ missing required argument") ∧
    (∀ sol, get_solution GRB_OPTIMAL objVal xv yv coms g = .ok sol →
      sol.services = []) := by
  have hinit : ((coms.map fun _ => (⟨0, 0, []⟩ : CommodityPath))).length =
      coms.length := by simp
  obtain ⟨hERR, hOK⟩ := getSolutionArcFold_spec xv yv coms g hcoms g.edges
    ([], coms.map fun _ => ⟨0, 0, []⟩, 0, 0) (by simp) hval
  constructor
  · intro hsel
    simp only [get_solution, ite_not, if_pos rfl]
    rw [hERR hsel]
    simp [Bind.bind, Except.bind]
  · intro sol h
    unfold get_solution at h
    rw [if_neg (by simp : ¬ GRB_OPTIMAL ≠ GRB_OPTIMAL)] at h
    rcases hfold : g.edges.foldlM (getSolutionArcStep xv yv coms g)
        ([], coms.map fun _ => ⟨0, 0, []⟩, 0, 0) with e | st
    · rw [hfold] at h
      simp [Bind.bind, Except.bind] at h
    · rw [hfold] at h
      have hst := hOK st hfold
      subst hst
      simp only [Bind.bind, Except.bind] at h
      rcases hsort : (coms.foldlM solutionSortStep
          (coms.map fun _ => (⟨0, 0, []⟩ : CommodityPath))) with e2 | ps
      · rw [hsort] at h
        simp at h
      · rw [hsort] at h
        simp only [pure, Except.pure] at h
        by_cases hobj : (0 : ℚ) + 0 = objVal
        · rw [if_pos hobj] at h
          simp only [pure, Except.pure, Except.ok.injEq] at h
          subst h
          rfl
        · rw [if_neg hobj] at h
          simp [pure, Except.pure] at h

/-! ## C7: identification-model duration variables and linking
constraints -/

theorem find?_eq_some_unique {α : Type} (p : α → Bool) (a : α) :
    ∀ (l : List α), a ∈ l → p a = true →
      (∀ b ∈ l, p b = true → b = a) → l.find? p = some a := by
  intro l
  induction l with
  | nil => intro h; exact absurd h (by simp)
  | cons x l ih =>
    intro hmem hpa huniq
    by_cases hx : p x = true
    · rw [List.find?_cons_of_pos _ hx, huniq x (by simp) hx]
    · rw [List.find?_cons_of_neg _ (by simpa using hx)]
      have hal : a ∈ l := by
        rcases List.mem_cons.mp hmem with h | h
        · exact absurd (h ▸ hpa) (by simpa using hx)
        · exact h
      exact ih hal hpa (fun b hb => huniq b (by simp [hb]))

theorem pathsFold_spec (sol : Solution) :
    ∀ (cl : List Commodity) (acc res : List (List Nat)),
      cl.foldlM (fun (acc : List (List Nat)) com => do
        let cp ← sol.commodity_paths.get? com.id
        let visited := cp.services.map (fun s => s.start_node) ++
          [com.sink_node]
        pure (acc ++ [visited])) acc = some res →
      res.length = acc.length + cl.length ∧
      (∀ i, i < acc.length → res.get? i = acc.get? i) ∧
      (∀ j com, cl.get? j = some com →
        ∃ cp, sol.commodity_paths.get? com.id = some cp ∧
          res.get? (acc.length + j) =
            some (cp.services.map (fun s => s.start_node) ++
              [com.sink_node])) := by
  intro cl
  induction cl with
  | nil =>
    intro acc res h
    simp only [List.foldlM_nil, Option.pure_def, Option.some.injEq] at h
    subst h
    refine ⟨by simp, fun i _ => rfl, fun j com hj => ?_⟩
    simp at hj
  | cons c cl ih =>
    intro acc res h
    rw [List.foldlM_cons] at h
    rw [option_bind_eq_some] at h
    obtain ⟨mid, hmid, hrest⟩ := h
    obtain ⟨cp, hcp, hmid2⟩ : ∃ cp, sol.commodity_paths.get? c.id = some cp ∧
        mid = acc ++ [cp.services.map (fun s => s.start_node) ++
          [c.sink_node]] := by
      cases hc : sol.commodity_paths.get? c.id with
      | none => rw [hc] at hmid; simp at hmid
      | some cp =>
        rw [hc] at hmid
        simp only [Option.bind_eq_bind, Option.some_bind, Option.pure_def,
          Option.some.injEq] at hmid
        exact ⟨cp, rfl, hmid.symm⟩
    subst hmid2
    obtain ⟨hlen, hpre, hnew⟩ := ih _ _ hrest
    refine ⟨by simp at hlen ⊢; omega, ?_, ?_⟩
    · intro i hi
      rw [hpre i (by simp; omega)]
      exact List.get?_append (by omega)
    · intro j com hj
      cases j with
      | zero =>
        simp only [List.get?_cons_zero, Option.some.injEq] at hj
        subst hj
        refine ⟨cp, hcp, ?_⟩
        rw [Nat.add_zero, hpre acc.length (by simp)]
        rw [List.get?_append_right (by omega)]
        simp
      | succ j =>
        simp only [List.get?_cons_succ] at hj
        obtain ⟨cp2, hcp2, hres2⟩ := hnew j com hj
        refine ⟨cp2, hcp2, ?_⟩
        rw [← hres2]
        congr 1
        simp
        omega

theorem durationInnerFold (sol : Solution) (cid : Nat) :
    ∀ (n : Nat) (acc res : List DurVar),
      (List.range n).foldlM (fun (acc2 : List DurVar) k => do
        let cp ← sol.commodity_paths.get? cid
        let sv ← cp.services.get? k
        pure (acc2 ++ [(⟨cid, k, sv.end_time - sv.start_time⟩ : DurVar)]))
        acc = some res →
      (∀ x ∈ acc, x ∈ res) ∧
      (∀ x ∈ res, x ∈ acc ∨ ∃ k, k < n ∧ ∃ cp sv,
        sol.commodity_paths.get? cid = some cp ∧
        cp.services.get? k = some sv ∧
        x = ⟨cid, k, sv.end_time - sv.start_time⟩) ∧
      (∀ k, k < n → ∃ cp sv, sol.commodity_paths.get? cid = some cp ∧
        cp.services.get? k = some sv ∧
        (⟨cid, k, sv.end_time - sv.start_time⟩ : DurVar) ∈ res) := by
  intro n
  induction n with
  | zero =>
    intro acc res h
    simp only [List.range_zero, List.foldlM_nil, Option.pure_def,
      Option.some.injEq] at h
    subst h
    exact ⟨fun x hx => hx, fun x hx => Or.inl hx, fun k hk => by omega⟩
  | succ n ih =>
    intro acc res h
    rw [List.range_succ, List.foldlM_append] at h
    rw [option_bind_eq_some] at h
    obtain ⟨mid, hmid, hlast⟩ := h
    obtain ⟨him, hrev, hall⟩ := ih acc mid hmid
    obtain ⟨cp, sv, hcp, hsv, hres⟩ : ∃ cp sv,
        sol.commodity_paths.get? cid = some cp ∧
        cp.services.get? n = some sv ∧
        res = mid ++ [(⟨cid, n, sv.end_time - sv.start_time⟩ : DurVar)] := by
      rw [List.foldlM_cons] at hlast
      cases hc : sol.commodity_paths.get? cid with
      | none => rw [hc] at hlast; simp at hlast
      | some cp =>
        rw [hc] at hlast
        simp only [Option.bind_eq_bind, Option.some_bind] at hlast
        cases hs : cp.services.get? n with
        | none => rw [hs] at hlast; simp at hlast
        | some sv =>
          rw [hs] at hlast
          simp only [Option.some_bind, List.foldlM_nil, Option.pure_def,
            Option.some.injEq] at hlast
          exact ⟨cp, sv, rfl, hs, hlast.symm⟩
    subst hres
    refine ⟨?_, ?_, ?_⟩
    · intro x hx
      exact List.mem_append_left _ (him x hx)
    · intro x hx
      rcases List.mem_append.mp hx with hx | hx
      · rcases hrev x hx with h | ⟨k, hk, rest⟩
        · exact Or.inl h
        · exact Or.inr ⟨k, by omega, rest⟩
      · simp only [List.mem_singleton] at hx
        exact Or.inr ⟨n, by omega, cp, sv, hcp, hsv, hx⟩
    · intro k hk
      by_cases hkn : k < n
      · obtain ⟨cp2, sv2, h1, h2, h3⟩ := hall k hkn
        exact ⟨cp2, sv2, h1, h2, List.mem_append_left _ h3⟩
      · have : k = n := by omega
        subst this
        exact ⟨cp, sv, hcp, hsv, List.mem_append_right _ (by simp)⟩

theorem durationFold_spec (sol : Solution) (paths : List (List Nat)) :
    ∀ (cl : List Commodity) (acc res : List DurVar),
      cl.foldlM (fun (acc : List DurVar) com => do
        let path ← paths.get? com.id
        (List.range (path.length - 1)).foldlM
          (fun (acc2 : List DurVar) k => do
            let cp ← sol.commodity_paths.get? com.id
            let sv ← cp.services.get? k
            pure (acc2 ++
              [(⟨com.id, k, sv.end_time - sv.start_time⟩ : DurVar)])) acc)
        acc = some res →
      (∀ x ∈ acc, x ∈ res) ∧
      (∀ x ∈ res, x ∈ acc ∨ ∃ com ∈ cl, ∃ k path cp sv,
        paths.get? com.id = some path ∧ k < path.length - 1 ∧
        sol.commodity_paths.get? com.id = some cp ∧
        cp.services.get? k = some sv ∧
        x = ⟨com.id, k, sv.end_time - sv.start_time⟩) ∧
      (∀ com ∈ cl, ∀ path, paths.get? com.id = some path →
        ∀ k, k < path.length - 1 → ∃ cp sv,
          sol.commodity_paths.get? com.id = some cp ∧
          cp.services.get? k = some sv ∧
          (⟨com.id, k, sv.end_time - sv.start_time⟩ : DurVar) ∈ res) := by
  intro cl
  induction cl with
  | nil =>
    intro acc res h
    simp only [List.foldlM_nil, Option.pure_def, Option.some.injEq] at h
    subst h
    exact ⟨fun x hx => hx, fun x hx => Or.inl hx, fun com hcom => by simp at hcom⟩
  | cons c cl ih =>
    intro acc res h
    rw [List.foldlM_cons] at h
    rw [option_bind_eq_some] at h
    obtain ⟨mid, hmid, hrest⟩ := h
    obtain ⟨path, hpath, hmid2⟩ : ∃ path, paths.get? c.id = some path ∧
        (List.range (path.length - 1)).foldlM
          (fun (acc2 : List DurVar) k => do
            let cp ← sol.commodity_paths.get? c.id
            let sv ← cp.services.get? k
            pure (acc2 ++
              [(⟨c.id, k, sv.end_time - sv.start_time⟩ : DurVar)])) acc =
          some mid := by
      cases hp : paths.get? c.id with
      | none => rw [hp] at hmid; simp at hmid
      | some path =>
        rw [hp] at hmid
        simp only [Option.bind_eq_bind, Option.some_bind] at hmid
        exact ⟨path, rfl, hmid⟩
    obtain ⟨him1, hrev1, hall1⟩ := durationInnerFold sol c.id _ acc mid hmid2
    obtain ⟨him2, hrev2, hall2⟩ := ih mid res hrest
    refine ⟨fun x hx => him2 x (him1 x hx), ?_, ?_⟩
    · intro x hx
      rcases hrev2 x hx with hx2 | ⟨com, hcom, rest⟩
      · rcases hrev1 x hx2 with hx3 | ⟨k, hk, cp, sv, h1, h2, h3⟩
        · exact Or.inl hx3
        · exact Or.inr ⟨c, by simp, k, path, cp, sv, hpath, hk, h1, h2, h3⟩
      · exact Or.inr ⟨com, by simp [hcom], rest⟩
    · intro com hcom path2 hpath2 k hk
      rcases List.mem_cons.mp hcom with hc | hc
      · subst hc
        rw [hpath2] at hpath
        obtain ⟨cp, sv, h1, h2, h3⟩ := hall1 k (by
          injection hpath with hpp
          rw [← hpp]
          exact hk)
        exact ⟨cp, sv, h1, h2, him2 _ h3⟩
      · exact hall2 com hc path2 hpath2 k hk

theorem linkingInnerFold (sol : Solution) (duration : List DurVar)
    (cid : Nat) :
    ∀ (n : Nat) (acc res : List LinkConstr),
      (List.range n).foldlM (fun (acc2 : List LinkConstr) k => do
        let cp ← sol.commodity_paths.get? cid
        let sv ← cp.services.get? k
        let dv ← findDurVar duration cid k
        pure (acc2 ++ [(⟨cid, k, sv.travel_time, dv.lb⟩ : LinkConstr)]))
        acc = some res →
      (∀ x ∈ acc, x ∈ res) ∧
      (∀ k, k < n → ∃ cp sv dv, sol.commodity_paths.get? cid = some cp ∧
        cp.services.get? k = some sv ∧ findDurVar duration cid k = some dv ∧
        (⟨cid, k, sv.travel_time, dv.lb⟩ : LinkConstr) ∈ res) := by
  intro n
  induction n with
  | zero =>
    intro acc res h
    simp only [List.range_zero, List.foldlM_nil, Option.pure_def,
      Option.some.injEq] at h
    subst h
    exact ⟨fun x hx => hx, fun k hk => by omega⟩
  | succ n ih =>
    intro acc res h
    rw [List.range_succ, List.foldlM_append] at h
    rw [option_bind_eq_some] at h
    obtain ⟨mid, hmid, hlast⟩ := h
    obtain ⟨him, hall⟩ := ih acc mid hmid
    obtain ⟨cp, sv, dv, hcp, hsv, hdv, hres⟩ : ∃ cp sv dv,
        sol.commodity_paths.get? cid = some cp ∧
        cp.services.get? n = some sv ∧
        findDurVar duration cid n = some dv ∧
        res = mid ++ [(⟨cid, n, sv.travel_time, dv.lb⟩ : LinkConstr)] := by
      rw [List.foldlM_cons] at hlast
      cases hc : sol.commodity_paths.get? cid with
      | none => rw [hc] at hlast; simp at hlast
      | some cp =>
        rw [hc] at hlast
        simp only [Option.bind_eq_bind, Option.some_bind] at hlast
        cases hs : cp.services.get? n with
        | none => rw [hs] at hlast; simp at hlast
        | some sv =>
          rw [hs] at hlast
          simp only [Option.some_bind] at hlast
          cases hd : findDurVar duration cid n with
          | none => rw [hd] at hlast; simp at hlast
          | some dv =>
            rw [hd] at hlast
            simp only [Option.some_bind, List.foldlM_nil, Option.pure_def,
              Option.some.injEq] at hlast
            exact ⟨cp, sv, dv, rfl, hs, rfl, hlast.symm⟩
    subst hres
    refine ⟨fun x hx => List.mem_append_left _ (him x hx), ?_⟩
    intro k hk
    by_cases hkn : k < n
    · obtain ⟨cp2, sv2, dv2, h1, h2, h3, h4⟩ := hall k hkn
      exact ⟨cp2, sv2, dv2, h1, h2, h3, List.mem_append_left _ h4⟩
    · have : k = n := by omega
      subst this
      exact ⟨cp, sv, dv, hcp, hsv, hdv, List.mem_append_right _ (by simp)⟩

theorem linkingFold_spec (sol : Solution) (duration : List DurVar)
    (paths : List (List Nat)) :
    ∀ (cl : List Commodity) (acc res : List LinkConstr),
      cl.foldlM (fun (acc : List LinkConstr) com => do
        let path ← paths.get? com.id
        (List.range (path.length - 1)).foldlM
          (fun (acc2 : List LinkConstr) k => do
            let cp ← sol.commodity_paths.get? com.id
            let sv ← cp.services.get? k
            let dv ← findDurVar duration com.id k
            pure (acc2 ++
              [(⟨com.id, k, sv.travel_time, dv.lb⟩ : LinkConstr)])) acc)
        acc = some res →
      (∀ x ∈ acc, x ∈ res) ∧
      (∀ com ∈ cl, ∀ path, paths.get? com.id = some path →
        ∀ k, k < path.length - 1 → ∃ cp sv dv,
          sol.commodity_paths.get? com.id = some cp ∧
          cp.services.get? k = some sv ∧
          findDurVar duration com.id k = some dv ∧
          (⟨com.id, k, sv.travel_time, dv.lb⟩ : LinkConstr) ∈ res) := by
  intro cl
  induction cl with
  | nil =>
    intro acc res h
    simp only [List.foldlM_nil, Option.pure_def, Option.some.injEq] at h
    subst h
    exact ⟨fun x hx => hx, fun com hcom => by simp at hcom⟩
  | cons c cl ih =>
    intro acc res h
    rw [List.foldlM_cons] at h
    rw [option_bind_eq_some] at h
    obtain ⟨mid, hmid, hrest⟩ := h
    obtain ⟨path, hpath, hmid2⟩ : ∃ path, paths.get? c.id = some path ∧
        (List.range (path.length - 1)).foldlM
          (fun (acc2 : List LinkConstr) k => do
            let cp ← sol.commodity_paths.get? c.id
            let sv ← cp.services.get? k
            let dv ← findDurVar duration c.id k
            pure (acc2 ++
              [(⟨c.id, k, sv.travel_time, dv.lb⟩ : LinkConstr)])) acc =
          some mid := by
      cases hp : paths.get? c.id with
      | none => rw [hp] at hmid; simp at hmid
      | some path =>
        rw [hp] at hmid
        simp only [Option.bind_eq_bind, Option.some_bind] at hmid
        exact ⟨path, rfl, hmid⟩
    obtain ⟨him1, hall1⟩ := linkingInnerFold sol duration c.id _ acc mid hmid2
    obtain ⟨him2, hall2⟩ := ih mid res hrest
    refine ⟨fun x hx => him2 x (him1 x hx), ?_⟩
    intro com hcom path2 hpath2 k hk
    rcases List.mem_cons.mp hcom with hc | hc
    · subst hc
      obtain ⟨cp, sv, dv, h1, h2, h3, h4⟩ := hall1 k (by
        rw [hpath2] at hpath
        injection hpath with hpp
        rw [← hpp]
        exact hk)
      exact ⟨cp, sv, dv, h1, h2, h3, him2 _ h4⟩
    · exact hall2 com hc path2 hpath2 k hk

/-- C7: in the identification model, for every commodity and every
position `k` along its service path, the duration variable
`theta[com, k]` has lower bound equal to the relaxed travel time
`end_time − start_time` of the `k`-th service, and the model contains
the linking constraint `theta ≥ τ − (τ − lb)·sigma` whose `τ` is that
service's real flat `travel_time` and whose `lb` is the duration
variable's lower bound. -/
theorem C7_duration_and_linking (sol : Solution) (coms : List Commodity)
    (paths : List (List Nat)) (D : List DurVar) (L : List LinkConstr)
    (hids : ∀ i com, coms.get? i = some com → com.id = i)
    (hpaths : get_commodity_node_paths sol coms = some paths)
    (hD : add_duration_variables sol coms paths = some D)
    (hL : add_linking_constraints sol D paths coms = some L) :
    ∀ i com, coms.get? i = some com →
      ∀ cp, sol.commodity_paths.get? com.id = some cp →
        ∀ k sv, cp.services.get? k = some sv →
          findDurVar D com.id k =
            some ⟨com.id, k, sv.end_time - sv.start_time⟩ ∧
          (⟨com.id, k, sv.travel_time, sv.end_time - sv.start_time⟩ :
            LinkConstr) ∈ L := by
  intro i com hcom cp hcp k sv hsv
  have hkd : k < cp.services.length := by
    by_contra hlt
    rw [List.get?_eq_none.mpr (by omega)] at hsv
    exact absurd hsv (by simp)
  have hid : com.id = i := hids i com hcom
  have hmem : com ∈ coms := List.get?_mem hcom
  -- characterize the commodity node path
  obtain ⟨hplen, hppre, hpchar⟩ := pathsFold_spec sol coms [] paths hpaths
  obtain ⟨cp2, hcp2, hpath⟩ := hpchar i com hcom
  rw [hcp] at hcp2
  injection hcp2 with hcp2
  subst hcp2
  simp only [List.length_nil, Nat.zero_add] at hpath
  have hpathid : paths.get? com.id =
      some (cp.services.map (fun s => s.start_node) ++ [com.sink_node]) := by
    rw [hid]; exact hpath
  have hklt : k < (cp.services.map (fun s => s.start_node) ++
      [com.sink_node]).length - 1 := by
    simp; omega
  -- the duration variable
  obtain ⟨hdim, hdrev, hdall⟩ := durationFold_spec sol paths coms [] D hD
  obtain ⟨cp3, sv3, hcp3, hsv3, hmemD⟩ := hdall com hmem _ hpathid k hklt
  rw [hcp] at hcp3
  injection hcp3 with hcp3
  subst hcp3
  rw [hsv] at hsv3
  injection hsv3 with hsv3
  subst hsv3
  have huniq : ∀ b ∈ D,
      (b.com_id == com.id && b.k == k) = true →
      b = (⟨com.id, k, sv.end_time - sv.start_time⟩ : DurVar) := by
    intro b hb hkey
    simp only [Bool.and_eq_true, beq_iff_eq] at hkey
    rcases hdrev b hb with hb2 | ⟨com2, hcom2, k2, path2, cp4, sv4, hpath4,
      hk4, hcp4, hsv4, hb4⟩
    · exact absurd hb2 (by simp)
    · obtain ⟨j, hj⟩ := List.mem_iff_get?.mp hcom2
      have hid2 : com2.id = j := hids j com2 hj
      have hjeq : j = i := by
        have h1 : com2.id = com.id := by rw [hb4] at hkey; exact hkey.1
        omega
      subst hjeq
      rw [hcom] at hj
      injection hj with hj
      subst hj
      have hk2 : k2 = k := by rw [hb4] at hkey; exact hkey.2
      subst hk2
      rw [hcp] at hcp4
      injection hcp4 with hcp4
      subst hcp4
      rw [hsv] at hsv4
      injection hsv4 with hsv4
      subst hsv4
      exact hb4
  have hfind : findDurVar D com.id k =
      some ⟨com.id, k, sv.end_time - sv.start_time⟩ :=
    find?_eq_some_unique _ _ D hmemD (by simp) huniq
  refine ⟨hfind, ?_⟩
  -- the linking constraint
  obtain ⟨hlim, hlall⟩ := linkingFold_spec sol D paths coms [] L hL
  obtain ⟨cp5, sv5, dv5, hcp5, hsv5, hdv5, hmemL⟩ :=
    hlall com hmem _ hpathid k hklt
  rw [hcp] at hcp5
  injection hcp5 with hcp5
  subst hcp5
  rw [hsv] at hsv5
  injection hsv5 with hsv5
  subst hsv5
  rw [hfind] at hdv5
  injection hdv5 with hdv5
  subst hdv5
  exact hmemL

/-! ## Binary-search (`bisect_left`) characterization -/

theorem sorted_getD_mono (l : List Int) (hs : l.Pairwise (· ≤ ·)) :
    ∀ i j, i ≤ j → j < l.length → l.getD i 0 ≤ l.getD j 0 := by
  intro i j hij hj
  rcases Nat.eq_or_lt_of_le hij with h | h
  · subst h; exact le_refl _
  · rw [List.getD_eq_getElem l 0 (by omega), List.getD_eq_getElem l 0 hj]
    exact List.pairwise_iff_getElem.mp hs i j (by omega) hj h

theorem bisectLeftGo_bounds (l : List Int) (x : Int) :
    ∀ fuel lo hi, hi - lo < fuel → lo ≤ hi →
      lo ≤ bisectLeftGo l x fuel lo hi ∧ bisectLeftGo l x fuel lo hi ≤ hi := by
  intro fuel
  induction fuel with
  | zero => intro lo hi h1 h2; omega
  | succ fuel ih =>
    intro lo hi h1 h2
    simp only [bisectLeftGo]
    by_cases hlt : lo < hi
    · simp only [if_pos hlt]
      by_cases hv : l.getD ((lo + hi) / 2) 0 < x
      · simp only [if_pos hv]
        have := ih ((lo + hi) / 2 + 1) hi (by omega) (by omega)
        omega
      · simp only [if_neg hv]
        have := ih lo ((lo + hi) / 2) (by omega) (by omega)
        omega
    · simp only [if_neg hlt]; omega

theorem bisectLeftGo_spec (l : List Int) (x : Int)
    (hmono : ∀ i j, i ≤ j → j < l.length → l.getD i 0 ≤ l.getD j 0) :
    ∀ fuel lo hi, hi - lo < fuel → lo ≤ hi → hi ≤ l.length →
      (∀ i, i < lo → l.getD i 0 < x) →
      (∀ i, hi ≤ i → i < l.length → x ≤ l.getD i 0) →
      (∀ i, i < bisectLeftGo l x fuel lo hi → l.getD i 0 < x) ∧
      (∀ i, bisectLeftGo l x fuel lo hi ≤ i → i < l.length →
        x ≤ l.getD i 0) := by
  intro fuel
  induction fuel with
  | zero => intro lo hi h1; omega
  | succ fuel ih =>
    intro lo hi h1 h2 h3 hlow hhigh
    simp only [bisectLeftGo]
    by_cases hlt : lo < hi
    · simp only [if_pos hlt]
      by_cases hv : l.getD ((lo + hi) / 2) 0 < x
      · simp only [if_pos hv]
        refine ih ((lo + hi) / 2 + 1) hi (by omega) (by omega) h3 ?_ hhigh
        intro i hi2
        calc l.getD i 0 ≤ l.getD ((lo + hi) / 2) 0 :=
              hmono i _ (by omega) (by omega)
          _ < x := hv
      · simp only [if_neg hv]
        refine ih lo ((lo + hi) / 2) (by omega) (by omega) (by omega) hlow ?_
        intro i hi2 hi3
        calc x ≤ l.getD ((lo + hi) / 2) 0 := by omega
          _ ≤ l.getD i 0 := hmono _ i hi2 hi3
    · simp only [if_neg hlt]
      exact ⟨hlow, fun i hi2 hi3 => hhigh i (by omega) hi3⟩

theorem bisect_left_le_length (l : List Int) (x : Int) :
    bisect_left l x ≤ l.length :=
  (bisectLeftGo_bounds l x (l.length + 1) 0 l.length (by omega) (by omega)).2

theorem bisect_left_lt (l : List Int) (x : Int)
    (hs : l.Pairwise (· ≤ ·)) :
    ∀ i, i < bisect_left l x → l.getD i 0 < x :=
  (bisectLeftGo_spec l x (sorted_getD_mono l hs) (l.length + 1) 0 l.length
    (by omega) (by omega) (by omega) (fun i hi => by omega)
    (fun i hi1 hi2 => by omega)).1

theorem bisect_left_ge (l : List Int) (x : Int)
    (hs : l.Pairwise (· ≤ ·)) :
    ∀ i, bisect_left l x ≤ i → i < l.length → x ≤ l.getD i 0 :=
  (bisectLeftGo_spec l x (sorted_getD_mono l hs) (l.length + 1) 0 l.length
    (by omega) (by omega) (by omega) (fun i hi => by omega)
    (fun i hi1 hi2 => by omega)).2

/-! ## List helpers: `pyInsert`, `pyGet`, nodup indexing -/

theorem get?_eq_getD {α : Type} (l : List α) (m : Nat) (d : α)
    (hm : m < l.length) : l.get? m = some (l.getD m d) := by
  rw [List.get?_eq_get hm, List.getD_eq_getElem l d hm]
  rfl

theorem pyInsert_length {α : Type} (l : List α) (k : Nat) (x : α) :
    (pyInsert l k x).length = l.length + 1 := by
  simp [pyInsert]
  omega

theorem pyInsert_get?_lt {α : Type} (l : List α) (k : Nat) (x : α) (m : Nat)
    (hm : m < k) (hk : k ≤ l.length) : (pyInsert l k x).get? m = l.get? m := by
  rw [pyInsert, List.get?_append (by rw [List.length_take]; omega)]
  exact List.get?_take hm

theorem pyInsert_get?_eq {α : Type} (l : List α) (k : Nat) (x : α)
    (hk : k ≤ l.length) : (pyInsert l k x).get? k = some x := by
  rw [pyInsert, List.get?_append_right (by rw [List.length_take]; omega)]
  rw [List.length_take]
  have h1 : k - min k l.length = 0 := by omega
  rw [h1]
  rfl

theorem pyInsert_get?_gt {α : Type} (l : List α) (k : Nat) (x : α) (m : Nat)
    (hm : k < m) (hk : k ≤ l.length) :
    (pyInsert l k x).get? m = l.get? (m - 1) := by
  rw [pyInsert, List.get?_append_right (by rw [List.length_take]; omega)]
  rw [List.length_take]
  have h1 : m - min k l.length = (m - 1 - k) + 1 := by omega
  rw [h1, List.get?_cons_succ, List.get?_drop]
  congr 1
  omega

theorem pyInsert_mem {α : Type} (l : List α) (k : Nat) (x : α) (a : α) :
    a ∈ pyInsert l k x ↔ a = x ∨ a ∈ l := by
  constructor
  · intro h
    rcases List.mem_append.mp h with h | h
    · exact Or.inr (List.take_subset k l h)
    · rcases List.mem_cons.mp h with h | h
      · exact Or.inl h
      · exact Or.inr (List.drop_subset k l h)
  · intro h
    rcases h with h | h
    · exact List.mem_append.mpr (Or.inr (List.mem_cons.mpr (Or.inl h)))
    · rcases List.mem_append.mp ((List.take_append_drop k l).symm ▸ h) with h | h
      · exact List.mem_append.mpr (Or.inl h)
      · exact List.mem_append.mpr (Or.inr (List.mem_cons.mpr (Or.inr h)))

theorem pyInsert_nodup {α : Type} (l : List α) (k : Nat) (x : α)
    (hx : x ∉ l) (hl : l.Nodup) : (pyInsert l k x).Nodup := by
  rw [pyInsert, List.nodup_middle, List.take_append_drop]
  exact List.nodup_cons.mpr ⟨hx, hl⟩

theorem pyInsert_getD {α : Type} (l : List α) (k : Nat) (x : α) (d : α)
    (hk : k ≤ l.length) (m : Nat) (hm : m < l.length + 1) :
    (pyInsert l k x).getD m d =
      if m < k then l.getD m d
      else if m = k then x else l.getD (m - 1) d := by
  by_cases h1 : m < k
  · rw [if_pos h1]
    exact getD_of_get? _ m (l.getD m d) d
      (by rw [pyInsert_get?_lt l k x m h1 hk]; exact get?_eq_getD l m d (by omega))
  · rw [if_neg h1]
    by_cases h2 : m = k
    · rw [if_pos h2]
      exact getD_of_get? _ m x d (by rw [h2]; exact pyInsert_get?_eq l k x hk)
    · rw [if_neg h2]
      exact getD_of_get? _ m (l.getD (m - 1) d) d
        (by rw [pyInsert_get?_gt l k x m (by omega) hk]
            exact get?_eq_getD l (m - 1) d (by omega))

theorem pyInsert_sorted (l : List Int) (k : Nat) (x : Int)
    (hs : l.Pairwise (· ≤ ·)) (hk : k ≤ l.length)
    (hlo : ∀ i, i < k → l.getD i 0 ≤ x)
    (hhi : ∀ i, k ≤ i → i < l.length → x ≤ l.getD i 0) :
    (pyInsert l k x).Pairwise (· ≤ ·) := by
  rw [List.pairwise_iff_getElem]
  intro i j hi hj hij
  have hi2 : i < l.length + 1 := by rw [pyInsert_length] at hi; exact hi
  have hj2 : j < l.length + 1 := by rw [pyInsert_length] at hj; exact hj
  have e1 : (pyInsert l k x)[i] = (pyInsert l k x).getD i 0 :=
    (List.getD_eq_getElem _ 0 hi).symm
  have e2 : (pyInsert l k x)[j] = (pyInsert l k x).getD j 0 :=
    (List.getD_eq_getElem _ 0 hj).symm
  rw [e1, e2, pyInsert_getD l k x 0 hk i hi2, pyInsert_getD l k x 0 hk j hj2]
  have hmono := sorted_getD_mono l hs
  split_ifs with ha hb hc hd he
  · exact hmono i j (by omega) (by omega)
  · exact hlo i ha
  · exact hmono i (j - 1) (by omega) (by omega)
  · omega
  · omega
  · exact hhi (j - 1) (by omega) (by omega)
  · omega
  · omega
  · exact hmono (i - 1) (j - 1) (by omega) (by omega)

theorem pyInsert_head? {α : Type} (l : List α) (k : Nat) (x : α)
    (hk1 : 1 ≤ k) : (pyInsert l k x).head? = l.head? ∨ l = [] := by
  cases l with
  | nil => exact Or.inr rfl
  | cons a t =>
    cases k with
    | zero => omega
    | succ k => exact Or.inl (by simp [pyInsert])

theorem nodup_get?_inj {α : Type} (l : List α) (hl : l.Nodup) (i j : Nat)
    (a : α) (h1 : l.get? i = some a) (h2 : l.get? j = some a) : i = j := by
  have hi : i < l.length := by
    by_contra hc
    rw [List.get?_eq_none.mpr (by omega)] at h1
    exact absurd h1 (by simp)
  have hj : j < l.length := by
    by_contra hc
    rw [List.get?_eq_none.mpr (by omega)] at h2
    exact absurd h2 (by simp)
  have hgi : l[i] = a := by
    rw [List.get?_eq_get hi] at h1
    injection h1
  have hgj : l[j] = a := by
    rw [List.get?_eq_get hj] at h2
    injection h2
  by_contra hne
  rcases Nat.lt_or_ge i j with hlt | hge
  · exact (List.pairwise_iff_getElem.mp hl i j hi hj hlt) (by rw [hgi, hgj])
  · exact (List.pairwise_iff_getElem.mp hl j i hj hi (by omega))
      (by rw [hgi, hgj])

theorem pyGet_nonneg {α : Type} (l : List α) (i : Int) (h : 0 ≤ i) :
    pyGet l i = l.get? i.toNat := by
  rw [pyGet, if_pos h]

theorem pyGet_neg_one {α : Type} (l : List α) (h : l ≠ []) :
    pyGet l (-1) = l.get? (l.length - 1) := by
  have hlen : 1 ≤ l.length := by
    cases l
    · exact absurd rfl h
    · simp
  rw [pyGet, if_neg (by omega), if_pos (by omega)]
  congr 1
  omega

theorem pyGet_nil {α : Type} (i : Int) : pyGet ([] : List α) i = none := by
  rw [pyGet]
  split_ifs <;> simp

theorem head0_nonneg (l : List Int) (hh : l.head? = some 0)
    (hs : l.Pairwise (· ≤ ·)) : ∀ x ∈ l, 0 ≤ x := by
  cases l with
  | nil => simp
  | cons a t =>
    injection hh with hh
    intro x hx
    rcases List.mem_cons.mp hx with h | h
    · omega
    · have := (List.pairwise_cons.mp hs).1 x h
      omega

theorem bisect_left_eq_zero (l : List Int) (x : Int)
    (hs : l.Pairwise (· ≤ ·)) (h : x ≤ l.getD 0 0) :
    bisect_left l x = 0 := by
  by_contra hc
  have h1 : 0 < bisect_left l x := by omega
  have := bisect_left_lt l x hs 0 h1
  omega

/-! ## Expanded-graph edge bookkeeping -/

theorem get_edge_index_spec (g : DiscretizedGraph) (i j e : Nat)
    (h : get_edge_index g i j = some e) :
    ∃ d, (e, EdgeRec.mk i j d) ∈ g.edges ∧
      ∀ p ∈ g.edges, p.2.src = i → p.2.dst = j → p = (e, EdgeRec.mk i j d) := by
  unfold get_edge_index DiscretizedGraph.edgeIndicesFromEndpoints at h
  cases hfl : g.edges.filter (fun q => q.2.src == i && q.2.dst == j) with
  | nil => rw [hfl] at h; simp at h
  | cons p rest =>
    cases rest with
    | nil =>
      rw [hfl] at h
      simp only [List.map_cons, List.map_nil] at h
      injection h with h
      have hpmem : p ∈ g.edges.filter (fun q => q.2.src == i && q.2.dst == j) := by
        rw [hfl]
        exact List.mem_cons_self p []
      obtain ⟨hin, hpred⟩ := List.mem_filter.mp hpmem
      simp only [Bool.and_eq_true, beq_iff_eq] at hpred
      have hpe : p = (p.1, EdgeRec.mk i j p.2.data) := by
        rw [← hpred.1, ← hpred.2]
      refine ⟨p.2.data, ?_, ?_⟩
      · rw [h] at hpe
        rw [← hpe]
        exact hin
      · intro q hq hqs hqd
        have hqmem : q ∈ g.edges.filter (fun q => q.2.src == i && q.2.dst == j) := by
          exact List.mem_filter.mpr ⟨hq, by simp [hqs, hqd]⟩
        rw [hfl] at hqmem
        have hqp : q = p := by
          rcases List.mem_cons.mp hqmem with h2 | h2
          · exact h2
          · simp at h2
        rw [hqp, hpe, h]
    | cons p2 rest2 =>
      rw [hfl] at h
      simp at h

theorem get_edge_index_none (g : DiscretizedGraph) (i j : Nat)
    (h : ∀ p ∈ g.edges, ¬(p.2.src = i ∧ p.2.dst = j)) :
    get_edge_index g i j = none := by
  unfold get_edge_index DiscretizedGraph.edgeIndicesFromEndpoints
  rw [List.filter_eq_nil.mpr ?_]
  · rfl
  · intro p hp
    simp only [Bool.and_eq_true, beq_iff_eq, not_and]
    intro hs hd
    exact absurd ⟨hs, hd⟩ (h p hp)

theorem countBetween_addEdge (g : DiscretizedGraph) (i j : Nat) (d : ArcData)
    (a b : Nat) :
    countBetween (g.addEdge i j d).1 a b =
      countBetween g a b + (if i = a ∧ j = b then 1 else 0) := by
  unfold countBetween DiscretizedGraph.addEdge
  rw [List.filter_append, List.length_append]
  congr 1
  by_cases h : i = a ∧ j = b
  · rw [if_pos h]
    simp [h.1, h.2]
  · rw [if_neg h]
    have : ((g.next_edge, EdgeRec.mk i j d).2.src == a &&
        (g.next_edge, EdgeRec.mk i j d).2.dst == b) = false := by
      simp only [Bool.and_eq_false_iff, beq_eq_false_iff_ne, ne_eq]
      by_cases h1 : i = a
      · exact Or.inr (fun h2 => h ⟨h1, h2⟩)
      · exact Or.inl h1
    simp [List.filter_singleton, this]

theorem filter_length_after_removeIdx (l : List (Nat × EdgeRec)) (idx : Nat)
    (P : Nat × EdgeRec → Bool)
    (h : ∀ p ∈ l, p.1 = idx → P p = false) :
    ((l.filter (fun q => q.1 ≠ idx)).filter P).length = (l.filter P).length := by
  induction l with
  | nil => rfl
  | cons p rest ih =>
    have hrest := fun q hq => h q (List.mem_cons_of_mem p hq)
    by_cases hidx : p.1 = idx
    · have hP : P p = false := h p (List.mem_cons_self p rest) hidx
      rw [List.filter_cons, List.filter_cons, hP, if_neg (by simp [hidx]),
        if_neg (by simp)]
      exact ih hrest
    · rw [List.filter_cons, if_pos (by simp [hidx])]
      rw [List.filter_cons, List.filter_cons]
      by_cases hP : P p = true
      · rw [hP, if_pos rfl, if_pos rfl]
        simp only [List.length_cons]
        rw [ih hrest]
      · rw [Bool.not_eq_true] at hP
        rw [hP, if_neg (by simp), if_neg (by simp)]
        exact ih hrest

theorem countBetween_removeIdx_ne (g : DiscretizedGraph) (idx : Nat)
    (a b : Nat)
    (h : ∀ p ∈ g.edges, p.1 = idx → ¬(p.2.src = a ∧ p.2.dst = b)) :
    countBetween (g.removeEdgeFromIndex idx) a b = countBetween g a b := by
  unfold countBetween DiscretizedGraph.removeEdgeFromIndex
  refine filter_length_after_removeIdx g.edges idx _ (fun p hp hidx => ?_)
  have := h p hp hidx
  simp only [Bool.and_eq_false_iff, beq_eq_false_iff_ne, ne_eq]
  by_cases h1 : p.2.src = a
  · exact Or.inr (fun h2 => this ⟨h1, h2⟩)
  · exact Or.inl h1

theorem countBetween_remove_found (g : DiscretizedGraph) (i j e : Nat)
    (h : get_edge_index g i j = some e) :
    countBetween (g.removeEdgeFromIndex e) i j = 0 := by
  obtain ⟨d, hmem, huniq⟩ := get_edge_index_spec g i j e h
  unfold countBetween DiscretizedGraph.removeEdgeFromIndex
  rw [List.length_eq_zero, List.filter_eq_nil]
  intro p hp
  obtain ⟨hpe, hpne⟩ := List.mem_filter.mp hp
  simp only [ne_eq, decide_not, Bool.not_eq_true', decide_eq_false_iff_not] at hpne
  simp only [Bool.and_eq_true, beq_iff_eq, not_and]
  intro hs hd
  exact hpne (by rw [huniq p hpe hs hd])

theorem idx_nodup_unique (l : List (Nat × EdgeRec))
    (hn : (l.map Prod.fst).Nodup) (p q : Nat × EdgeRec)
    (hp : p ∈ l) (hq : q ∈ l) (h : p.1 = q.1) : p = q := by
  induction l with
  | nil => simp at hp
  | cons r rest ih =>
    simp only [List.map_cons, List.nodup_cons] at hn
    rcases List.mem_cons.mp hp with hp1 | hp1 <;>
      rcases List.mem_cons.mp hq with hq1 | hq1
    · rw [hp1, hq1]
    · exfalso
      have : r.1 ∈ List.map Prod.fst rest := by
        rw [show r.1 = q.1 from by rw [← hp1, h]]
        exact List.mem_map_of_mem Prod.fst hq1
      exact hn.1 this
    · exfalso
      have : r.1 ∈ List.map Prod.fst rest := by
        rw [show r.1 = p.1 from by rw [← hq1, h]]
        exact List.mem_map_of_mem Prod.fst hp1
      exact hn.1 this
    · exact ih hn.2 hp1 hq1

theorem mem_removeEdge (g : DiscretizedGraph) (idx : Nat) (p : Nat × EdgeRec)
    (hp : p ∈ (g.removeEdgeFromIndex idx).edges) : p ∈ g.edges ∧ p.1 ≠ idx := by
  obtain ⟨h1, h2⟩ := List.mem_filter.mp hp
  simp only [ne_eq, decide_not, Bool.not_eq_true', decide_eq_false_iff_not] at h2
  exact ⟨h1, h2⟩

/-! ## Step characterizations of the refinement sub-operations -/

theorem mem_in_edges (g : DiscretizedGraph) (n : Nat)
    (ija : Nat × Nat × ArcData) (h : ija ∈ g.in_edges n) :
    ∃ p ∈ g.edges, p.2.dst = n ∧ ija = (p.2.src, p.2.dst, p.2.data) := by
  obtain ⟨p, hp, hmap⟩ := List.mem_map.mp h
  obtain ⟨hpe, hpd⟩ := List.mem_filter.mp hp
  simp only [beq_iff_eq] at hpd
  exact ⟨p, hpe, hpd, hmap.symm⟩

theorem mem_out_edges (fg : FlatGraph) (n : Nat)
    (ija : Nat × Nat × ArcData) (h : ija ∈ fg.out_edges n) :
    ∃ a ∈ fg.arcs, a.src = n ∧ ija = (a.src, a.dst, a.data) := by
  obtain ⟨a, ha, hmap⟩ := List.mem_map.mp h
  obtain ⟨hae, had⟩ := List.mem_filter.mp ha
  simp only [beq_iff_eq] at had
  exact ⟨a, hae, had, hmap.symm⟩

theorem refine_holding_char (g : DiscretizedGraph) (new prev : Nat)
    (nxt_opt : Option Nat) (g' : DiscretizedGraph)
    (h : g._refine_holding_arc new prev nxt_opt = some g') :
    g'.nodes = g.nodes ∧ g'.node_to_times = g.node_to_times ∧
    g'.flat_to_expanded_nodes = g.flat_to_expanded_nodes ∧
    g'.g_flat = g.g_flat ∧ g'.relaxed = g.relaxed ∧
    g'.flat_to_expanded_arcs = g.flat_to_expanded_arcs ∧
    ((nxt_opt = none ∧
       g'.edges = g.edges ++ [(g.next_edge, EdgeRec.mk prev new holdingArcData)] ∧
       g'.next_edge = g.next_edge + 1) ∨
     (∃ nxt ha, nxt_opt = some nxt ∧
       get_edge_index (g.addEdge prev new holdingArcData).1 prev nxt = some ha ∧
       g'.edges = ((g.edges ++ [(g.next_edge, EdgeRec.mk prev new holdingArcData)]).filter
         (fun q => q.1 ≠ ha)) ++ [(g.next_edge + 1, EdgeRec.mk new nxt holdingArcData)] ∧
       g'.next_edge = g.next_edge + 2)) := by
  unfold DiscretizedGraph._refine_holding_arc at h
  cases nxt_opt with
  | none =>
    simp only [Option.some.injEq] at h
    subst h
    exact ⟨rfl, rfl, rfl, rfl, rfl, rfl, Or.inl ⟨rfl, rfl, rfl⟩⟩
  | some nxt =>
    rw [option_bind_eq_some] at h
    obtain ⟨ha, hha, h⟩ := h
    simp only [Option.pure_def, Option.some.injEq] at h
    subst h
    exact ⟨rfl, rfl, rfl, rfl, rfl, rfl,
      Or.inr ⟨nxt, ha, rfl, hha, rfl, rfl⟩⟩

theorem travelNewTarget_char (g : DiscretizedGraph) (arrival : Int)
    (times_j : List Int) (exp_j : List Nat) (j_ex : Nat)
    (h : DiscretizedGraph.travelNewTarget g arrival times_j exp_j =
      some (some j_ex)) :
    ∃ m, exp_j.get? m = some j_ex ∧
      (g.relaxed = true →
        ((bisect_left times_j arrival = times_j.length ∧
            m = exp_j.length - 1 ∧ exp_j ≠ []) ∨
         (bisect_left times_j arrival < times_j.length ∧
            m = bisect_left times_j arrival ∧
            (∃ nd, g.nodes.get? j_ex = some nd ∧ nd.time = arrival)) ∨
         (bisect_left times_j arrival < times_j.length ∧
            1 ≤ bisect_left times_j arrival ∧
            m = bisect_left times_j arrival - 1) ∨
         (bisect_left times_j arrival = 0 ∧ 0 < times_j.length ∧
            m = exp_j.length - 1 ∧ exp_j ≠ []))) ∧
      (g.relaxed = false →
        bisect_left times_j arrival < times_j.length ∧
        m = bisect_left times_j arrival) := by
  unfold DiscretizedGraph.travelNewTarget at h
  simp only [] at h
  by_cases hrel : g.relaxed = true
  · rw [if_pos hrel] at h
    by_cases hnl : bisect_left times_j arrival = times_j.length
    · rw [if_pos hnl] at h
      rw [Option.map_eq_some'] at h
      obtain ⟨v, hv, hveq⟩ := h
      injection hveq with hveq
      subst hveq
      have hexne : exp_j ≠ [] := by
        intro hc
        rw [hc, pyGet_nil] at hv
        exact absurd hv (by simp)
      rw [pyGet_neg_one exp_j hexne] at hv
      exact ⟨exp_j.length - 1, hv, fun _ => Or.inl ⟨hnl, rfl, hexne⟩,
        fun hf => absurd hrel (by rw [hf]; simp)⟩
    · rw [if_neg hnl] at h
      have hklt : bisect_left times_j arrival < times_j.length := by
        have := bisect_left_le_length times_j arrival
        omega
      rw [option_bind_eq_some] at h
      obtain ⟨cand, hcand, h⟩ := h
      rw [option_bind_eq_some] at h
      obtain ⟨cnd, hcnd, h⟩ := h
      by_cases htime : cnd.time ≠ arrival
      · rw [if_pos htime] at h
        rw [Option.map_eq_some'] at h
        obtain ⟨v, hv, hveq⟩ := h
        injection hveq with hveq
        subst hveq
        by_cases hk0 : bisect_left times_j arrival = 0
        · rw [hk0] at hv
          have hexne : exp_j ≠ [] := by
            intro hc
            rw [hc, pyGet_nil] at hv
            exact absurd hv (by simp)
          rw [show ((0 : Nat) : Int) - 1 = -1 from rfl,
            pyGet_neg_one exp_j hexne] at hv
          exact ⟨exp_j.length - 1, hv,
            fun _ => Or.inr (Or.inr (Or.inr ⟨hk0, by omega, rfl, hexne⟩)),
            fun hf => absurd hrel (by rw [hf]; simp)⟩
        · rw [pyGet_nonneg exp_j _ (by omega)] at hv
          have htn : (((bisect_left times_j arrival) : Int) - 1).toNat =
              bisect_left times_j arrival - 1 := by omega
          rw [htn] at hv
          exact ⟨bisect_left times_j arrival - 1, hv,
            fun _ => Or.inr (Or.inr (Or.inl ⟨hklt, by omega, rfl⟩)),
            fun hf => absurd hrel (by rw [hf]; simp)⟩
      · rw [if_neg htime] at h
        simp only [Option.pure_def, Option.some.injEq] at h
        subst h
        rw [not_not] at htime
        exact ⟨bisect_left times_j arrival, hcand,
          fun _ => Or.inr (Or.inl ⟨hklt, rfl, cnd, hcnd, htime⟩),
          fun hf => absurd hrel (by rw [hf]; simp)⟩
  · rw [if_neg hrel] at h
    by_cases hnl : bisect_left times_j arrival = times_j.length
    · rw [if_pos hnl] at h
      simp at h
    · rw [if_neg hnl] at h
      have hklt : bisect_left times_j arrival < times_j.length := by
        have := bisect_left_le_length times_j arrival
        omega
      rw [Option.map_eq_some'] at h
      obtain ⟨v, hv, hveq⟩ := h
      injection hveq with hveq
      subst hveq
      exact ⟨bisect_left times_j arrival, hv, fun hf => absurd hf hrel,
        fun _ => ⟨hklt, rfl⟩⟩

theorem travel_new_step_char (nd_time : Int) (new : Nat)
    (g1 g2 : DiscretizedGraph) (i j : Nat) (data : ArcData)
    (h : DiscretizedGraph.addTravelArcNewNodeStep nd_time new g1 (i, j, data) =
      some g2) :
    (g2 = g1) ∨
    ∃ times_j exp_j j_ex,
      g1.node_to_times.get? j = some times_j ∧
      g1.flat_to_expanded_nodes.get? j = some exp_j ∧
      DiscretizedGraph.travelNewTarget g1 (nd_time + data.travel_time)
        times_j exp_j = some (some j_ex) ∧
      g2.edges = g1.edges ++ [(g1.next_edge, EdgeRec.mk new j_ex data)] ∧
      g2.next_edge = g1.next_edge + 1 ∧
      g2.nodes = g1.nodes ∧ g2.node_to_times = g1.node_to_times ∧
      g2.flat_to_expanded_nodes = g1.flat_to_expanded_nodes ∧
      g2.g_flat = g1.g_flat ∧ g2.relaxed = g1.relaxed := by
  unfold DiscretizedGraph.addTravelArcNewNodeStep at h
  rw [option_bind_eq_some] at h
  obtain ⟨times_j, htj, h⟩ := h
  rw [option_bind_eq_some] at h
  obtain ⟨exp_j, hej, h⟩ := h
  rw [option_bind_eq_some] at h
  obtain ⟨tgtv, htgt, h⟩ := h
  cases tgtv with
  | none =>
    simp only [Option.pure_def, Option.some.injEq] at h
    exact Or.inl h.symm
  | some j_ex =>
    simp only [] at h
    rw [option_bind_eq_some] at h
    obtain ⟨fa, hfa, h⟩ := h
    rw [option_bind_eq_some] at h
    obtain ⟨mp, hmp, h⟩ := h
    simp only [Option.pure_def, Option.some.injEq] at h
    subst h
    exact Or.inr ⟨times_j, exp_j, j_ex, htj, hej, htgt, rfl, rfl, rfl, rfl,
      rfl, rfl, rfl⟩

theorem lengthenStep_char (new prev : Nat) (t : Int)
    (g1 g2 : DiscretizedGraph) (i j : Nat) (data : ArcData)
    (h : DiscretizedGraph.lengthenStep new prev t g1 (i, j, data) = some g2) :
    (g2 = g1) ∨
    ∃ ndi ndj rm,
      g1.nodes.get? i = some ndi ∧ g1.nodes.get? j = some ndj ∧
      ndi.flat_node ≠ ndj.flat_node ∧ t ≤ ndi.time + data.travel_time ∧
      get_edge_index g1 i prev = some rm ∧
      g2.edges = (g1.edges.filter (fun q => q.1 ≠ rm)) ++
        [(g1.next_edge, EdgeRec.mk i new data)] ∧
      g2.next_edge = g1.next_edge + 1 ∧
      g2.nodes = g1.nodes ∧ g2.node_to_times = g1.node_to_times ∧
      g2.flat_to_expanded_nodes = g1.flat_to_expanded_nodes ∧
      g2.g_flat = g1.g_flat ∧ g2.relaxed = g1.relaxed := by
  unfold DiscretizedGraph.lengthenStep at h
  rw [option_bind_eq_some] at h
  obtain ⟨ndi, hndi, h⟩ := h
  rw [option_bind_eq_some] at h
  obtain ⟨ndj, hndj, h⟩ := h
  by_cases hflat : ndi.flat_node = ndj.flat_node
  · rw [if_pos hflat] at h
    simp only [Option.pure_def, Option.some.injEq] at h
    exact Or.inl h.symm
  · rw [if_neg hflat] at h
    by_cases hguard : t ≤ ndi.time + data.travel_time
    · rw [if_pos hguard] at h
      rw [option_bind_eq_some] at h
      obtain ⟨fla, hfla, h⟩ := h
      rw [option_bind_eq_some] at h
      obtain ⟨rm, hrm, h⟩ := h
      rw [option_bind_eq_some] at h
      obtain ⟨mp, hmp, h⟩ := h
      rw [option_bind_eq_some] at h
      obtain ⟨mp2, hmp2, h⟩ := h
      simp only [Option.pure_def, Option.some.injEq] at h
      subst h
      exact Or.inr ⟨ndi, ndj, rm, hndi, hndj, hflat, hguard, hrm, rfl, rfl,
        rfl, rfl, rfl, rfl, rfl⟩
    · rw [if_neg hguard] at h
      simp only [Option.pure_def, Option.some.injEq] at h
      exact Or.inl h.symm

theorem shortenStep_char (new nxt : Nat) (t : Int)
    (g1 g2 : DiscretizedGraph) (i j : Nat) (data : ArcData)
    (h : DiscretizedGraph.shortenStep new nxt t g1 (i, j, data) = some g2) :
    (g2 = g1) ∨
    ∃ ndi ndj rm,
      g1.nodes.get? i = some ndi ∧ g1.nodes.get? j = some ndj ∧
      ndi.flat_node ≠ ndj.flat_node ∧ t ≤ ndi.time + data.travel_time ∧
      get_edge_index g1 i j = some rm ∧
      g2.edges = (g1.edges.filter (fun q => q.1 ≠ rm)) ++
        [(g1.next_edge, EdgeRec.mk i new data)] ∧
      g2.next_edge = g1.next_edge + 1 ∧
      g2.nodes = g1.nodes ∧ g2.node_to_times = g1.node_to_times ∧
      g2.flat_to_expanded_nodes = g1.flat_to_expanded_nodes ∧
      g2.g_flat = g1.g_flat ∧ g2.relaxed = g1.relaxed := by
  unfold DiscretizedGraph.shortenStep at h
  rw [option_bind_eq_some] at h
  obtain ⟨ndi, hndi, h⟩ := h
  rw [option_bind_eq_some] at h
  obtain ⟨ndj, hndj, h⟩ := h
  by_cases hflat : ndi.flat_node = ndj.flat_node
  · rw [if_pos hflat] at h
    simp only [Option.pure_def, Option.some.injEq] at h
    exact Or.inl h.symm
  · rw [if_neg hflat] at h
    rw [option_bind_eq_some] at h
    obtain ⟨afterNd, hafter, h⟩ := h
    by_cases hguard : ndi.time + data.travel_time < afterNd.time ∧
        t ≤ ndi.time + data.travel_time
    · rw [if_pos hguard] at h
      rw [option_bind_eq_some] at h
      obtain ⟨fla, hfla, h⟩ := h
      rw [option_bind_eq_some] at h
      obtain ⟨rm, hrm, h⟩ := h
      rw [option_bind_eq_some] at h
      obtain ⟨mp, hmp, h⟩ := h
      rw [option_bind_eq_some] at h
      obtain ⟨mp2, hmp2, h⟩ := h
      simp only [Option.pure_def, Option.some.injEq] at h
      subst h
      exact Or.inr ⟨ndi, ndj, rm, hndi, hndj, hflat, hguard.2, hrm, rfl, rfl,
        rfl, rfl, rfl, rfl, rfl⟩
    · rw [if_neg hguard] at h
      simp only [Option.pure_def, Option.some.injEq] at h
      exact Or.inl h.symm

/-! ## `CoreInv` under single edge operations -/

theorem lt_of_get?_eq_some {α : Type} (l : List α) (n : Nat) (a : α)
    (h : l.get? n = some a) : n < l.length := by
  by_contra hc
  rw [List.get?_eq_none.mpr (by omega)] at h
  exact absurd h (by simp)

theorem coreInv_congr (g h : DiscretizedGraph)
    (hgf : g.g_flat = h.g_flat) (hn : g.nodes = h.nodes)
    (hnt : g.node_to_times = h.node_to_times)
    (hfe : g.flat_to_expanded_nodes = h.flat_to_expanded_nodes)
    (he : g.edges = h.edges) (hnx : g.next_edge = h.next_edge)
    (hinv : CoreInv h) : CoreInv g := by
  have hexp : ∀ v, expOf g v = expOf h v := by
    intro v
    unfold expOf
    rw [hfe]
  have hntt : ∀ v, nttOf g v = nttOf h v := by
    intro v
    unfold nttOf
    rw [hnt]
  have hcb : ∀ a b, countBetween g a b = countBetween h a b := by
    intro a b
    unfold countBetween
    rw [he]
  constructor
  · rw [hfe, hgf]
    exact hinv.exp_len
  · rw [hnt, hgf]
    exact hinv.ntt_len
  · intro v hv
    rw [hexp, hntt]
    exact hinv.len_eq v (by rw [← hgf]; exact hv)
  · intro v hv k nid hk
    rw [hn, hntt]
    exact hinv.node_mem v (by rw [← hgf]; exact hv) k nid
      (by rw [← hexp]; exact hk)
  · intro v hv
    rw [hexp]
    exact hinv.exp_nodup v (by rw [← hgf]; exact hv)
  · intro p hp
    rw [hn]
    exact hinv.edge_valid p (by rw [← he]; exact hp)
  · intro p hp
    rw [hnx]
    exact hinv.idx_bound p (by rw [← he]; exact hp)
  · rw [he]
    exact hinv.idx_nodup
  · intro p hp a b ha hb hab
    rw [hexp]
    exact hinv.same_flat_holding p (by rw [← he]; exact hp) a b
      (by rw [← hn]; exact ha) (by rw [← hn]; exact hb) hab
  · intro v hv k hk
    rw [hexp, hcb]
    exact hinv.holding_one v (by rw [← hgf]; exact hv) k
      (by rw [← hexp]; exact hk)
  · intro p hp a b ha hb hab
    rw [hgf]
    exact hinv.travel_link p (by rw [← he]; exact hp) a b
      (by rw [← hn]; exact ha) (by rw [← hn]; exact hb) hab

theorem coreInv_addEdge_travel (g : DiscretizedGraph) (a b : Nat)
    (d : ArcData) (nda ndb : TimeNodeData)
    (hinv : CoreInv g)
    (ha : g.nodes.get? a = some nda) (hb : g.nodes.get? b = some ndb)
    (hne : nda.flat_node ≠ ndb.flat_node)
    (hfa : ∃ fa ∈ g.g_flat.arcs, fa.src = nda.flat_node ∧
      fa.dst = ndb.flat_node ∧ fa.data = d) :
    CoreInv (g.addEdge a b d).1 := by
  constructor
  · exact hinv.exp_len
  · exact hinv.ntt_len
  · exact hinv.len_eq
  · exact hinv.node_mem
  · exact hinv.exp_nodup
  · intro p hp
    rcases List.mem_append.mp hp with hp1 | hp1
    · exact hinv.edge_valid p hp1
    · have hpe : p = (g.next_edge, EdgeRec.mk a b d) := by
        rcases List.mem_cons.mp hp1 with h2 | h2
        · exact h2
        · simp at h2
      rw [hpe]
      exact ⟨lt_of_get?_eq_some _ _ _ ha, lt_of_get?_eq_some _ _ _ hb⟩
  · intro p hp
    rcases List.mem_append.mp hp with hp1 | hp1
    · have := hinv.idx_bound p hp1
      show p.1 < g.next_edge + 1
      omega
    · have hpe : p = (g.next_edge, EdgeRec.mk a b d) := by
        rcases List.mem_cons.mp hp1 with h2 | h2
        · exact h2
        · simp at h2
      rw [hpe]
      show g.next_edge < g.next_edge + 1
      omega
  · show ((g.edges ++ [(g.next_edge, EdgeRec.mk a b d)]).map Prod.fst).Nodup
    rw [List.map_append]
    apply List.Nodup.append hinv.idx_nodup (by simp)
    intro x hx hx2
    simp only [List.map_cons, List.map_nil, List.mem_singleton] at hx2
    subst hx2
    obtain ⟨q, hq, hq2⟩ := List.mem_map.mp hx
    have := hinv.idx_bound q hq
    omega
  · intro p hp x y hx hy hxy
    rcases List.mem_append.mp hp with hp1 | hp1
    · exact hinv.same_flat_holding p hp1 x y hx hy hxy
    · exfalso
      have hpe : p = (g.next_edge, EdgeRec.mk a b d) := by
        rcases List.mem_cons.mp hp1 with h2 | h2
        · exact h2
        · simp at h2
      rw [hpe] at hx hy
      have hx2 : g.nodes.get? a = some x := hx
      have hy2 : g.nodes.get? b = some y := hy
      rw [ha] at hx2
      rw [hb] at hy2
      injection hx2 with hx2
      injection hy2 with hy2
      rw [← hx2, ← hy2] at hxy
      exact hne hxy
  · intro v hv k hk
    have hv2 : v < g.g_flat.nodes.length := hv
    have hk2 : k + 1 < (expOf g v).length := hk
    rw [show countBetween (g.addEdge a b d).1 ((expOf (g.addEdge a b d).1 v).getD k 0)
          ((expOf (g.addEdge a b d).1 v).getD (k + 1) 0) =
        countBetween (g.addEdge a b d).1 ((expOf g v).getD k 0)
          ((expOf g v).getD (k + 1) 0) from rfl]
    rw [countBetween_addEdge]
    have hnotmatch : ¬(a = (expOf g v).getD k 0 ∧ b = (expOf g v).getD (k + 1) 0) := by
      rintro ⟨h1, h2⟩
      have hkx : (expOf g v).get? k = some ((expOf g v).getD k 0) :=
        get?_eq_getD _ _ _ (by omega)
      have hky : (expOf g v).get? (k + 1) = some ((expOf g v).getD (k + 1) 0) :=
        get?_eq_getD _ _ _ (by omega)
      obtain ⟨ndx, hndx, hfx, _⟩ := hinv.node_mem v hv2 k _ hkx
      obtain ⟨ndy, hndy, hfy, _⟩ := hinv.node_mem v hv2 (k + 1) _ hky
      rw [← h1] at hndx
      rw [← h2] at hndy
      rw [ha] at hndx
      rw [hb] at hndy
      injection hndx with hndx
      injection hndy with hndy
      exact hne (by rw [hndx, hndy, hfx, hfy])
    rw [if_neg hnotmatch]
    exact hinv.holding_one v hv2 k hk2
  · intro p hp x y hx hy hxy
    rcases List.mem_append.mp hp with hp1 | hp1
    · exact hinv.travel_link p hp1 x y hx hy hxy
    · have hpe : p = (g.next_edge, EdgeRec.mk a b d) := by
        rcases List.mem_cons.mp hp1 with h2 | h2
        · exact h2
        · simp at h2
      rw [hpe] at hx hy ⊢
      have hx2 : g.nodes.get? a = some x := hx
      have hy2 : g.nodes.get? b = some y := hy
      rw [ha] at hx2
      rw [hb] at hy2
      injection hx2 with hx2
      injection hy2 with hy2
      obtain ⟨fa, hfam, hfs, hfd, hfdata⟩ := hfa
      exact ⟨fa, hfam, by rw [hfs, hx2], by rw [hfd, hy2], hfdata⟩

theorem coreInv_removeEdge (g : DiscretizedGraph) (rm : Nat) (er : EdgeRec)
    (hinv : CoreInv g)
    (hmem : (rm, er) ∈ g.edges)
    (hflats : ∀ nda ndb, g.nodes.get? er.src = some nda →
      g.nodes.get? er.dst = some ndb → nda.flat_node ≠ ndb.flat_node) :
    CoreInv (g.removeEdgeFromIndex rm) := by
  constructor
  · exact hinv.exp_len
  · exact hinv.ntt_len
  · exact hinv.len_eq
  · exact hinv.node_mem
  · exact hinv.exp_nodup
  · intro p hp
    exact hinv.edge_valid p (mem_removeEdge g rm p hp).1
  · intro p hp
    exact hinv.idx_bound p (mem_removeEdge g rm p hp).1
  · show (((g.edges.filter (fun q => q.1 ≠ rm))).map Prod.fst).Nodup
    exact List.Nodup.sublist (List.Sublist.map Prod.fst (List.filter_sublist _))
      hinv.idx_nodup
  · intro p hp x y hx hy hxy
    exact hinv.same_flat_holding p (mem_removeEdge g rm p hp).1 x y hx hy hxy
  · intro v hv k hk
    have hv2 : v < g.g_flat.nodes.length := hv
    have hk2 : k + 1 < (expOf g v).length := hk
    rw [show countBetween (g.removeEdgeFromIndex rm)
          ((expOf (g.removeEdgeFromIndex rm) v).getD k 0)
          ((expOf (g.removeEdgeFromIndex rm) v).getD (k + 1) 0) =
        countBetween (g.removeEdgeFromIndex rm) ((expOf g v).getD k 0)
          ((expOf g v).getD (k + 1) 0) from rfl]
    rw [countBetween_removeIdx_ne]
    · exact hinv.holding_one v hv2 k hk2
    · intro p hp hpidx
      have hpeq : p = (rm, er) :=
        idx_nodup_unique g.edges hinv.idx_nodup p (rm, er) hp hmem
          (by rw [hpidx])
      rintro ⟨h1, h2⟩
      have hkx : (expOf g v).get? k = some ((expOf g v).getD k 0) :=
        get?_eq_getD _ _ _ (by omega)
      have hky : (expOf g v).get? (k + 1) = some ((expOf g v).getD (k + 1) 0) :=
        get?_eq_getD _ _ _ (by omega)
      obtain ⟨ndx, hndx, hfx, _⟩ := hinv.node_mem v hv2 k _ hkx
      obtain ⟨ndy, hndy, hfy, _⟩ := hinv.node_mem v hv2 (k + 1) _ hky
      rw [hpeq] at h1 h2
      simp only at h1 h2
      rw [← h1] at hndx
      rw [← h2] at hndy
      exact hflats ndx ndy hndx hndy (by rw [hfx, hfy])
  · intro p hp x y hx hy hxy
    exact hinv.travel_link p (mem_removeEdge g rm p hp).1 x y hx hy hxy

/-! ## `CoreInv` through the refinement sub-operations -/

theorem travel_new_core (g : DiscretizedGraph) (new : Nat)
    (g' : DiscretizedGraph)
    (hlf : ∀ a ∈ g.g_flat.arcs, a.src ≠ a.dst)
    (hinv : CoreInv g)
    (h : g._add_travel_arcs_new_node new = some g') :
    CoreInv g' ∧ g'.nodes = g.nodes ∧ g'.node_to_times = g.node_to_times ∧
    g'.flat_to_expanded_nodes = g.flat_to_expanded_nodes ∧
    g'.g_flat = g.g_flat ∧ g'.relaxed = g.relaxed := by
  unfold DiscretizedGraph._add_travel_arcs_new_node at h
  rw [option_bind_eq_some] at h
  obtain ⟨nd, hnd, h⟩ := h
  have hmain := foldlM_option_preserve
    (fun g1 => CoreInv g1 ∧ g1.nodes = g.nodes ∧
      g1.node_to_times = g.node_to_times ∧
      g1.flat_to_expanded_nodes = g.flat_to_expanded_nodes ∧
      g1.g_flat = g.g_flat ∧ g1.relaxed = g.relaxed)
    (DiscretizedGraph.addTravelArcNewNodeStep nd.time new)
    (g.g_flat.out_edges nd.flat_node) g g' h
    ⟨hinv, rfl, rfl, rfl, rfl, rfl⟩ ?_
  · exact ⟨hmain.1, hmain.2.1, hmain.2.2.1, hmain.2.2.2.1, hmain.2.2.2.2.1,
      hmain.2.2.2.2.2⟩
  · rintro g1 ija g2 hija ⟨hinv1, hn1, hnt1, hfe1, hgf1, hrel1⟩ hstep
    obtain ⟨fa, hfam, hfasrc, hijaeq⟩ := mem_out_edges _ _ _ hija
    subst hijaeq
    rcases travel_new_step_char nd.time new g1 g2 fa.src fa.dst fa.data hstep
      with heq | ⟨times_j, exp_j, j_ex, htj, hej, htgt, hedges, hnx, hn2, hnt2,
        hfe2, hgf2, hrel2⟩
    · rw [heq]
      exact ⟨hinv1, hn1, hnt1, hfe1, hgf1, hrel1⟩
    · obtain ⟨m, hm, _, _⟩ := travelNewTarget_char g1 _ times_j exp_j j_ex htgt
      have hj : fa.dst < g1.g_flat.nodes.length := by
        have := lt_of_get?_eq_some _ _ _ hej
        rw [← hinv1.exp_len]
        exact this
      have hexpj : expOf g1 fa.dst = exp_j := getD_of_get? _ _ _ _ hej
      obtain ⟨ndb, hndb, hndbflat, _⟩ := hinv1.node_mem fa.dst hj m j_ex
        (by rw [hexpj]; exact hm)
      have hnda : g1.nodes.get? new = some nd := by
        rw [hn1]
        exact hnd
      have hinv2 : CoreInv (g1.addEdge new j_ex fa.data).1 := by
        apply coreInv_addEdge_travel g1 new j_ex fa.data nd ndb hinv1 hnda hndb
        · rw [hndbflat]
          have : nd.flat_node = fa.src := hfasrc.symm
          rw [this]
          exact hlf fa hfam
        · refine ⟨fa, by rw [hgf1]; exact hfam, hfasrc.symm ▸ rfl, ?_, rfl⟩
          rw [hndbflat]
      refine ⟨coreInv_congr g2 (g1.addEdge new j_ex fa.data).1 ?_ ?_ ?_ ?_ ?_ ?_
        hinv2, ?_, ?_, ?_, ?_, ?_⟩
      · exact hgf2
      · exact hn2
      · exact hnt2
      · exact hfe2
      · exact hedges
      · exact hnx
      · rw [hn2, hn1]
      · rw [hnt2, hnt1]
      · rw [hfe2, hfe1]
      · rw [hgf2, hgf1]
      · rw [hrel2, hrel1]

theorem lengthen_core (g : DiscretizedGraph) (new prev : Nat) (t : Int)
    (g' : DiscretizedGraph) (ndn ndp : TimeNodeData)
    (hinv : CoreInv g)
    (hnew : g.nodes.get? new = some ndn)
    (hprev : g.nodes.get? prev = some ndp)
    (hsame : ndn.flat_node = ndp.flat_node)
    (h : g._lengthen_travel_arcs_relaxed new prev t = some g') :
    CoreInv g' ∧ g'.nodes = g.nodes ∧ g'.node_to_times = g.node_to_times ∧
    g'.flat_to_expanded_nodes = g.flat_to_expanded_nodes ∧
    g'.g_flat = g.g_flat ∧ g'.relaxed = g.relaxed := by
  unfold DiscretizedGraph._lengthen_travel_arcs_relaxed at h
  have hmain := foldlM_option_preserve
    (fun g1 => CoreInv g1 ∧ g1.nodes = g.nodes ∧
      g1.node_to_times = g.node_to_times ∧
      g1.flat_to_expanded_nodes = g.flat_to_expanded_nodes ∧
      g1.g_flat = g.g_flat ∧ g1.relaxed = g.relaxed)
    (DiscretizedGraph.lengthenStep new prev t)
    (g.in_edges prev) g g' h ⟨hinv, rfl, rfl, rfl, rfl, rfl⟩ ?_
  · exact hmain
  · rintro g1 ija g2 hija ⟨hinv1, hn1, hnt1, hfe1, hgf1, hrel1⟩ hstep
    obtain ⟨e, hem, hedst, hijaeq⟩ := mem_in_edges _ _ _ hija
    subst hijaeq
    rcases lengthenStep_char new prev t g1 g2 e.2.src e.2.dst e.2.data hstep
      with heq | ⟨ndi, ndj, rm, hndi, hndj, hflat, hguard, hrm, hedges, hnx,
        hn2, hnt2, hfe2, hgf2, hrel2⟩
    · rw [heq]
      exact ⟨hinv1, hn1, hnt1, hfe1, hgf1, hrel1⟩
    · obtain ⟨dr, hdrmem, hdruniq⟩ := get_edge_index_spec g1 e.2.src prev rm hrm
      have hndp1 : g1.nodes.get? prev = some ndp := by
        rw [hn1]
        exact hprev
      have hndn1 : g1.nodes.get? new = some ndn := by
        rw [hn1]
        exact hnew
      have hndjp : ndj = ndp := by
        rw [hedst] at hndj
        rw [hndp1] at hndj
        injection hndj with hndj2
        exact hndj2.symm
      have hrem : CoreInv (g1.removeEdgeFromIndex rm) := by
        apply coreInv_removeEdge g1 rm (EdgeRec.mk e.2.src prev dr) hinv1 hdrmem
        intro nda ndb hna hnb
        simp only at hna hnb
        rw [hndi] at hna
        rw [hndp1] at hnb
        injection hna with hna
        injection hnb with hnb
        rw [← hna, ← hnb]
        rw [← hndjp]
        exact hflat
      have hadd : CoreInv ((g1.removeEdgeFromIndex rm).addEdge e.2.src new
          e.2.data).1 := by
        apply coreInv_addEdge_travel _ e.2.src new e.2.data ndi ndn hrem hndi
          hndn1
        · rw [hsame, ← hndjp]
          exact hflat
        · -- the redirected data comes from the snapshot edge, a travel arc of g
          have hei : g.nodes.get? e.2.src = some ndi := by
            rw [← hn1]
            exact hndi
          have hep : g.nodes.get? e.2.dst = some ndp := by
            rw [hedst, ← hn1]
            exact hndp1
          obtain ⟨fa, hfam, hfs, hfd, hfdata⟩ := hinv.travel_link e hem ndi ndp
            hei hep (by rw [← hndjp]; exact hflat)
          refine ⟨fa, show fa ∈ g1.g_flat.arcs by rw [hgf1]; exact hfam,
            hfs, ?_, hfdata⟩
          rw [hfd, hsame]
      refine ⟨coreInv_congr g2
        ((g1.removeEdgeFromIndex rm).addEdge e.2.src new e.2.data).1
        hgf2 hn2 hnt2 hfe2 hedges hnx hadd,
        by rw [hn2, hn1], by rw [hnt2, hnt1], by rw [hfe2, hfe1],
        by rw [hgf2, hgf1], by rw [hrel2, hrel1]⟩

theorem shorten_core (g : DiscretizedGraph) (new nxt : Nat) (t : Int)
    (g' : DiscretizedGraph) (ndn ndx : TimeNodeData)
    (hinv : CoreInv g)
    (hnew : g.nodes.get? new = some ndn)
    (hnxt : g.nodes.get? nxt = some ndx)
    (hsame : ndn.flat_node = ndx.flat_node)
    (h : g._shorten_travel_arcs_unrelaxed new nxt t = some g') :
    CoreInv g' ∧ g'.nodes = g.nodes ∧ g'.node_to_times = g.node_to_times ∧
    g'.flat_to_expanded_nodes = g.flat_to_expanded_nodes ∧
    g'.g_flat = g.g_flat ∧ g'.relaxed = g.relaxed := by
  unfold DiscretizedGraph._shorten_travel_arcs_unrelaxed at h
  have hmain := foldlM_option_preserve
    (fun g1 => CoreInv g1 ∧ g1.nodes = g.nodes ∧
      g1.node_to_times = g.node_to_times ∧
      g1.flat_to_expanded_nodes = g.flat_to_expanded_nodes ∧
      g1.g_flat = g.g_flat ∧ g1.relaxed = g.relaxed)
    (DiscretizedGraph.shortenStep new nxt t)
    (g.in_edges nxt) g g' h ⟨hinv, rfl, rfl, rfl, rfl, rfl⟩ ?_
  · exact hmain
  · rintro g1 ija g2 hija ⟨hinv1, hn1, hnt1, hfe1, hgf1, hrel1⟩ hstep
    obtain ⟨e, hem, hedst, hijaeq⟩ := mem_in_edges _ _ _ hija
    subst hijaeq
    rcases shortenStep_char new nxt t g1 g2 e.2.src e.2.dst e.2.data hstep
      with heq | ⟨ndi, ndj, rm, hndi, hndj, hflat, hguard, hrm, hedges, hnx,
        hn2, hnt2, hfe2, hgf2, hrel2⟩
    · rw [heq]
      exact ⟨hinv1, hn1, hnt1, hfe1, hgf1, hrel1⟩
    · obtain ⟨dr, hdrmem, hdruniq⟩ := get_edge_index_spec g1 e.2.src e.2.dst
        rm hrm
      have hndx1 : g1.nodes.get? nxt = some ndx := by
        rw [hn1]
        exact hnxt
      have hndn1 : g1.nodes.get? new = some ndn := by
        rw [hn1]
        exact hnew
      have hndjx : ndj = ndx := by
        rw [hedst] at hndj
        rw [hndx1] at hndj
        injection hndj with hndj2
        exact hndj2.symm
      have hrem : CoreInv (g1.removeEdgeFromIndex rm) := by
        apply coreInv_removeEdge g1 rm (EdgeRec.mk e.2.src e.2.dst dr) hinv1
          hdrmem
        intro nda ndb hna hnb
        simp only at hna hnb
        rw [hndi] at hna
        rw [hndj] at hnb
        injection hna with hna
        injection hnb with hnb
        rw [← hna, ← hnb]
        exact hflat
      have hadd : CoreInv ((g1.removeEdgeFromIndex rm).addEdge e.2.src new
          e.2.data).1 := by
        apply coreInv_addEdge_travel _ e.2.src new e.2.data ndi ndn hrem hndi
          hndn1
        · rw [hsame, ← hndjx]
          exact hflat
        · have hei : g.nodes.get? e.2.src = some ndi := by
            rw [← hn1]
            exact hndi
          have hej : g.nodes.get? e.2.dst = some ndj := by
            rw [← hn1]
            exact hndj
          obtain ⟨fa, hfam, hfs, hfd, hfdata⟩ := hinv.travel_link e hem ndi ndj
            hei hej hflat
          refine ⟨fa, show fa ∈ g1.g_flat.arcs by rw [hgf1]; exact hfam,
            hfs, ?_, hfdata⟩
          rw [hfd, hsame, hndjx]
      refine ⟨coreInv_congr g2
        ((g1.removeEdgeFromIndex rm).addEdge e.2.src new e.2.data).1
        hgf2 hn2 hnt2 hfe2 hedges hnx hadd,
        by rw [hn2, hn1], by rw [hnt2, hnt1], by rw [hfe2, hfe1],
        by rw [hgf2, hgf1], by rw [hrel2, hrel1]⟩

theorem get?_set_self {α : Type} :
    ∀ (l : List α) (n : Nat) (a : α), n < l.length →
      (l.set n a).get? n = some a := by
  intro l
  induction l with
  | nil => intro n a h; simp at h
  | cons x xs ih =>
    intro n a h
    cases n with
    | zero => rfl
    | succ n => exact ih n a (by simpa using h)

theorem get?_set_ne {α : Type} :
    ∀ (l : List α) (n m : Nat) (a : α), n ≠ m →
      (l.set n a).get? m = l.get? m := by
  intro l
  induction l with
  | nil => intro n m a _; simp
  | cons x xs ih =>
    intro n m a h
    cases n with
    | zero =>
      cases m with
      | zero => exact absurd rfl h
      | succ m => rfl
    | succ n =>
      cases m with
      | zero => rfl
      | succ m => exact ih n m a (by omega)

theorem getD_set_self {α : Type} (l : List α) (n : Nat) (a d : α)
    (h : n < l.length) : (l.set n a).getD n d = a :=
  getD_of_get? _ _ _ _ (get?_set_self l n a h)

theorem getD_set_ne {α : Type} (l : List α) (n m : Nat) (a d : α)
    (h : n ≠ m) : (l.set n a).getD m d = l.getD m d := by
  rcases Nat.lt_or_ge m l.length with hm | hm
  · rw [getD_of_get? _ _ (l.getD m d) d]
    rw [get?_set_ne l n m a h]
    exact get?_eq_getD l m d hm
  · have h1 : (l.set n a).get? m = none := by
      rw [get?_set_ne l n m a h]
      exact List.get?_eq_none.mpr (by omega)
    have h2 : l.get? m = none := List.get?_eq_none.mpr (by omega)
    unfold List.getD
    rw [h1, h2]

theorem countBetween_eq_zero_left (g : DiscretizedGraph) (a b : Nat)
    (h : ∀ p ∈ g.edges, p.2.src ≠ a) : countBetween g a b = 0 := by
  unfold countBetween
  rw [List.length_eq_zero, List.filter_eq_nil]
  intro p hp
  simp only [Bool.and_eq_true, beq_iff_eq, not_and]
  intro hs
  exact absurd hs (h p hp)

theorem countBetween_eq_zero_right (g : DiscretizedGraph) (a b : Nat)
    (h : ∀ p ∈ g.edges, p.2.dst ≠ b) : countBetween g a b = 0 := by
  unfold countBetween
  rw [List.length_eq_zero, List.filter_eq_nil]
  intro p hp
  simp only [Bool.and_eq_true, beq_iff_eq, not_and]
  intro _ hd
  exact absurd hd (h p hp)

theorem refine_prefix_core (g0 : DiscretizedGraph) (v : Nat) (t : Int)
    (times : List Int) (exp : List Nat) (k : Nat) (prev : Nat)
    (nxt_opt : Option Nat) (name : String) (g4 : DiscretizedGraph)
    (hinv : CoreInv g0)
    (htimes : g0.node_to_times.get? v = some times)
    (hexp : g0.flat_to_expanded_nodes.get? v = some exp)
    (hk1 : 1 ≤ k) (hkle : k ≤ times.length)
    (hprev : exp.get? (k - 1) = some prev)
    (hnext : (nxt_opt = none ∧ times.length ≤ k) ∨
      (∃ nxt, nxt_opt = some nxt ∧ exp.get? k = some nxt))
    (hrun : DiscretizedGraph._refine_holding_arc
      { g0 with
        node_to_times := g0.node_to_times.set v (pyInsert times k t),
        nodes := g0.nodes ++ [TimeNodeData.mk v t name],
        flat_to_expanded_nodes :=
          g0.flat_to_expanded_nodes.set v (pyInsert exp k g0.nodes.length) }
      g0.nodes.length prev nxt_opt = some g4) :
    CoreInv g4 ∧
    g4.nodes = g0.nodes ++ [TimeNodeData.mk v t name] ∧
    g4.node_to_times = g0.node_to_times.set v (pyInsert times k t) ∧
    g4.flat_to_expanded_nodes =
      g0.flat_to_expanded_nodes.set v (pyInsert exp k g0.nodes.length) ∧
    g4.g_flat = g0.g_flat ∧ g4.relaxed = g0.relaxed := by
  obtain ⟨hn4, hnt4, hfe4, hgf4, hrel4, _, hcase⟩ :=
    refine_holding_char _ _ _ _ _ hrun
  have hn4' : g4.nodes = g0.nodes ++ [TimeNodeData.mk v t name] := hn4
  have hnt4' : g4.node_to_times = g0.node_to_times.set v (pyInsert times k t) :=
    hnt4
  have hfe4' : g4.flat_to_expanded_nodes =
      g0.flat_to_expanded_nodes.set v (pyInsert exp k g0.nodes.length) := hfe4
  have hgf4' : g4.g_flat = g0.g_flat := hgf4
  have hrel4' : g4.relaxed = g0.relaxed := hrel4
  -- basic index facts
  have hvlt : v < g0.node_to_times.length := lt_of_get?_eq_some _ _ _ htimes
  have hvN : v < g0.g_flat.nodes.length := by
    rw [← hinv.ntt_len]
    exact hvlt
  have hvfte : v < g0.flat_to_expanded_nodes.length := by
    rw [hinv.exp_len]
    exact hvN
  have hexp0 : expOf g0 v = exp := getD_of_get? _ _ _ _ hexp
  have hntt0 : nttOf g0 v = times := getD_of_get? _ _ _ _ htimes
  have hlen_ev : exp.length = times.length := by
    have := hinv.len_eq v hvN
    rw [hexp0, hntt0] at this
    exact this
  have hkle' : k ≤ exp.length := by omega
  have hexp_lt : ∀ m nid, exp.get? m = some nid → nid < g0.nodes.length := by
    intro m nid hm
    obtain ⟨nd, hnd, _, _⟩ := hinv.node_mem v hvN m nid
      (by rw [hexp0]; exact hm)
    exact lt_of_get?_eq_some _ _ _ hnd
  have hnew_notin : g0.nodes.length ∉ exp := by
    intro hc
    obtain ⟨m, hm⟩ := List.get?_of_mem hc
    have := hexp_lt m _ hm
    omega
  have hprev_lt : prev < g0.nodes.length := hexp_lt _ _ hprev
  obtain ⟨ndp, hndp, hndpf, hndpt⟩ := hinv.node_mem v hvN (k - 1) prev
    (by rw [hexp0]; exact hprev)
  have hexpnodup : exp.Nodup := by
    have := hinv.exp_nodup v hvN
    rw [hexp0] at this
    exact this
  -- lookups in the extended graph
  have hlen4 : g4.nodes.length = g0.nodes.length + 1 := by
    rw [hn4']
    simp
  have hnode4_old : ∀ nid, nid < g0.nodes.length →
      g4.nodes.get? nid = g0.nodes.get? nid := by
    intro nid hn
    rw [hn4']
    exact List.get?_append hn
  have hnode4_new : g4.nodes.get? g0.nodes.length =
      some (TimeNodeData.mk v t name) := by
    rw [hn4']
    exact List.get?_concat_length _ _
  have hexp4v : expOf g4 v = pyInsert exp k g0.nodes.length := by
    show g4.flat_to_expanded_nodes.getD v [] = _
    rw [hfe4']
    exact getD_set_self _ _ _ _ hvfte
  have hexp4w : ∀ w, w ≠ v → expOf g4 w = expOf g0 w := by
    intro w hw
    show g4.flat_to_expanded_nodes.getD w [] = g0.flat_to_expanded_nodes.getD w []
    rw [hfe4']
    exact getD_set_ne _ _ _ _ _ (fun hc => hw hc.symm)
  have hntt4v : nttOf g4 v = pyInsert times k t := by
    show g4.node_to_times.getD v [] = _
    rw [hnt4']
    exact getD_set_self _ _ _ _ hvlt
  have hntt4w : ∀ w, w ≠ v → nttOf g4 w = nttOf g0 w := by
    intro w hw
    show g4.node_to_times.getD w [] = g0.node_to_times.getD w []
    rw [hnt4']
    exact getD_set_ne _ _ _ _ _ (fun hc => hw hc.symm)
  -- the five edge-independent invariant fields
  have hexp_len4 : g4.flat_to_expanded_nodes.length = g4.g_flat.nodes.length := by
    rw [hfe4', hgf4', List.length_set]
    exact hinv.exp_len
  have hntt_len4 : g4.node_to_times.length = g4.g_flat.nodes.length := by
    rw [hnt4', hgf4', List.length_set]
    exact hinv.ntt_len
  have hlen_eq4 : ∀ w, w < g4.g_flat.nodes.length →
      (expOf g4 w).length = (nttOf g4 w).length := by
    intro w hw
    have hw0 : w < g0.g_flat.nodes.length := by rw [← hgf4']; exact hw
    by_cases hwv : w = v
    · rw [hwv, hexp4v, hntt4v, pyInsert_length, pyInsert_length, hlen_ev]
    · rw [hexp4w w hwv, hntt4w w hwv]
      exact hinv.len_eq w hw0
  have hnode_mem4 : ∀ w, w < g4.g_flat.nodes.length → ∀ m nid,
      (expOf g4 w).get? m = some nid →
      ∃ nd, g4.nodes.get? nid = some nd ∧ nd.flat_node = w ∧
        (nttOf g4 w).get? m = some nd.time := by
    intro w hw m nid hm
    have hw0 : w < g0.g_flat.nodes.length := by rw [← hgf4']; exact hw
    by_cases hwv : w = v
    · rw [hwv] at hm ⊢
      rw [hexp4v] at hm
      rw [hntt4v]
      rcases Nat.lt_trichotomy m k with hmk | hmk | hmk
      · rw [pyInsert_get?_lt _ _ _ _ hmk hkle'] at hm
        obtain ⟨nd, hnd, hndf, hndt⟩ := hinv.node_mem v hvN m nid
          (by rw [hexp0]; exact hm)
        rw [hntt0] at hndt
        refine ⟨nd, ?_, hndf, ?_⟩
        · rw [hnode4_old nid (hexp_lt m nid hm)]
          exact hnd
        · rw [pyInsert_get?_lt _ _ _ _ hmk hkle]
          exact hndt
      · subst hmk
        rw [pyInsert_get?_eq _ _ _ hkle'] at hm
        injection hm with hm
        subst hm
        refine ⟨TimeNodeData.mk v t name, hnode4_new, rfl, ?_⟩
        rw [pyInsert_get?_eq _ _ _ hkle]
      · rw [pyInsert_get?_gt _ _ _ _ hmk hkle'] at hm
        obtain ⟨nd, hnd, hndf, hndt⟩ := hinv.node_mem v hvN (m - 1) nid
          (by rw [hexp0]; exact hm)
        rw [hntt0] at hndt
        refine ⟨nd, ?_, hndf, ?_⟩
        · rw [hnode4_old nid (hexp_lt (m - 1) nid hm)]
          exact hnd
        · rw [pyInsert_get?_gt _ _ _ _ hmk hkle]
          exact hndt
    · rw [hexp4w w hwv] at hm
      obtain ⟨nd, hnd, hndf, hndt⟩ := hinv.node_mem w hw0 m nid hm
      refine ⟨nd, ?_, hndf, ?_⟩
      · rw [hnode4_old nid (lt_of_get?_eq_some _ _ _ hnd)]
        exact hnd
      · rw [hntt4w w hwv]
        exact hndt
  have hexp_nodup4 : ∀ w, w < g4.g_flat.nodes.length → (expOf g4 w).Nodup := by
    intro w hw
    have hw0 : w < g0.g_flat.nodes.length := by rw [← hgf4']; exact hw
    by_cases hwv : w = v
    · rw [hwv, hexp4v]
      exact pyInsert_nodup _ _ _ hnew_notin hexpnodup
    · rw [hexp4w w hwv]
      exact hinv.exp_nodup w hw0
  -- a lookup in the new lists by value determines the flat node
  have hexp4_lt : ∀ w, w < g0.g_flat.nodes.length → ∀ m nid,
      (expOf g4 w).get? m = some nid → nid < g0.nodes.length + 1 := by
    intro w hw m nid hm
    obtain ⟨nd, hnd, _, _⟩ := hnode_mem4 w (by rw [hgf4']; exact hw) m nid hm
    have := lt_of_get?_eq_some _ _ _ hnd
    rw [hlen4] at this
    exact this
  rcases hcase with ⟨hno, hEA, hNA⟩ | ⟨nxt, ha, hsome, hha, hEB, hNB⟩
  · -- no next node: `k` is at the end of the list
    have hkend : k = times.length := by
      rcases hnext with ⟨_, h2⟩ | ⟨nxt, hnxt, _⟩
      · omega
      · rw [hno] at hnxt
        exact absurd hnxt (by simp)
    have hedges4 : g4.edges = g0.edges ++
        [(g0.next_edge, EdgeRec.mk prev g0.nodes.length holdingArcData)] := hEA
    have hnx4 : g4.next_edge = g0.next_edge + 1 := hNA
    have hcb4 : ∀ a b, countBetween g4 a b = countBetween g0 a b +
        (if prev = a ∧ g0.nodes.length = b then 1 else 0) := by
      intro a b
      have h1 : countBetween g4 a b =
          countBetween (g0.addEdge prev g0.nodes.length holdingArcData).1 a b := by
        unfold countBetween
        rw [hedges4]
        rfl
      rw [h1, countBetween_addEdge]
    refine ⟨⟨hexp_len4, hntt_len4, hlen_eq4, hnode_mem4, hexp_nodup4,
      ?_, ?_, ?_, ?_, ?_, ?_⟩, hn4', hnt4', hfe4', hgf4', hrel4'⟩
    · -- edge_valid
      intro p hp
      rw [hedges4] at hp
      rw [hlen4]
      rcases List.mem_append.mp hp with hp1 | hp1
      · have := hinv.edge_valid p hp1
        omega
      · have hpe : p = (g0.next_edge,
            EdgeRec.mk prev g0.nodes.length holdingArcData) := by
          rcases List.mem_cons.mp hp1 with h2 | h2
          · exact h2
          · simp at h2
        rw [hpe]
        constructor
        · show prev < g0.nodes.length + 1
          omega
        · show g0.nodes.length < g0.nodes.length + 1
          omega
    · -- idx_bound
      intro p hp
      rw [hedges4] at hp
      rw [hnx4]
      rcases List.mem_append.mp hp with hp1 | hp1
      · have := hinv.idx_bound p hp1
        omega
      · have hpe : p = (g0.next_edge,
            EdgeRec.mk prev g0.nodes.length holdingArcData) := by
          rcases List.mem_cons.mp hp1 with h2 | h2
          · exact h2
          · simp at h2
        rw [hpe]
        show g0.next_edge < g0.next_edge + 1
        omega
    · -- idx_nodup
      rw [hedges4, List.map_append]
      apply List.Nodup.append hinv.idx_nodup (by simp)
      intro x hx hx2
      simp only [List.map_cons, List.map_nil, List.mem_singleton] at hx2
      subst hx2
      obtain ⟨q, hq, hq2⟩ := List.mem_map.mp hx
      have := hinv.idx_bound q hq
      omega
    · -- same_flat_holding
      intro p hp a b hsrc hdst hab
      rw [hedges4] at hp
      rcases List.mem_append.mp hp with hp1 | hp1
      · have hlt1 := (hinv.edge_valid p hp1).1
        have hlt2 := (hinv.edge_valid p hp1).2
        rw [hnode4_old _ hlt1] at hsrc
        rw [hnode4_old _ hlt2] at hdst
        obtain ⟨hdata, m, hm1, hm2⟩ :=
          hinv.same_flat_holding p hp1 a b hsrc hdst hab
        refine ⟨hdata, ?_⟩
        by_cases hwv : a.flat_node = v
        · rw [hwv] at hm1 hm2 ⊢
          rw [hexp0] at hm1 hm2
          rw [hexp4v]
          have hm2' : m + 1 < k := by
            have := lt_of_get?_eq_some _ _ _ hm2
            omega
          refine ⟨m, ?_, ?_⟩
          · rw [pyInsert_get?_lt _ _ _ _ (by omega) hkle']
            exact hm1
          · rw [pyInsert_get?_lt _ _ _ _ hm2' hkle']
            exact hm2
        · rw [hexp4w _ hwv]
          exact ⟨m, hm1, hm2⟩
      · have hpe : p = (g0.next_edge,
            EdgeRec.mk prev g0.nodes.length holdingArcData) := by
          rcases List.mem_cons.mp hp1 with h2 | h2
          · exact h2
          · simp at h2
        rw [hpe] at hsrc hdst ⊢
        have hsrc2 : g4.nodes.get? prev = some a := hsrc
        have hdst2 : g4.nodes.get? g0.nodes.length = some b := hdst
        rw [hnode4_old _ hprev_lt, hndp] at hsrc2
        rw [hnode4_new] at hdst2
        injection hsrc2 with hsrc2
        injection hdst2 with hdst2
        refine ⟨rfl, k - 1, ?_, ?_⟩
        · rw [← hsrc2, hndpf, hexp4v,
            pyInsert_get?_lt _ _ _ _ (by omega) hkle']
          exact hprev
        · rw [← hsrc2, hndpf, hexp4v]
          have hk : k - 1 + 1 = k := by omega
          rw [hk, pyInsert_get?_eq _ _ _ hkle']
    · -- holding_one
      intro w hw m hm
      have hw0 : w < g0.g_flat.nodes.length := by rw [← hgf4']; exact hw
      rw [hcb4]
      by_cases hwv : w = v
      · rw [hwv] at hm ⊢
        rw [hexp4v] at hm ⊢
        rw [pyInsert_length] at hm
        have hmk : m + 1 < k ∨ m + 1 = k := by
          omega
        rcases hmk with hmk | hmk
        · -- an old pair strictly before the insertion point
          rw [pyInsert_getD _ _ _ _ hkle' m (by omega),
            pyInsert_getD _ _ _ _ hkle' (m+1) (by omega),
            if_pos (by omega : m < k), if_pos hmk]
          have hcnt := hinv.holding_one v hvN m
            (by rw [hexp0]; omega)
          rw [hexp0] at hcnt
          rw [hcnt]
          have hbold : exp.getD (m+1) 0 < g0.nodes.length := by
            apply hexp_lt (m+1)
            exact get?_eq_getD _ _ _ (by omega)
          rw [if_neg (by rintro ⟨_, h2⟩; omega)]
        · -- the pair `(prev, new)` at the end
          rw [pyInsert_getD _ _ _ _ hkle' m (by omega),
            pyInsert_getD _ _ _ _ hkle' (m+1) (by omega),
            if_pos (by omega : m < k), if_neg (by omega : ¬ m + 1 < k),
            if_pos hmk]
          have hprevD : exp.getD m 0 = prev := by
            have : m = k - 1 := by omega
            rw [this]
            exact getD_of_get? _ _ _ _ hprev
          rw [hprevD]
          have hz : countBetween g0 prev g0.nodes.length = 0 := by
            apply countBetween_eq_zero_right
            intro p hp
            have := (hinv.edge_valid p hp).2
            omega
          rw [hz, if_pos ⟨rfl, rfl⟩]
      · rw [hexp4w _ hwv] at hm ⊢
        have hcnt := hinv.holding_one w hw0 m hm
        rw [hcnt]
        have hbold : (expOf g0 w).getD (m+1) 0 < g0.nodes.length := by
          obtain ⟨nd, hnd, _, _⟩ := hinv.node_mem w hw0 (m+1) _
            (get?_eq_getD _ _ _ (by omega))
          exact lt_of_get?_eq_some _ _ _ hnd
        rw [if_neg (by rintro ⟨_, h2⟩; omega)]
    · -- travel_link
      intro p hp a b hsrc hdst hab
      rw [hedges4] at hp
      rw [hgf4']
      rcases List.mem_append.mp hp with hp1 | hp1
      · have hlt1 := (hinv.edge_valid p hp1).1
        have hlt2 := (hinv.edge_valid p hp1).2
        rw [hnode4_old _ hlt1] at hsrc
        rw [hnode4_old _ hlt2] at hdst
        exact hinv.travel_link p hp1 a b hsrc hdst hab
      · exfalso
        have hpe : p = (g0.next_edge,
            EdgeRec.mk prev g0.nodes.length holdingArcData) := by
          rcases List.mem_cons.mp hp1 with h2 | h2
          · exact h2
          · simp at h2
        rw [hpe] at hsrc hdst
        have hsrc2 : g4.nodes.get? prev = some a := hsrc
        have hdst2 : g4.nodes.get? g0.nodes.length = some b := hdst
        rw [hnode4_old _ hprev_lt, hndp] at hsrc2
        rw [hnode4_new] at hdst2
        injection hsrc2 with hsrc2
        injection hdst2 with hdst2
        apply hab
        rw [← hsrc2, ← hdst2, hndpf]
  · -- a next node exists: the holding arc `prev → nxt` is replaced
    have hnxtk : exp.get? k = some nxt := by
      rcases hnext with ⟨h1, _⟩ | ⟨nxt2, hnxt2, hnxtk2⟩
      · rw [h1] at hsome
        exact absurd hsome (by simp)
      · rw [hsome] at hnxt2
        injection hnxt2 with hinj
        rw [hinj]
        exact hnxtk2
    have hk_lt_exp : k < exp.length := lt_of_get?_eq_some _ _ _ hnxtk
    have hnxt_lt : nxt < g0.nodes.length := hexp_lt _ _ hnxtk
    obtain ⟨ndx, hndx, hndxf, hndxt⟩ := hinv.node_mem v hvN k nxt
      (by rw [hexp0]; exact hnxtk)
    have hprev_ne_nxt : prev ≠ nxt := by
      intro hc
      have := nodup_get?_inj exp hexpnodup (k - 1) k prev hprev
        (by rw [hc]; exact hnxtk)
      omega
    have hedges4 : g4.edges =
        ((g0.edges ++ [(g0.next_edge,
            EdgeRec.mk prev g0.nodes.length holdingArcData)]).filter
          (fun q => q.1 ≠ ha)) ++
        [(g0.next_edge + 1, EdgeRec.mk g0.nodes.length nxt holdingArcData)] :=
      hEB
    have hnx4 : g4.next_edge = g0.next_edge + 2 := hNB
    -- the removed index belongs to the unique holding arc `prev → nxt` of `g0`
    have hha0 : get_edge_index (g0.addEdge prev g0.nodes.length
        holdingArcData).1 prev nxt = some ha := hha
    obtain ⟨dr, hdmem0, hduniq0⟩ := get_edge_index_spec _ _ _ _ hha0
    have hdmem : (ha, EdgeRec.mk prev nxt dr) ∈ g0.edges ++ [(g0.next_edge,
        EdgeRec.mk prev g0.nodes.length holdingArcData)] := hdmem0
    have hduniq : ∀ p ∈ g0.edges ++ [(g0.next_edge,
        EdgeRec.mk prev g0.nodes.length holdingArcData)],
        p.2.src = prev → p.2.dst = nxt →
        p = (ha, EdgeRec.mk prev nxt dr) := hduniq0
    have hdr0 : (ha, EdgeRec.mk prev nxt dr) ∈ g0.edges := by
      rcases List.mem_append.mp hdmem with h1 | h1
      · exact h1
      · exfalso
        have hpe : (ha, EdgeRec.mk prev nxt dr) = (g0.next_edge,
            EdgeRec.mk prev g0.nodes.length holdingArcData) := by
          rcases List.mem_cons.mp h1 with h2 | h2
          · exact h2
          · simp at h2
        injection hpe with hpe1 hpe2
        injection hpe2 with hpe2a hpe2b
        omega
    have hha_lt : ha < g0.next_edge := hinv.idx_bound _ hdr0
    -- count bookkeeping
    have hcbA : ∀ a b, countBetween (g0.addEdge prev g0.nodes.length
        holdingArcData).1 a b = countBetween g0 a b +
        (if prev = a ∧ g0.nodes.length = b then 1 else 0) := by
      intro a b
      rw [countBetween_addEdge]
    have hremuniq : ∀ p, p ∈ g0.edges ++ [(g0.next_edge,
        EdgeRec.mk prev g0.nodes.length holdingArcData)] → p.1 = ha →
        p = (ha, EdgeRec.mk prev nxt dr) := by
      intro p hp hpidx
      have hAnodup : ((g0.edges ++ [(g0.next_edge,
          EdgeRec.mk prev g0.nodes.length holdingArcData)]).map Prod.fst).Nodup := by
        rw [List.map_append]
        apply List.Nodup.append hinv.idx_nodup (by simp)
        intro x hx hx2
        simp only [List.map_cons, List.map_nil, List.mem_singleton] at hx2
        subst hx2
        obtain ⟨q, hq, hq2⟩ := List.mem_map.mp hx
        have := hinv.idx_bound q hq
        omega
      exact idx_nodup_unique _ hAnodup p _ hp hdmem hpidx
    have hcb4 : ∀ a b, ¬(prev = a ∧ nxt = b) →
        countBetween g4 a b = countBetween g0 a b +
          (if prev = a ∧ g0.nodes.length = b then 1 else 0) +
          (if g0.nodes.length = a ∧ nxt = b then 1 else 0) := by
      intro a b hne
      have h1 : countBetween g4 a b =
          countBetween (((g0.addEdge prev g0.nodes.length
            holdingArcData).1.removeEdgeFromIndex ha).addEdge
            g0.nodes.length nxt holdingArcData).1 a b := by
        unfold countBetween
        rw [hedges4]
        rfl
      rw [h1, countBetween_addEdge, countBetween_removeIdx_ne, hcbA]
      intro p hp hpidx
      have := hremuniq p hp hpidx
      rw [this]
      simp only [not_and]
      intro h1 h2
      exact hne ⟨h1, h2⟩
    have hcb4pn : countBetween g4 prev nxt = 0 := by
      have h1 : countBetween g4 prev nxt =
          countBetween (((g0.addEdge prev g0.nodes.length
            holdingArcData).1.removeEdgeFromIndex ha).addEdge
            g0.nodes.length nxt holdingArcData).1 prev nxt := by
        unfold countBetween
        rw [hedges4]
        rfl
      rw [h1, countBetween_addEdge, countBetween_remove_found _ _ _ _ hha0]
      rw [if_neg (by rintro ⟨h1, _⟩; omega)]
    -- membership in the rewired edge list
    have hmemB : ∀ p, p ∈ g4.edges →
        (p ∈ g0.edges ∧ p.1 ≠ ha) ∨
        p = (g0.next_edge, EdgeRec.mk prev g0.nodes.length holdingArcData) ∨
        p = (g0.next_edge + 1, EdgeRec.mk g0.nodes.length nxt holdingArcData) := by
      intro p hp
      rw [hedges4] at hp
      rcases List.mem_append.mp hp with hp1 | hp1
      · obtain ⟨hp2, hp3⟩ := List.mem_filter.mp hp1
        simp only [ne_eq, decide_not, Bool.not_eq_true',
          decide_eq_false_iff_not] at hp3
        rcases List.mem_append.mp hp2 with hp4 | hp4
        · exact Or.inl ⟨hp4, hp3⟩
        · refine Or.inr (Or.inl ?_)
          rcases List.mem_cons.mp hp4 with h2 | h2
          · exact h2
          · simp at h2
      · refine Or.inr (Or.inr ?_)
        rcases List.mem_cons.mp hp1 with h2 | h2
        · exact h2
        · simp at h2
    refine ⟨⟨hexp_len4, hntt_len4, hlen_eq4, hnode_mem4, hexp_nodup4,
      ?_, ?_, ?_, ?_, ?_, ?_⟩, hn4', hnt4', hfe4', hgf4', hrel4'⟩
    · -- edge_valid
      intro p hp
      rw [hlen4]
      rcases hmemB p hp with ⟨hp1, _⟩ | hpe | hpe
      · have := hinv.edge_valid p hp1
        omega
      · rw [hpe]
        exact ⟨by show prev < _; omega, by show g0.nodes.length < _; omega⟩
      · rw [hpe]
        exact ⟨by show g0.nodes.length < _; omega, by show nxt < _; omega⟩
    · -- idx_bound
      intro p hp
      rw [hnx4]
      rcases hmemB p hp with ⟨hp1, _⟩ | hpe | hpe
      · have := hinv.idx_bound p hp1
        omega
      · rw [hpe]
        show g0.next_edge < g0.next_edge + 2
        omega
      · rw [hpe]
        show g0.next_edge + 1 < g0.next_edge + 2
        omega
    · -- idx_nodup
      rw [hedges4, List.map_append]
      apply List.Nodup.append
      · apply List.Nodup.sublist (List.Sublist.map Prod.fst
          (List.filter_sublist _))
        rw [List.map_append]
        apply List.Nodup.append hinv.idx_nodup (by simp)
        intro x hx hx2
        simp only [List.map_cons, List.map_nil, List.mem_singleton] at hx2
        subst hx2
        obtain ⟨q, hq, hq2⟩ := List.mem_map.mp hx
        have := hinv.idx_bound q hq
        omega
      · simp
      · intro x hx hx2
        simp only [List.map_cons, List.map_nil, List.mem_singleton] at hx2
        subst hx2
        obtain ⟨q, hq, hq2⟩ := List.mem_map.mp hx
        obtain ⟨hq3, _⟩ := List.mem_filter.mp hq
        rcases List.mem_append.mp hq3 with h1 | h1
        · have := hinv.idx_bound q h1
          omega
        · have hpe : q = (g0.next_edge,
              EdgeRec.mk prev g0.nodes.length holdingArcData) := by
            rcases List.mem_cons.mp h1 with h2 | h2
            · exact h2
            · simp at h2
          rw [hpe] at hq2
          simp at hq2
    · -- same_flat_holding
      intro p hp a b hsrc hdst hab
      rcases hmemB p hp with ⟨hp1, hpne⟩ | hpe | hpe
      · have hlt1 := (hinv.edge_valid p hp1).1
        have hlt2 := (hinv.edge_valid p hp1).2
        rw [hnode4_old _ hlt1] at hsrc
        rw [hnode4_old _ hlt2] at hdst
        obtain ⟨hdata, m, hm1, hm2⟩ :=
          hinv.same_flat_holding p hp1 a b hsrc hdst hab
        refine ⟨hdata, ?_⟩
        by_cases hwv : a.flat_node = v
        · rw [hwv] at hm1 hm2 ⊢
          rw [hexp0] at hm1 hm2
          rw [hexp4v]
          -- p is not the removed holding arc, so its pair avoids `(k-1, k)`
          have hmne : ¬(m = k - 1) := by
            intro hc
            subst hc
            have hsrcp : exp.get? (k - 1) = some p.2.src := hm1
            have hdstp : exp.get? (k - 1 + 1) = some p.2.dst := hm2
            have hkk : k - 1 + 1 = k := by omega
            rw [hkk] at hdstp
            have hps : p.2.src = prev := by
              injection hsrcp.symm.trans hprev
            have hpd : p.2.dst = nxt := by
              injection hdstp.symm.trans hnxtk
            have := hduniq p (List.mem_append.mpr (Or.inl hp1)) hps hpd
            rw [this] at hpne
            exact hpne rfl
          rcases Nat.lt_or_ge m (k - 1) with hmk | hmk
          · refine ⟨m, ?_, ?_⟩
            · rw [pyInsert_get?_lt _ _ _ _ (by omega) hkle']
              exact hm1
            · rw [pyInsert_get?_lt _ _ _ _ (by omega) hkle']
              exact hm2
          · have hmge : k ≤ m := by omega
            refine ⟨m + 1, ?_, ?_⟩
            · rw [pyInsert_get?_gt _ _ _ _ (by omega) hkle']
              simpa using hm1
            · rw [pyInsert_get?_gt _ _ _ _ (by omega) hkle']
              simpa using hm2
        · rw [hexp4w _ hwv]
          exact ⟨m, hm1, hm2⟩
      · -- the new holding arc `prev → new`
        rw [hpe] at hsrc hdst ⊢
        have hsrc2 : g4.nodes.get? prev = some a := hsrc
        have hdst2 : g4.nodes.get? g0.nodes.length = some b := hdst
        rw [hnode4_old _ hprev_lt, hndp] at hsrc2
        rw [hnode4_new] at hdst2
        injection hsrc2 with hsrc2
        injection hdst2 with hdst2
        refine ⟨rfl, k - 1, ?_, ?_⟩
        · rw [← hsrc2, hndpf, hexp4v,
            pyInsert_get?_lt _ _ _ _ (by omega) hkle']
          exact hprev
        · rw [← hsrc2, hndpf, hexp4v]
          have hk : k - 1 + 1 = k := by omega
          rw [hk, pyInsert_get?_eq _ _ _ hkle']
      · -- the new holding arc `new → nxt`
        rw [hpe] at hsrc hdst ⊢
        have hsrc2 : g4.nodes.get? g0.nodes.length = some a := hsrc
        have hdst2 : g4.nodes.get? nxt = some b := hdst
        rw [hnode4_new] at hsrc2
        rw [hnode4_old _ hnxt_lt, hndx] at hdst2
        injection hsrc2 with hsrc2
        injection hdst2 with hdst2
        refine ⟨rfl, k, ?_, ?_⟩
        · rw [← hsrc2]
          show (expOf g4 v).get? k = _
          rw [hexp4v, pyInsert_get?_eq _ _ _ hkle']
        · rw [← hsrc2]
          show (expOf g4 v).get? (k + 1) = _
          rw [hexp4v, pyInsert_get?_gt _ _ _ _ (by omega) hkle']
          simpa using hnxtk
    · -- holding_one
      intro w hw m hm
      have hw0 : w < g0.g_flat.nodes.length := by rw [← hgf4']; exact hw
      by_cases hwv : w = v
      · rw [hwv] at hm ⊢
        rw [hexp4v] at hm ⊢
        rw [pyInsert_length] at hm
        have hkk : k - 1 + 1 = k := by omega
        rcases Nat.lt_trichotomy (m + 1) k with hmk | hmk | hmk
        · -- old pair strictly before the insertion point
          rw [pyInsert_getD _ _ _ _ hkle' m (by omega),
            pyInsert_getD _ _ _ _ hkle' (m+1) (by omega),
            if_pos (by omega : m < k), if_pos hmk]
          have hprevne : ¬(prev = exp.getD m 0 ∧ nxt = exp.getD (m+1) 0) := by
            rintro ⟨h1, h2⟩
            have := nodup_get?_inj exp hexpnodup (k-1) m prev hprev
              (by rw [h1]; exact get?_eq_getD _ _ _ (by omega))
            omega
          rw [hcb4 _ _ hprevne]
          have hcnt := hinv.holding_one v hvN m (by rw [hexp0]; omega)
          rw [hexp0] at hcnt
          rw [hcnt]
          have haold : exp.getD m 0 < g0.nodes.length := by
            apply hexp_lt m
            exact get?_eq_getD _ _ _ (by omega)
          have hbold : exp.getD (m+1) 0 < g0.nodes.length := by
            apply hexp_lt (m+1)
            exact get?_eq_getD _ _ _ (by omega)
          rw [if_neg (by rintro ⟨_, h2⟩; omega),
            if_neg (by rintro ⟨h1, _⟩; omega)]
        · -- the pair `(prev, new)`
          rw [pyInsert_getD _ _ _ _ hkle' m (by omega),
            pyInsert_getD _ _ _ _ hkle' (m+1) (by omega),
            if_pos (by omega : m < k), if_neg (by omega : ¬ m + 1 < k),
            if_pos hmk]
          have hprevD : exp.getD m 0 = prev := by
            have : m = k - 1 := by omega
            rw [this]
            exact getD_of_get? _ _ _ _ hprev
          rw [hprevD]
          rw [hcb4 _ _ (by rintro ⟨_, h2⟩; omega)]
          have hz : countBetween g0 prev g0.nodes.length = 0 := by
            apply countBetween_eq_zero_right
            intro p hp
            have := (hinv.edge_valid p hp).2
            omega
          rw [hz, if_pos ⟨rfl, rfl⟩, if_neg (by rintro ⟨h1, _⟩; omega)]
        · -- pairs at or after the new node
          rcases Nat.eq_or_lt_of_le (by omega : k + 1 ≤ m + 1) with hmk2 | hmk2
          · -- the pair `(new, nxt)`
            have hmeq : m = k := by omega
            subst hmeq
            rw [pyInsert_getD _ _ _ _ hkle' m (by omega),
              pyInsert_getD _ _ _ _ hkle' (m+1) (by omega),
              if_neg (by omega : ¬ m < m), if_pos rfl,
              if_neg (by omega : ¬ m + 1 < m), if_neg (by omega : ¬ m + 1 = m)]
            have hnxtD : exp.getD (m + 1 - 1) 0 = nxt := by
              have : m + 1 - 1 = m := by omega
              rw [this]
              exact getD_of_get? _ _ _ _ hnxtk
            rw [hnxtD]
            rw [hcb4 _ _ (by rintro ⟨h1, _⟩; omega)]
            have hz1 : countBetween g0 g0.nodes.length nxt = 0 := by
              apply countBetween_eq_zero_left
              intro p hp
              have := (hinv.edge_valid p hp).1
              omega
            rw [hz1, if_neg (by rintro ⟨_, h2⟩; omega), if_pos ⟨rfl, rfl⟩]
          · -- an old pair strictly after the insertion point
            rw [pyInsert_getD _ _ _ _ hkle' m (by omega),
              pyInsert_getD _ _ _ _ hkle' (m+1) (by omega),
              if_neg (by omega : ¬ m < k), if_neg (by omega : ¬ m = k),
              if_neg (by omega : ¬ m + 1 < k), if_neg (by omega : ¬ m + 1 = k)]
            have hstep : m + 1 - 1 = (m - 1) + 1 := by omega
            rw [hstep]
            have hprevne : ¬(prev = exp.getD (m-1) 0 ∧
                nxt = exp.getD ((m-1)+1) 0) := by
              rintro ⟨h1, h2⟩
              have := nodup_get?_inj exp hexpnodup (k-1) (m-1) prev hprev
                (by rw [h1]; exact get?_eq_getD _ _ _ (by omega))
              omega
            rw [hcb4 _ _ hprevne]
            have hcnt := hinv.holding_one v hvN (m-1) (by rw [hexp0]; omega)
            rw [hexp0] at hcnt
            rw [hcnt]
            have haold : exp.getD (m-1) 0 < g0.nodes.length := by
              apply hexp_lt (m-1)
              exact get?_eq_getD _ _ _ (by omega)
            have hbold : exp.getD ((m-1)+1) 0 < g0.nodes.length := by
              apply hexp_lt ((m-1)+1)
              exact get?_eq_getD _ _ _ (by omega)
            rw [if_neg (by rintro ⟨_, h2⟩; omega),
              if_neg (by rintro ⟨h1, _⟩; omega)]
      · rw [hexp4w _ hwv] at hm ⊢
        have haflat : ∀ nid m2, (expOf g0 w).get? m2 = some nid →
            nid ≠ prev ∧ nid ≠ g0.nodes.length := by
          intro nid m2 hnid
          obtain ⟨nd, hnd, hndf, _⟩ := hinv.node_mem w hw0 m2 nid hnid
          constructor
          · intro hc
            rw [hc, hndp] at hnd
            injection hnd with hnd
            rw [← hnd] at hndf
            rw [hndpf] at hndf
            exact hwv hndf.symm
          · intro hc
            have := lt_of_get?_eq_some _ _ _ hnd
            omega
        have ha1 := haflat ((expOf g0 w).getD m 0) m
          (get?_eq_getD _ _ 0 (by omega))
        have hb1 := haflat ((expOf g0 w).getD (m+1) 0) (m+1)
          (get?_eq_getD _ _ 0 (by omega))
        rw [hcb4 _ _ (by rintro ⟨h1, _⟩; exact ha1.1 h1.symm)]
        have hcnt := hinv.holding_one w hw0 m hm
        rw [hcnt]
        rw [if_neg (by rintro ⟨h1, _⟩; exact ha1.1 h1.symm),
          if_neg (by rintro ⟨h1, _⟩; exact ha1.2 h1.symm)]
    · -- travel_link
      intro p hp a b hsrc hdst hab
      rw [hgf4']
      rcases hmemB p hp with ⟨hp1, _⟩ | hpe | hpe
      · have hlt1 := (hinv.edge_valid p hp1).1
        have hlt2 := (hinv.edge_valid p hp1).2
        rw [hnode4_old _ hlt1] at hsrc
        rw [hnode4_old _ hlt2] at hdst
        exact hinv.travel_link p hp1 a b hsrc hdst hab
      · exfalso
        rw [hpe] at hsrc hdst
        have hsrc2 : g4.nodes.get? prev = some a := hsrc
        have hdst2 : g4.nodes.get? g0.nodes.length = some b := hdst
        rw [hnode4_old _ hprev_lt, hndp] at hsrc2
        rw [hnode4_new] at hdst2
        injection hsrc2 with hsrc2
        injection hdst2 with hdst2
        apply hab
        rw [← hsrc2, ← hdst2, hndpf]
      · exfalso
        rw [hpe] at hsrc hdst
        have hsrc2 : g4.nodes.get? g0.nodes.length = some a := hsrc
        have hdst2 : g4.nodes.get? nxt = some b := hdst
        rw [hnode4_new] at hsrc2
        rw [hnode4_old _ hnxt_lt, hndx] at hdst2
        injection hsrc2 with hsrc2
        injection hdst2 with hdst2
        apply hab
        rw [← hsrc2, ← hdst2, hndxf]

theorem refine_k0_fails (g : DiscretizedGraph) (v : Nat) (t : Int)
    (times : List Int)
    (hinv : CoreInv g)
    (htimes : g.node_to_times.get? v = some times)
    (hk : bisect_left times t = 0) :
    g.refine_discretization v t = none := by
  by_contra hc
  obtain ⟨g', h⟩ := Option.ne_none_iff_exists'.mp hc
  have hvlt : v < g.node_to_times.length := lt_of_get?_eq_some _ _ _ htimes
  have hvN : v < g.g_flat.nodes.length := by
    rw [← hinv.ntt_len]
    exact hvlt
  unfold DiscretizedGraph.refine_discretization at h
  rw [option_bind_eq_some] at h
  obtain ⟨times2, htimes2, h⟩ := h
  rw [htimes] at htimes2
  injection htimes2 with htimes2
  subst htimes2
  simp only [] at h
  rw [hk] at h
  rw [option_bind_eq_some] at h
  obtain ⟨exp, hexp, h⟩ := h
  have hexp0 : expOf g v = exp := getD_of_get? _ _ _ _ hexp
  have hntt0 : nttOf g v = times := getD_of_get? _ _ _ _ htimes
  have hlen_ev : exp.length = times.length := by
    have := hinv.len_eq v hvN
    rw [hexp0, hntt0] at this
    exact this
  rw [option_bind_eq_some] at h
  obtain ⟨prev, hprev, h⟩ := h
  cases hexpc : exp with
  | nil =>
    rw [hexpc] at hprev
    rw [pyGet_nil] at hprev
    exact absurd hprev (by simp)
  | cons e0 rest =>
    have hexpne : exp ≠ [] := by rw [hexpc]; simp
    have hprev2 : exp.get? (exp.length - 1) = some prev := by
      rw [show ((0 : Nat) : Int) - 1 = -1 by decide] at hprev
      rw [pyGet_neg_one exp hexpne] at hprev
      exact hprev
    have htpos : 0 < times.length := by
      rw [← hlen_ev, hexpc]
      simp
    rw [option_bind_eq_some] at h
    obtain ⟨nxtopt, hnxtopt, h⟩ := h
    unfold DiscretizedGraph.refineNextNode at hnxtopt
    rw [if_pos htpos, hexpc] at hnxtopt
    simp only [List.get?_cons_zero, Option.map_some', Option.some.injEq]
      at hnxtopt
    subst hnxtopt
    rw [option_bind_eq_some] at h
    obtain ⟨fnd, hfnd, h⟩ := h
    rw [option_bind_eq_some] at h
    obtain ⟨g4, hg4, h⟩ := h
    unfold DiscretizedGraph._refine_holding_arc at hg4
    rw [option_bind_eq_some] at hg4
    obtain ⟨ha, hha, hg4⟩ := hg4
    have hha0 : get_edge_index (g.addEdge prev g.nodes.length
        holdingArcData).1 prev e0 = some ha := hha
    obtain ⟨dr, hdmem0, _⟩ := get_edge_index_spec _ _ _ _ hha0
    have hdmem : (ha, EdgeRec.mk prev e0 dr) ∈ g.edges ++ [(g.next_edge,
        EdgeRec.mk prev g.nodes.length holdingArcData)] := hdmem0
    have hexp_lt : ∀ m nid, exp.get? m = some nid → nid < g.nodes.length := by
      intro m nid hm
      obtain ⟨nd, hnd, _, _⟩ := hinv.node_mem v hvN m nid
        (by rw [hexp0]; exact hm)
      exact lt_of_get?_eq_some _ _ _ hnd
    have he0 : exp.get? 0 = some e0 := by
      rw [hexpc]
      rfl
    rcases List.mem_append.mp hdmem with h1 | h1
    · -- a holding arc from the latest to the earliest node cannot exist
      obtain ⟨ndp, hndp, hndpf, _⟩ := hinv.node_mem v hvN (exp.length - 1)
        prev (by rw [hexp0]; exact hprev2)
      obtain ⟨nd0, hnd0, hnd0f, _⟩ := hinv.node_mem v hvN 0 e0
        (by rw [hexp0]; exact he0)
      obtain ⟨_, m, hm1, hm2⟩ := hinv.same_flat_holding _ h1 ndp nd0
        hndp hnd0 (by rw [hndpf, hnd0f])
      simp only at hm1 hm2
      rw [hndpf, hexp0] at hm1 hm2
      have hexpnodup : exp.Nodup := by
        have := hinv.exp_nodup v hvN
        rw [hexp0] at this
        exact this
      have hmeq : m = exp.length - 1 :=
        nodup_get?_inj exp hexpnodup m (exp.length - 1) prev hm1 hprev2
      rw [hmeq] at hm2
      have hlt := lt_of_get?_eq_some _ _ _ hm2
      have : 1 ≤ exp.length := by
        rw [hexpc]
        simp
      omega
    · have hpe : (ha, EdgeRec.mk prev e0 dr) = (g.next_edge,
          EdgeRec.mk prev g.nodes.length holdingArcData) := by
        rcases List.mem_cons.mp h1 with h2 | h2
        · exact h2
        · simp at h2
      injection hpe with hpe1 hpe2
      injection hpe2 with hpe2a hpe2b
      have := hexp_lt 0 e0 he0
      omega

theorem refine_preserves_core (g g' : DiscretizedGraph) (v : Nat) (t : Int)
    (hlf : ∀ a ∈ g.g_flat.arcs, a.src ≠ a.dst)
    (hinv : CoreInv g)
    (h : g.refine_discretization v t = some g') :
    CoreInv g' ∧ g'.g_flat = g.g_flat ∧ g'.relaxed = g.relaxed ∧
    ∃ times exp name,
      g.node_to_times.get? v = some times ∧
      g.flat_to_expanded_nodes.get? v = some exp ∧
      1 ≤ bisect_left times t ∧
      g'.nodes = g.nodes ++ [TimeNodeData.mk v t name] ∧
      g'.node_to_times = g.node_to_times.set v
        (pyInsert times (bisect_left times t) t) ∧
      g'.flat_to_expanded_nodes = g.flat_to_expanded_nodes.set v
        (pyInsert exp (bisect_left times t) g.nodes.length) := by
  cases hts : g.node_to_times.get? v with
  | none =>
    exfalso
    unfold DiscretizedGraph.refine_discretization at h
    rw [hts] at h
    exact absurd h (by simp)
  | some times =>
  have hk1 : 1 ≤ bisect_left times t := by
    by_contra hc
    have := refine_k0_fails g v t times hinv hts (by omega)
    rw [this] at h
    exact absurd h (by simp)
  have hvlt : v < g.node_to_times.length := lt_of_get?_eq_some _ _ _ hts
  have hvN : v < g.g_flat.nodes.length := by
    rw [← hinv.ntt_len]
    exact hvlt
  unfold DiscretizedGraph.refine_discretization at h
  rw [option_bind_eq_some] at h
  obtain ⟨times2, htimes2, h⟩ := h
  rw [hts] at htimes2
  injection htimes2 with htimes2
  subst htimes2
  simp only [] at h
  rw [option_bind_eq_some] at h
  obtain ⟨exp, hexp, h⟩ := h
  have hexp0 : expOf g v = exp := getD_of_get? _ _ _ _ hexp
  have hntt0 : nttOf g v = times := getD_of_get? _ _ _ _ hts
  have hlen_ev : exp.length = times.length := by
    have := hinv.len_eq v hvN
    rw [hexp0, hntt0] at this
    exact this
  have hexp_lt : ∀ m nid, exp.get? m = some nid → nid < g.nodes.length := by
    intro m nid hm
    obtain ⟨nd, hnd, _, _⟩ := hinv.node_mem v hvN m nid
      (by rw [hexp0]; exact hm)
    exact lt_of_get?_eq_some _ _ _ hnd
  rw [option_bind_eq_some] at h
  obtain ⟨prev, hprevP, h⟩ := h
  have hprev : exp.get? (bisect_left times t - 1) = some prev := by
    rw [pyGet_nonneg exp _ (by omega)] at hprevP
    have htn : ((bisect_left times t : Int) - 1).toNat =
        bisect_left times t - 1 := by omega
    rw [htn] at hprevP
    exact hprevP
  rw [option_bind_eq_some] at h
  obtain ⟨nxtopt, hnxtopt, h⟩ := h
  have hnext : (nxtopt = none ∧ times.length ≤ bisect_left times t) ∨
      (∃ nxt, nxtopt = some nxt ∧ exp.get? (bisect_left times t) = some nxt) := by
    unfold DiscretizedGraph.refineNextNode at hnxtopt
    by_cases hklen : bisect_left times t < times.length
    · rw [if_pos hklen] at hnxtopt
      rw [Option.map_eq_some'] at hnxtopt
      obtain ⟨n, hn1, hn2⟩ := hnxtopt
      exact Or.inr ⟨n, hn2.symm, hn1⟩
    · rw [if_neg hklen] at hnxtopt
      simp only [Option.pure_def, Option.some.injEq] at hnxtopt
      exact Or.inl ⟨hnxtopt.symm, by omega⟩
  rw [option_bind_eq_some] at h
  obtain ⟨fnd, hfnd, h⟩ := h
  rw [option_bind_eq_some] at h
  obtain ⟨g4, hg4, h⟩ := h
  obtain ⟨hinv4, hn4, hnt4, hfe4, hgf4, hrel4⟩ :=
    refine_prefix_core g v t times exp (bisect_left times t) prev nxtopt
      (fnd.name ++ "_" ++ toString t) g4 hinv hts hexp hk1
      (bisect_left_le_length times t) hprev hnext hg4
  rw [option_bind_eq_some] at h
  obtain ⟨g5, hg5, h⟩ := h
  obtain ⟨hinv5, hn5, hnt5, hfe5, hgf5, hrel5⟩ :=
    travel_new_core g4 g.nodes.length g5
      (by rw [hgf4]; exact hlf) hinv4 hg5
  -- the freshly added node and the neighbouring nodes of `v`
  have hnew5 : g5.nodes.get? g.nodes.length =
      some (TimeNodeData.mk v t (fnd.name ++ "_" ++ toString t)) := by
    rw [hn5, hn4]
    exact List.get?_concat_length _ _
  obtain ⟨ndp, hndp, hndpf, _⟩ := hinv.node_mem v hvN
    (bisect_left times t - 1) prev (by rw [hexp0]; exact hprev)
  have hprev_lt : prev < g.nodes.length := lt_of_get?_eq_some _ _ _ hndp
  have hndp5 : g5.nodes.get? prev = some ndp := by
    rw [hn5, hn4]
    rw [List.get?_append hprev_lt]
    exact hndp
  have hfinal : CoreInv g' ∧ g'.nodes = g5.nodes ∧
      g'.node_to_times = g5.node_to_times ∧
      g'.flat_to_expanded_nodes = g5.flat_to_expanded_nodes ∧
      g'.g_flat = g5.g_flat ∧ g'.relaxed = g5.relaxed := by
    by_cases hrel : g5.relaxed = true
    · rw [if_pos hrel] at h
      exact lengthen_core g5 g.nodes.length prev t g'
        (TimeNodeData.mk v t (fnd.name ++ "_" ++ toString t)) ndp hinv5
        hnew5 hndp5 (by simp only []; rw [hndpf]) h
    · rw [if_neg hrel] at h
      rcases hnext with ⟨hno, _⟩ | ⟨nxt, hsome, hnxtk⟩
      · rw [hno] at h
        simp only [Option.pure_def, Option.some.injEq] at h
        rw [← h]
        exact ⟨hinv5, rfl, rfl, rfl, rfl, rfl⟩
      · rw [hsome] at h
        obtain ⟨ndx, hndx, hndxf, _⟩ := hinv.node_mem v hvN
          (bisect_left times t) nxt (by rw [hexp0]; exact hnxtk)
        have hnxt_lt : nxt < g.nodes.length := lt_of_get?_eq_some _ _ _ hndx
        have hndx5 : g5.nodes.get? nxt = some ndx := by
          rw [hn5, hn4]
          rw [List.get?_append hnxt_lt]
          exact hndx
        exact shorten_core g5 g.nodes.length nxt t g'
          (TimeNodeData.mk v t (fnd.name ++ "_" ++ toString t)) ndx hinv5
          hnew5 hndx5 (by simp only []; rw [hndxf]) h
  obtain ⟨hinv', hn', hnt', hfe', hgf', hrel'⟩ := hfinal
  refine ⟨hinv', by rw [hgf', hgf5, hgf4], by rw [hrel', hrel5, hrel4],
    times, exp, fnd.name ++ "_" ++ toString t, rfl, hexp, hk1, ?_, ?_, ?_⟩
  · rw [hn', hn5, hn4]
  · rw [hnt', hnt5, hnt4]
  · rw [hfe', hfe5, hfe4]

theorem refine_preserves_sorted (g g' : DiscretizedGraph) (v : Nat) (t : Int)
    (hlf : ∀ a ∈ g.g_flat.arcs, a.src ≠ a.dst)
    (hinv : CoreInv g) (hs : sortedNtt g)
    (h : g.refine_discretization v t = some g') : sortedNtt g' := by
  obtain ⟨_, hgf, _, times, exp, name, hts, hexp, hk1, hn, hnt, hfe⟩ :=
    refine_preserves_core g g' v t hlf hinv h
  intro w hw
  have hw0 : w < g.g_flat.nodes.length := by rw [← hgf]; exact hw
  by_cases hwv : w = v
  · rw [hwv] at hw0 ⊢
    have hvlt : v < g.node_to_times.length := lt_of_get?_eq_some _ _ _ hts
    have hntt' : nttOf g' v = pyInsert times (bisect_left times t) t := by
      show g'.node_to_times.getD v [] = _
      rw [hnt]
      exact getD_set_self _ _ _ _ hvlt
    rw [hntt']
    have hsv : times.Pairwise (· ≤ ·) := by
      have h2 : nttOf g v = times := getD_of_get? _ _ _ _ hts
      rw [← h2]
      exact hs v hw0
    apply pyInsert_sorted times (bisect_left times t) t hsv
      (bisect_left_le_length times t)
    · intro i hi
      exact le_of_lt (bisect_left_lt times t hsv i hi)
    · intro i hi1 hi2
      exact bisect_left_ge times t hsv i hi1 hi2
  · have hntt' : nttOf g' w = nttOf g w := by
      show g'.node_to_times.getD w [] = g.node_to_times.getD w []
      rw [hnt]
      exact getD_set_ne _ _ _ _ _ (fun hc => hwv hc.symm)
    rw [hntt']
    exact hs w hw0

theorem refine_preserves_head0 (g g' : DiscretizedGraph) (v : Nat) (t : Int)
    (hlf : ∀ a ∈ g.g_flat.arcs, a.src ≠ a.dst)
    (hinv : CoreInv g) (hh : head0Ntt g)
    (h : g.refine_discretization v t = some g') : head0Ntt g' := by
  obtain ⟨_, hgf, _, times, exp, name, hts, hexp, hk1, hn, hnt, hfe⟩ :=
    refine_preserves_core g g' v t hlf hinv h
  intro w hw
  have hw0 : w < g.g_flat.nodes.length := by rw [← hgf]; exact hw
  by_cases hwv : w = v
  · rw [hwv] at hw0 ⊢
    have hvlt : v < g.node_to_times.length := lt_of_get?_eq_some _ _ _ hts
    have hntt' : nttOf g' v = pyInsert times (bisect_left times t) t := by
      show g'.node_to_times.getD v [] = _
      rw [hnt]
      exact getD_set_self _ _ _ _ hvlt
    rw [hntt']
    rcases pyInsert_head? times (bisect_left times t) t hk1 with h1 | h1
    · rw [h1]
      have h2 : nttOf g v = times := getD_of_get? _ _ _ _ hts
      rw [← h2]
      exact hh v hw0
    · exfalso
      have hble := bisect_left_le_length times t
      rw [h1] at hble hk1
      simp only [List.length_nil] at hble
      omega
  · have hntt' : nttOf g' w = nttOf g w := by
      show g'.node_to_times.getD w [] = g.node_to_times.getD w []
      rw [hnt]
      exact getD_set_ne _ _ _ _ _ (fun hc => hwv hc.symm)
    rw [hntt']
    exact hh w hw0

theorem reaches_core (g0 g : DiscretizedGraph)
    (hlf : ∀ a ∈ g0.g_flat.arcs, a.src ≠ a.dst)
    (hinv : CoreInv g0) (hr : Reaches g0 g) :
    CoreInv g ∧ g.g_flat = g0.g_flat ∧ g.relaxed = g0.relaxed := by
  induction hr with
  | refl => exact ⟨hinv, rfl, rfl⟩
  | step v t hr hrefine ih =>
    obtain ⟨hinv1, hgf1, hrel1⟩ := ih
    obtain ⟨hinv2, hgf2, hrel2, _⟩ := refine_preserves_core _ _ v t
      (by rw [hgf1]; exact hlf) hinv1 hrefine
    exact ⟨hinv2, by rw [hgf2, hgf1], by rw [hrel2, hrel1]⟩

theorem reaches_core_sorted (g0 g : DiscretizedGraph)
    (hlf : ∀ a ∈ g0.g_flat.arcs, a.src ≠ a.dst)
    (hinv : CoreInv g0) (hs : sortedNtt g0) (hr : Reaches g0 g) :
    CoreInv g ∧ sortedNtt g ∧ g.g_flat = g0.g_flat ∧ g.relaxed = g0.relaxed := by
  induction hr with
  | refl => exact ⟨hinv, hs, rfl, rfl⟩
  | step v t hr hrefine ih =>
    obtain ⟨hinv1, hs1, hgf1, hrel1⟩ := ih
    obtain ⟨hinv2, hgf2, hrel2, _⟩ := refine_preserves_core _ _ v t
      (by rw [hgf1]; exact hlf) hinv1 hrefine
    exact ⟨hinv2, refine_preserves_sorted _ _ v t (by rw [hgf1]; exact hlf)
      hinv1 hs1 hrefine, by rw [hgf2, hgf1], by rw [hrel2, hrel1]⟩

/-! ## Construction: timed nodes -/

theorem timed_fold_spec (g0 : DiscretizedGraph)
    (hn0 : g0.nodes = []) (hf0 : g0.flat_to_expanded_nodes = []) :
    ∀ (n : Nat) (g1 : DiscretizedGraph),
      (List.range n).foldlM DiscretizedGraph.addTimedNodesStep g0 = some g1 →
      g1.g_flat = g0.g_flat ∧ g1.relaxed = g0.relaxed ∧
      g1.node_to_times = g0.node_to_times ∧
      g1.edges = g0.edges ∧ g1.next_edge = g0.next_edge ∧
      g1.flat_to_expanded_arcs = g0.flat_to_expanded_arcs ∧
      g1.flat_to_expanded_nodes.length = n ∧
      ∀ w, w < n → ∃ ids times,
        g1.flat_to_expanded_nodes.get? w = some ids ∧
        g0.node_to_times.get? w = some times ∧
        ids.length = times.length ∧ ids.Nodup ∧
        ∀ m nid, ids.get? m = some nid →
          ∃ nd, g1.nodes.get? nid = some nd ∧ nd.flat_node = w ∧
            times.get? m = some nd.time := by
  intro n
  induction n with
  | zero =>
    intro g1 h
    simp only [List.range_zero, List.foldlM_nil, Option.pure_def,
      Option.some.injEq] at h
    subst h
    refine ⟨rfl, rfl, rfl, rfl, rfl, rfl, by rw [hf0]; rfl, ?_⟩
    intro w hw
    omega
  | succ n ih =>
    intro g1 h
    rw [List.range_succ, List.foldlM_append] at h
    rw [option_bind_eq_some] at h
    obtain ⟨gm, hgm, hstep⟩ := h
    obtain ⟨hgf, hrel, hnt, hed, hnx, hfa, hlen, hw⟩ := ih gm hgm
    simp only [List.foldlM_cons, List.foldlM_nil] at hstep
    rw [option_bind_eq_some] at hstep
    obtain ⟨g2, hg2, hpure⟩ := hstep
    simp only [Option.pure_def, Option.some.injEq] at hpure
    subst hpure
    unfold DiscretizedGraph.addTimedNodesStep at hg2
    rw [option_bind_eq_some] at hg2
    obtain ⟨times, htimes, hg2⟩ := hg2
    rw [option_bind_eq_some] at hg2
    obtain ⟨fnd, hfnd, hg2⟩ := hg2
    simp only [Option.pure_def, Option.some.injEq] at hg2
    subst hg2
    rw [hnt] at htimes
    refine ⟨hgf, hrel, hnt, hed, hnx, hfa, ?_, ?_⟩
    · simp only [List.length_append, List.length_singleton, hlen]
    · intro w hwlt
      by_cases hwn : w < n
      · obtain ⟨ids, times', h1, h2, h3, h4, h5⟩ := hw w hwn
        refine ⟨ids, times', ?_, h2, h3, h4, ?_⟩
        · show (gm.flat_to_expanded_nodes ++ _).get? w = some ids
          rw [List.get?_append (by omega)]
          exact h1
        · intro m nid hm
          obtain ⟨nd, hnd, hndf, hndt⟩ := h5 m nid hm
          refine ⟨nd, ?_, hndf, hndt⟩
          show (gm.nodes ++ _).get? nid = some nd
          rw [List.get?_append (lt_of_get?_eq_some _ _ _ hnd)]
          exact hnd
      · have hweq : w = n := by omega
        subst hweq
        refine ⟨(List.range times.length).map (· + gm.nodes.length), times,
          ?_, htimes, by simp, ?_, ?_⟩
        · show (gm.flat_to_expanded_nodes ++ _).get? w = some _
          rw [← hlen]
          exact List.get?_concat_length _ _
        · exact List.Nodup.map (fun a b hab => by omega) (List.nodup_range _)
        · intro m nid hm
          rw [List.get?_map] at hm
          cases hr : (List.range times.length).get? m with
          | none => rw [hr] at hm; exact absurd hm (by simp)
          | some mv =>
            rw [hr] at hm
            simp only [Option.map_some', Option.some.injEq] at hm
            have hmlt : m < times.length := by
              have := lt_of_get?_eq_some _ _ _ hr
              simpa using this
            have hmv : mv = m := by
              rw [List.get?_range hmlt] at hr
              injection hr with hr
              exact hr.symm
            cases hτ : times.get? m with
            | none =>
              exfalso
              rw [List.get?_eq_none] at hτ
              omega
            | some τ =>
              refine ⟨TimeNodeData.mk w τ (fnd.name ++ "_" ++ toString τ),
                ?_, rfl, rfl⟩
              show (gm.nodes ++ times.map _).get? nid = some _
              rw [List.get?_append_right (by omega)]
              have hidx : nid - gm.nodes.length = m := by omega
              rw [hidx, List.get?_map, hτ]
              rfl

/-! ## Construction: holding arcs -/

theorem mem_zip_tail : ∀ (l : List Nat) (q : Nat × Nat), q ∈ l.zip l.tail →
    ∃ m, l.get? m = some q.1 ∧ l.get? (m + 1) = some q.2 := by
  intro l
  induction l with
  | nil => intro q hq; simp [List.zip] at hq
  | cons x rest ih =>
    intro q hq
    cases rest with
    | nil => simp [List.zip] at hq
    | cons y r2 =>
      have hshape : (x :: y :: r2).zip ((x :: y :: r2).tail) =
          (x, y) :: ((y :: r2).zip ((y :: r2).tail)) := rfl
      rw [hshape] at hq
      rcases List.mem_cons.mp hq with hq | hq
      · subst hq
        exact ⟨0, rfl, rfl⟩
      · obtain ⟨m, h1, h2⟩ := ih q hq
        exact ⟨m + 1, h1, h2⟩

theorem zip_tail_filter_zero (l : List Nat) (a b : Nat) (h : a ∉ l) :
    ((l.zip l.tail).filter (fun q => q.1 == a && q.2 == b)).length = 0 := by
  rw [List.length_eq_zero, List.filter_eq_nil]
  intro q hq
  obtain ⟨m, h1, h2⟩ := mem_zip_tail l q hq
  simp only [Bool.and_eq_true, beq_iff_eq, not_and]
  intro h3
  exfalso
  apply h
  rw [← h3]
  exact List.get?_mem h1

theorem zip_tail_filter_one : ∀ (l : List Nat), l.Nodup → ∀ (a b m : Nat),
    l.get? m = some a → l.get? (m + 1) = some b →
    ((l.zip l.tail).filter (fun q => q.1 == a && q.2 == b)).length = 1 := by
  intro l
  induction l with
  | nil => intro _ a b m hma; simp at hma
  | cons x rest ih =>
    intro hnd a b m hma hmb
    cases rest with
    | nil =>
      cases m with
      | zero => simp at hmb
      | succ m => simp at hma
    | cons y r2 =>
      have hshape : (x :: y :: r2).zip ((x :: y :: r2).tail) =
          (x, y) :: ((y :: r2).zip ((y :: r2).tail)) := rfl
      rw [hshape]
      cases m with
      | zero =>
        simp only [List.get?_cons_zero, Option.some.injEq] at hma
        simp only [List.get?_cons_succ, List.get?_cons_zero,
          Option.some.injEq] at hmb
        rw [List.filter_cons, if_pos (by simp [hma, hmb])]
        simp only [List.length_cons]
        have hz := zip_tail_filter_zero (y :: r2) a b
          (by rw [← hma]; exact (List.nodup_cons.mp hnd).1)
        rw [hz]
      | succ m =>
        simp only [List.get?_cons_succ] at hma hmb
        rw [List.filter_cons, if_neg ?_]
        · exact ih (List.nodup_cons.mp hnd).2 a b m hma hmb
        · simp only [Bool.and_eq_true, beq_iff_eq, not_and]
          intro h3
          exfalso
          have hmem : a ∈ y :: r2 := List.get?_mem hma
          rw [← h3] at hmem
          exact (List.nodup_cons.mp hnd).1 hmem

theorem holding_inner_spec :
    ∀ (pairs : List (Nat × Nat)) (h0 hres : DiscretizedGraph),
      pairs.foldl (fun g p => (g.addEdge p.1 p.2 holdingArcData).1) h0 = hres →
      hres.g_flat = h0.g_flat ∧ hres.relaxed = h0.relaxed ∧
      hres.node_to_times = h0.node_to_times ∧ hres.nodes = h0.nodes ∧
      hres.flat_to_expanded_nodes = h0.flat_to_expanded_nodes ∧
      hres.flat_to_expanded_arcs = h0.flat_to_expanded_arcs ∧
      hres.next_edge = h0.next_edge + pairs.length ∧
      (∀ p ∈ hres.edges, p ∈ h0.edges ∨
        ∃ q ∈ pairs, p.2 = EdgeRec.mk q.1 q.2 holdingArcData) ∧
      ((h0.edges.map Prod.fst).Nodup → (∀ p ∈ h0.edges, p.1 < h0.next_edge) →
        ((hres.edges.map Prod.fst).Nodup ∧
          ∀ p ∈ hres.edges, p.1 < hres.next_edge)) ∧
      (∀ a b, countBetween hres a b = countBetween h0 a b +
        (pairs.filter (fun q => q.1 == a && q.2 == b)).length) := by
  intro pairs
  induction pairs with
  | nil =>
    intro h0 hres h
    simp only [List.foldl_nil] at h
    subst h
    refine ⟨rfl, rfl, rfl, rfl, rfl, rfl, rfl, ?_, ?_, ?_⟩
    · intro p hp
      exact Or.inl hp
    · intro h1 h2
      exact ⟨h1, h2⟩
    · intro a b
      simp [List.filter_nil]
  | cons q rest ih =>
    intro h0 hres h
    simp only [List.foldl_cons] at h
    obtain ⟨hgf, hrel, hnt, hn, hfe, hfa, hnx, hmem, hidx, hcnt⟩ :=
      ih (h0.addEdge q.1 q.2 holdingArcData).1 hres h
    refine ⟨hgf, hrel, hnt, hn, hfe, hfa, ?_, ?_, ?_, ?_⟩
    · rw [hnx]
      show h0.next_edge + 1 + rest.length = _
      simp only [List.length_cons]
      omega
    · intro p hp
      rcases hmem p hp with hin | ⟨q2, hq2, he⟩
      · rcases List.mem_append.mp hin with h1 | h1
        · exact Or.inl h1
        · rw [List.mem_singleton] at h1
          refine Or.inr ⟨q, by simp, ?_⟩
          rw [h1]
      · exact Or.inr ⟨q2, List.mem_cons_of_mem _ hq2, he⟩
    · intro hnd hbd
      apply hidx
      · show ((h0.edges ++ [(h0.next_edge, _)]).map Prod.fst).Nodup
        rw [List.map_append]
        apply List.Nodup.append hnd (List.nodup_singleton _)
        intro x hx hx2
        simp only [List.map_cons, List.map_nil, List.mem_singleton] at hx2
        subst hx2
        obtain ⟨p, hp, hp2⟩ := List.mem_map.mp hx
        have := hbd p hp
        omega
      · intro p hp
        rcases List.mem_append.mp hp with h1 | h1
        · have := hbd p h1
          show p.1 < h0.next_edge + 1
          omega
        · rw [List.mem_singleton] at h1
          rw [h1]
          show h0.next_edge < h0.next_edge + 1
          omega
    · intro a b
      rw [hcnt a b, countBetween_addEdge, List.filter_cons]
      by_cases hq : q.1 = a ∧ q.2 = b
      · rw [if_pos hq, if_pos (by simp [hq.1, hq.2])]
        simp only [List.length_cons]
        omega
      · rw [if_neg hq, if_neg ?_]
        · omega
        · simp only [Bool.and_eq_true, beq_iff_eq]
          exact hq

theorem holding_fold_spec (g1 : DiscretizedGraph)
    (hedges : g1.edges = [])
    (hids : ∀ w, w < g1.flat_to_expanded_nodes.length → ∃ ids,
      g1.flat_to_expanded_nodes.get? w = some ids ∧ ids.Nodup ∧
      ∀ m nid, ids.get? m = some nid →
        ∃ nd, g1.nodes.get? nid = some nd ∧ nd.flat_node = w) :
    ∀ (n : Nat) (g2 : DiscretizedGraph), n ≤ g1.flat_to_expanded_nodes.length →
      (List.range n).foldlM DiscretizedGraph.addHoldingArcsStep g1 = some g2 →
      g2.g_flat = g1.g_flat ∧ g2.relaxed = g1.relaxed ∧
      g2.node_to_times = g1.node_to_times ∧ g2.nodes = g1.nodes ∧
      g2.flat_to_expanded_nodes = g1.flat_to_expanded_nodes ∧
      g2.flat_to_expanded_arcs = g1.flat_to_expanded_arcs ∧
      (∀ p ∈ g2.edges, p.1 < g2.next_edge) ∧
      (g2.edges.map Prod.fst).Nodup ∧
      (∀ p ∈ g2.edges, p.2.data = holdingArcData ∧ ∃ w ids m, w < n ∧
        g1.flat_to_expanded_nodes.get? w = some ids ∧
        ids.get? m = some p.2.src ∧ ids.get? (m + 1) = some p.2.dst) ∧
      (∀ w ids, w < n → g1.flat_to_expanded_nodes.get? w = some ids →
        ∀ m, m + 1 < ids.length →
        countBetween g2 (ids.getD m 0) (ids.getD (m + 1) 0) = 1) := by
  intro n
  induction n with
  | zero =>
    intro g2 hle h
    simp only [List.range_zero, List.foldlM_nil, Option.pure_def,
      Option.some.injEq] at h
    subst h
    refine ⟨rfl, rfl, rfl, rfl, rfl, rfl, ?_, ?_, ?_, ?_⟩
    · intro p hp
      rw [hedges] at hp
      exact absurd hp (by simp)
    · rw [hedges]
      simp
    · intro p hp
      rw [hedges] at hp
      exact absurd hp (by simp)
    · intro w ids hw
      omega
  | succ n ih =>
    intro g2 hle h
    rw [List.range_succ, List.foldlM_append] at h
    rw [option_bind_eq_some] at h
    obtain ⟨gm, hgm, hstep⟩ := h
    obtain ⟨hgf, hrel, hnt, hn, hfe, hfa, hbd, hnd, hchar, hcnt⟩ :=
      ih gm (by omega) hgm
    simp only [List.foldlM_cons, List.foldlM_nil] at hstep
    rw [option_bind_eq_some] at hstep
    obtain ⟨g2', hg2', hpure⟩ := hstep
    simp only [Option.pure_def, Option.some.injEq] at hpure
    subst hpure
    unfold DiscretizedGraph.addHoldingArcsStep at hg2'
    rw [option_bind_eq_some] at hg2'
    obtain ⟨exp, hexp, hg2'⟩ := hg2'
    simp only [Option.pure_def, Option.some.injEq] at hg2'
    rw [hfe] at hexp
    obtain ⟨expu, hexpu, hexpnd, hexprec⟩ := hids n (by omega)
    have hexpeq : exp = expu := by
      rw [hexp] at hexpu
      exact Option.some.inj hexpu
    subst hexpeq
    obtain ⟨igf, irel, int2, inn, ife, ifa, inx, imem, iidx, icnt⟩ :=
      holding_inner_spec (exp.zip exp.tail) gm g2' hg2'
    have hrecn : ∀ m nid, exp.get? m = some nid →
        ∃ nd, gm.nodes.get? nid = some nd ∧ nd.flat_node = n := by
      intro m nid hm
      obtain ⟨nd, h1, h2⟩ := hexprec m nid hm
      refine ⟨nd, ?_, h2⟩
      rw [hn]
      exact h1
    have hdistinct : ∀ w ids m nid m2 nid2, w < n →
        g1.flat_to_expanded_nodes.get? w = some ids →
        ids.get? m = some nid → exp.get? m2 = some nid2 → nid ≠ nid2 := by
      intro w ids m nid m2 nid2 hw hidsw hm hm2 hcontra
      obtain ⟨idsu, hidsu, _, hrecw⟩ := hids w (by omega)
      rw [hidsw] at hidsu
      injection hidsu with h2
      subst h2
      obtain ⟨nd1, ha1, ha2⟩ := hrecw m nid hm
      obtain ⟨nd2, hb1, hb2⟩ := hexprec m2 nid2 hm2
      rw [hcontra] at ha1
      rw [ha1] at hb1
      injection hb1 with h3
      rw [← h3] at hb2
      rw [ha2] at hb2
      omega
    obtain ⟨jnd, jbd⟩ := iidx hnd hbd
    refine ⟨by rw [igf, hgf], by rw [irel, hrel], by rw [int2, hnt],
      by rw [inn, hn], by rw [ife, hfe], by rw [ifa, hfa], jbd, jnd, ?_, ?_⟩
    · intro p hp
      rcases imem p hp with hin | ⟨q2, hq2, he⟩
      · obtain ⟨hdata, w, ids, m, hw, h1, h2, h3⟩ := hchar p hin
        exact ⟨hdata, w, ids, m, by omega, h1, h2, h3⟩
      · obtain ⟨m, h1, h2⟩ := mem_zip_tail exp q2 hq2
        refine ⟨by rw [he], n, exp, m, by omega, hexp, ?_, ?_⟩
        · rw [he]
          exact h1
        · rw [he]
          exact h2
    · intro w ids hw hidsw m hm
      rw [icnt]
      by_cases hwn : w < n
      · rw [hcnt w ids hwn hidsw m hm]
        have hz : ((exp.zip exp.tail).filter
            (fun q => q.1 == ids.getD m 0 && q.2 == ids.getD (m + 1) 0)).length
            = 0 := by
          apply zip_tail_filter_zero
          intro hcontra
          obtain ⟨m2, hm2⟩ := List.get?_of_mem hcontra
          exact hdistinct w ids m (ids.getD m 0) m2 (ids.getD m 0) hwn hidsw
            (get?_eq_getD ids m 0 (by omega)) hm2 rfl
        rw [hz]
      · have hweq : w = n := by omega
        subst hweq
        have hidseq : ids = exp := by
          rw [hidsw] at hexp
          exact Option.some.inj hexp
        subst hidseq
        have hz0 : countBetween gm (ids.getD m 0) (ids.getD (m + 1) 0) = 0 := by
          apply countBetween_eq_zero_left
          intro p hp hcontra
          obtain ⟨hdata, w2, ids2, m2, hw2, h1, h2, h3⟩ := hchar p hp
          exact hdistinct w2 ids2 m2 p.2.src m (ids.getD m 0) hw2 h1 h2
            (get?_eq_getD ids m 0 (by omega)) hcontra
        rw [hz0]
        have h1 : ((ids.zip ids.tail).filter
            (fun q => q.1 == ids.getD m 0 && q.2 == ids.getD (m + 1) 0)).length
            = 1 := by
          apply zip_tail_filter_one ids hexpnd _ _ m
            (get?_eq_getD ids m 0 (by omega))
            (get?_eq_getD ids (m + 1) 0 (by omega))
        rw [h1]

/-! ## Construction: travel arcs -/

theorem advanceLoop_spec (g : DiscretizedGraph) (arrival : Int) :
    ∀ (rest : List Nat) (idx idx2 : Nat),
      DiscretizedGraph.advanceLoop g arrival idx rest = some idx2 →
      idx ≤ idx2 ∧ idx2 - idx ≤ rest.length ∧
      (∀ nid nd, rest.get? (idx2 - idx) = some nid →
        g.nodes.get? nid = some nd → arrival < nd.time) ∧
      (idx2 = idx ∨ (idx < idx2 ∧ ∃ nid nd,
        rest.get? (idx2 - idx - 1) = some nid ∧
        g.nodes.get? nid = some nd ∧ nd.time ≤ arrival)) := by
  intro rest
  induction rest with
  | nil =>
    intro idx idx2 h
    simp only [DiscretizedGraph.advanceLoop, Option.some.injEq] at h
    subst h
    refine ⟨le_refl _, by simp, ?_, Or.inl rfl⟩
    intro nid nd h1 h2
    simp at h1
  | cons x rest ih =>
    intro idx idx2 h
    simp only [DiscretizedGraph.advanceLoop] at h
    split at h
    · exact absurd h (by simp)
    · rename_i nd hx
      by_cases ht : nd.time ≤ arrival
      · rw [if_pos ht] at h
        obtain ⟨h1, h2, h3, h4⟩ := ih (idx + 1) idx2 h
        have hb1 : idx ≤ idx2 := by clear h3 h4; omega
        have hb2 : idx2 - idx ≤ (x :: rest).length := by
          simp only [List.length_cons]
          clear h3 h4
          omega
        refine ⟨hb1, hb2, ?_, ?_⟩
        · intro nid nd2 hg hn
          have he : idx2 - idx = (idx2 - (idx + 1)) + 1 := by
            clear h3 h4
            omega
          rw [he] at hg
          simp only [List.get?_cons_succ] at hg
          exact h3 nid nd2 hg hn
        · right
          have hlt : idx < idx2 := by clear h3 h4; omega
          refine ⟨hlt, ?_⟩
          rcases h4 with h4 | ⟨h4a, nid, nd2, ha, hb, hc⟩
          · refine ⟨x, nd, ?_, hx, ht⟩
            have he : idx2 - idx - 1 = 0 := by clear h3; omega
            rw [he]
            rfl
          · refine ⟨nid, nd2, ?_, hb, hc⟩
            have he : idx2 - idx - 1 = (idx2 - (idx + 1) - 1) + 1 := by
              clear h3 ha hb hc
              omega
            rw [he]
            simp only [List.get?_cons_succ]
            exact ha
      · rw [if_neg ht] at h
        injection h with h
        subst h
        refine ⟨by omega, by simp, ?_, Or.inl rfl⟩
        intro nid nd2 hg hn
        simp only [Nat.sub_self, List.get?_cons_zero, Option.some.injEq] at hg
        subst hg
        rw [hx] at hn
        injection hn with hn
        subst hn
        omega

theorem advanceEnd_spec (g : DiscretizedGraph) (pe : List Nat) (arrival : Int)
    (idx idx2 : Nat)
    (h : DiscretizedGraph.advanceEnd g pe arrival idx = some idx2) :
    idx ≤ idx2 ∧
    (∀ nid nd, pe.get? (idx2 + 1) = some nid →
      g.nodes.get? nid = some nd → arrival < nd.time) ∧
    (idx2 = idx ∨ ∃ nid nd, pe.get? idx2 = some nid ∧
      g.nodes.get? nid = some nd ∧ nd.time ≤ arrival) := by
  unfold DiscretizedGraph.advanceEnd at h
  obtain ⟨h1, h2, h3, h4⟩ := advanceLoop_spec g arrival (pe.drop (idx + 1))
    idx idx2 h
  refine ⟨h1, ?_, ?_⟩
  · intro nid nd hg hn
    have hpos : (pe.drop (idx + 1)).get? (idx2 - idx) = some nid := by
      rw [List.get?_drop]
      have he : idx + 1 + (idx2 - idx) = idx2 + 1 := by
        clear h3 h4
        omega
      rw [he]
      exact hg
    exact h3 nid nd hpos hn
  · rcases h4 with h4 | ⟨h4a, nid, nd, ha, hb, hc⟩
    · exact Or.inl h4
    · right
      refine ⟨nid, nd, ?_, hb, hc⟩
      rw [List.get?_drop] at ha
      have he : idx + 1 + (idx2 - idx - 1) = idx2 := by
        clear h3 ha hb hc
        omega
      rw [he] at ha
      exact ha

theorem addTravelArcStep_char (arc : Nat) (data : ArcData) (pe_end : List Nat)
    (st st2 : DiscretizedGraph × Nat) (s : Nat)
    (h : DiscretizedGraph.addTravelArcStep arc data pe_end st s = some st2) :
    st2.1.nodes = st.1.nodes ∧ st2.1.node_to_times = st.1.node_to_times ∧
    st2.1.flat_to_expanded_nodes = st.1.flat_to_expanded_nodes ∧
    st2.1.g_flat = st.1.g_flat ∧ st2.1.relaxed = st.1.relaxed ∧
    ∃ nd endIdx,
      st.1.nodes.get? s = some nd ∧
      DiscretizedGraph.advanceEnd st.1 pe_end (nd.time + data.travel_time)
        st.2 = some endIdx ∧
      st2.2 = endIdx ∧
      (st2.1 = st.1 ∨
       ∃ en,
         st2.1.edges = st.1.edges ++
           [(st.1.next_edge, EdgeRec.mk s en data)] ∧
         st2.1.next_edge = st.1.next_edge + 1 ∧
         ((st.1.relaxed = true ∧ pe_end.get? endIdx = some en) ∨
          (st.1.relaxed = false ∧ pe_end.get? endIdx = some en ∧
            ∃ ennd, st.1.nodes.get? en = some ennd ∧
              ennd.time = nd.time + data.travel_time) ∨
          (st.1.relaxed = false ∧ pe_end.get? (endIdx + 1) = some en))) := by
  unfold DiscretizedGraph.addTravelArcStep at h
  rw [option_bind_eq_some] at h
  obtain ⟨nd, hnd, h⟩ := h
  rw [option_bind_eq_some] at h
  obtain ⟨endIdx, hend, h⟩ := h
  by_cases hrel : st.1.relaxed = true
  · rw [if_pos hrel] at h
    rw [option_bind_eq_some] at h
    obtain ⟨en, hen, h⟩ := h
    rw [option_bind_eq_some] at h
    obtain ⟨m, hm, h⟩ := h
    simp only [Option.pure_def, Option.some.injEq] at h
    subst h
    exact ⟨rfl, rfl, rfl, rfl, rfl, nd, endIdx, hnd, hend, rfl,
      Or.inr ⟨en, rfl, rfl, Or.inl ⟨hrel, hen⟩⟩⟩
  · rw [if_neg hrel] at h
    have hrelf : st.1.relaxed = false := by
      rw [Bool.not_eq_true] at hrel
      exact hrel
    rw [option_bind_eq_some] at h
    obtain ⟨nid, hnid, h⟩ := h
    rw [option_bind_eq_some] at h
    obtain ⟨ennd, hennd, h⟩ := h
    by_cases htime : ennd.time ≠ nd.time + data.travel_time
    · rw [if_pos htime] at h
      by_cases hlast : pe_end.length ≤ endIdx + 1
      · rw [if_pos hlast] at h
        simp only [Option.pure_def, Option.some.injEq] at h
        subst h
        exact ⟨rfl, rfl, rfl, rfl, rfl, nd, endIdx, hnd, hend, rfl,
          Or.inl rfl⟩
      · rw [if_neg hlast] at h
        rw [option_bind_eq_some] at h
        obtain ⟨en, hen, h⟩ := h
        rw [option_bind_eq_some] at h
        obtain ⟨m, hm, h⟩ := h
        simp only [Option.pure_def, Option.some.injEq] at h
        subst h
        exact ⟨rfl, rfl, rfl, rfl, rfl, nd, endIdx, hnd, hend, rfl,
          Or.inr ⟨en, rfl, rfl, Or.inr (Or.inr ⟨hrelf, hen⟩)⟩⟩
    · rw [if_neg htime] at h
      rw [not_not] at htime
      rw [option_bind_eq_some] at h
      obtain ⟨m, hm, h⟩ := h
      simp only [Option.pure_def, Option.some.injEq] at h
      subst h
      exact ⟨rfl, rfl, rfl, rfl, rfl, nd, endIdx, hnd, hend, rfl,
        Or.inr ⟨nid, rfl, rfl, Or.inr (Or.inl ⟨hrelf, hnid, ennd, hennd,
          htime⟩)⟩⟩

theorem travel_sweep_core (arc : Nat) (data : ArcData) (pe_end : List Nat)
    (g0 : DiscretizedGraph) (fa : FlatArc) (l : List Nat)
    (hfam : fa ∈ g0.g_flat.arcs) (hdata : fa.data = data)
    (hne : fa.src ≠ fa.dst)
    (hstart : ∀ s ∈ l, ∃ nd, g0.nodes.get? s = some nd ∧
      nd.flat_node = fa.src)
    (hend : ∀ e ∈ pe_end, ∃ nd, g0.nodes.get? e = some nd ∧
      nd.flat_node = fa.dst)
    (hinv : CoreInv g0)
    (st0 stf : DiscretizedGraph × Nat)
    (hst0g : st0.1 = g0)
    (h : l.foldlM (DiscretizedGraph.addTravelArcStep arc data pe_end) st0 =
      some stf) :
    CoreInv stf.1 ∧ stf.1.nodes = g0.nodes ∧
    stf.1.node_to_times = g0.node_to_times ∧
    stf.1.flat_to_expanded_nodes = g0.flat_to_expanded_nodes ∧
    stf.1.g_flat = g0.g_flat ∧ stf.1.relaxed = g0.relaxed ∧
    (∀ p ∈ stf.1.edges, p ∈ g0.edges ∨
      ∃ a b, g0.nodes.get? p.2.src = some a ∧
        g0.nodes.get? p.2.dst = some b ∧ a.flat_node ≠ b.flat_node ∧
        (g0.relaxed = false → a.time + p.2.data.travel_time ≤ b.time)) := by
  obtain ⟨gs, ks⟩ := st0
  have hgs : gs = g0 := hst0g
  rw [hgs] at h
  have hmain := foldlM_option_preserve
    (fun st : DiscretizedGraph × Nat => CoreInv st.1 ∧
      st.1.nodes = g0.nodes ∧ st.1.node_to_times = g0.node_to_times ∧
      st.1.flat_to_expanded_nodes = g0.flat_to_expanded_nodes ∧
      st.1.g_flat = g0.g_flat ∧ st.1.relaxed = g0.relaxed ∧
      (∀ p ∈ st.1.edges, p ∈ g0.edges ∨
        ∃ a b, g0.nodes.get? p.2.src = some a ∧
          g0.nodes.get? p.2.dst = some b ∧ a.flat_node ≠ b.flat_node ∧
          (g0.relaxed = false → a.time + p.2.data.travel_time ≤ b.time)))
    (DiscretizedGraph.addTravelArcStep arc data pe_end) l (g0, ks) stf h
    ⟨hinv, rfl, rfl, rfl, rfl, rfl, fun p hp => Or.inl hp⟩ ?_
  · exact hmain
  · rintro st1 s st2 hsl ⟨hinv1, hn1, hnt1, hfe1, hgf1, hrel1, hchar1⟩ hstep
    obtain ⟨hn2, hnt2, hfe2, hgf2, hrel2, nd, endIdx, hnd, hadv, hsnd, hbr⟩ :=
      addTravelArcStep_char arc data pe_end st1 st2 s hstep
    rcases hbr with heq | ⟨en, hedges, hnx2, hmode⟩
    · rw [heq]
      exact ⟨hinv1, hn1, hnt1, hfe1, hgf1, hrel1, hchar1⟩
    · obtain ⟨nds, hnds, hndsflat⟩ := hstart s hsl
      have hen_mem : en ∈ pe_end := by
        rcases hmode with ⟨_, hm⟩ | ⟨_, hm, _⟩ | ⟨_, hm⟩
        · exact List.get?_mem hm
        · exact List.get?_mem hm
        · exact List.get?_mem hm
      obtain ⟨nde, hnde, hndeflat⟩ := hend en hen_mem
      have hnds1 : st1.1.nodes.get? s = some nds := by
        rw [hn1]
        exact hnds
      have hnde1 : st1.1.nodes.get? en = some nde := by
        rw [hn1]
        exact hnde
      have hndeq : nds = nd := by
        rw [hnds1] at hnd
        exact Option.some.inj hnd
      have hflatne : nds.flat_node ≠ nde.flat_node := by
        rw [hndsflat, hndeflat]
        exact hne
      have hinv2 : CoreInv (st1.1.addEdge s en data).1 := by
        apply coreInv_addEdge_travel st1.1 s en data nds nde hinv1 hnds1 hnde1
          hflatne
        refine ⟨fa, ?_, ?_, ?_, hdata⟩
        · rw [hgf1]
          exact hfam
        · rw [hndsflat]
        · rw [hndeflat]
      refine ⟨?_, hn2.trans hn1, hnt2.trans hnt1, hfe2.trans hfe1,
        hgf2.trans hgf1, hrel2.trans hrel1, ?_⟩
      · exact coreInv_congr st2.1 (st1.1.addEdge s en data).1
          (by rw [hgf2]; rfl) (by rw [hn2]; rfl) (by rw [hnt2]; rfl)
          (by rw [hfe2]; rfl) (by rw [hedges]; rfl) (by rw [hnx2]; rfl) hinv2
      · intro p hp
        rw [hedges] at hp
        rcases List.mem_append.mp hp with hp1 | hp1
        · exact hchar1 p hp1
        · rw [List.mem_singleton] at hp1
          subst hp1
          right
          refine ⟨nds, nde, hnds, hnde, hflatne, ?_⟩
          intro hrelf
          rw [← hrel1] at hrelf
          show nds.time + data.travel_time ≤ nde.time
          rcases hmode with ⟨hmr, hm⟩ | ⟨hmr, hm, ennd, hennd, htime⟩ |
            ⟨hmr, hm⟩
          · rw [hmr] at hrelf
            exact absurd hrelf (by simp)
          · apply le_of_eq
            have he1 : nde = ennd := by
              rw [hnde1] at hennd
              exact Option.some.inj hennd
            rw [hndeq, he1, htime]
          · obtain ⟨_, hstop, _⟩ := advanceEnd_spec st1.1 pe_end
              (nd.time + data.travel_time) st1.2 endIdx hadv
            have hlt := hstop en nde hm hnde1
            rw [hndeq]
            omega

theorem addTravelArcsArc_core (g g2 : DiscretizedGraph) (arc : Nat)
    (hlf : FlatGraph.loopFree g.g_flat)
    (hinv : CoreInv g)
    (h : DiscretizedGraph.addTravelArcsArc g arc = some g2) :
    CoreInv g2 ∧ g2.nodes = g.nodes ∧ g2.node_to_times = g.node_to_times ∧
    g2.flat_to_expanded_nodes = g.flat_to_expanded_nodes ∧
    g2.g_flat = g.g_flat ∧ g2.relaxed = g.relaxed ∧
    (∀ p ∈ g2.edges, p ∈ g.edges ∨
      ∃ a b, g.nodes.get? p.2.src = some a ∧ g.nodes.get? p.2.dst = some b ∧
        a.flat_node ≠ b.flat_node ∧
        (g.relaxed = false → a.time + p.2.data.travel_time ≤ b.time)) := by
  unfold DiscretizedGraph.addTravelArcsArc at h
  rw [option_bind_eq_some] at h
  obtain ⟨fa, hfa, h⟩ := h
  rw [option_bind_eq_some] at h
  obtain ⟨pe_start, hps, h⟩ := h
  rw [option_bind_eq_some] at h
  obtain ⟨pe_end, hpe, h⟩ := h
  rw [option_bind_eq_some] at h
  obtain ⟨stf, hst, h⟩ := h
  simp only [Option.pure_def, Option.some.injEq] at h
  subst h
  have hfam : fa ∈ g.g_flat.arcs := List.get?_mem hfa
  have hps' : g.flat_to_expanded_nodes.get? fa.src = some pe_start := hps
  have hpe' : g.flat_to_expanded_nodes.get? fa.dst = some pe_end := hpe
  have hsrclt : fa.src < g.g_flat.nodes.length := by
    rw [← hinv.exp_len]
    exact lt_of_get?_eq_some _ _ _ hps'
  have hdstlt : fa.dst < g.g_flat.nodes.length := by
    rw [← hinv.exp_len]
    exact lt_of_get?_eq_some _ _ _ hpe'
  have hexps : expOf g fa.src = pe_start := getD_of_get? _ _ _ _ hps'
  have hexpe : expOf g fa.dst = pe_end := getD_of_get? _ _ _ _ hpe'
  have hgMod : CoreInv { g with flat_to_expanded_arcs :=
      g.flat_to_expanded_arcs ++ [[]] } :=
    coreInv_congr _ g rfl rfl rfl rfl rfl rfl hinv
  have hstart : ∀ s ∈ pe_start, ∃ nd,
      ({ g with flat_to_expanded_arcs := g.flat_to_expanded_arcs ++
        [[]] } : DiscretizedGraph).nodes.get? s = some nd ∧
      nd.flat_node = fa.src := by
    intro s hs
    obtain ⟨m, hm⟩ := List.get?_of_mem hs
    obtain ⟨nd, h1, h2, _⟩ := hinv.node_mem fa.src hsrclt m s
      (by rw [hexps]; exact hm)
    exact ⟨nd, h1, h2⟩
  have hend : ∀ e ∈ pe_end, ∃ nd,
      ({ g with flat_to_expanded_arcs := g.flat_to_expanded_arcs ++
        [[]] } : DiscretizedGraph).nodes.get? e = some nd ∧
      nd.flat_node = fa.dst := by
    intro e he
    obtain ⟨m, hm⟩ := List.get?_of_mem he
    obtain ⟨nd, h1, h2, _⟩ := hinv.node_mem fa.dst hdstlt m e
      (by rw [hexpe]; exact hm)
    exact ⟨nd, h1, h2⟩
  obtain ⟨jinv, jn, jnt, jfe, jgf, jrel, jchar⟩ := travel_sweep_core arc
    fa.data pe_end { g with flat_to_expanded_arcs :=
      g.flat_to_expanded_arcs ++ [[]] } fa pe_start hfam rfl (hlf fa hfam)
    hstart hend hgMod _ stf rfl hst
  exact ⟨jinv, jn, jnt, jfe, jgf, jrel, jchar⟩

theorem travel_phase_core (g gT : DiscretizedGraph)
    (hlf : FlatGraph.loopFree g.g_flat) (hinv : CoreInv g)
    (h : g._add_travel_arcs = some gT) :
    CoreInv gT ∧ gT.nodes = g.nodes ∧ gT.node_to_times = g.node_to_times ∧
    gT.flat_to_expanded_nodes = g.flat_to_expanded_nodes ∧
    gT.g_flat = g.g_flat ∧ gT.relaxed = g.relaxed ∧
    (∀ p ∈ gT.edges, p ∈ g.edges ∨
      ∃ a b, g.nodes.get? p.2.src = some a ∧ g.nodes.get? p.2.dst = some b ∧
        a.flat_node ≠ b.flat_node ∧
        (g.relaxed = false → a.time + p.2.data.travel_time ≤ b.time)) := by
  unfold DiscretizedGraph._add_travel_arcs at h
  have hmain := foldlM_option_preserve
    (fun g1 : DiscretizedGraph => CoreInv g1 ∧ g1.nodes = g.nodes ∧
      g1.node_to_times = g.node_to_times ∧
      g1.flat_to_expanded_nodes = g.flat_to_expanded_nodes ∧
      g1.g_flat = g.g_flat ∧ g1.relaxed = g.relaxed ∧
      (∀ p ∈ g1.edges, p ∈ g.edges ∨
        ∃ a b, g.nodes.get? p.2.src = some a ∧
          g.nodes.get? p.2.dst = some b ∧ a.flat_node ≠ b.flat_node ∧
          (g.relaxed = false → a.time + p.2.data.travel_time ≤ b.time)))
    DiscretizedGraph.addTravelArcsArc (List.range g.g_flat.arcs.length)
    g gT h ⟨hinv, rfl, rfl, rfl, rfl, rfl, fun p hp => Or.inl hp⟩ ?_
  · exact hmain
  · rintro g1 arc g2 harc ⟨hinv1, hn1, hnt1, hfe1, hgf1, hrel1, hchar1⟩ hstep
    obtain ⟨hinv2, hn2, hnt2, hfe2, hgf2, hrel2, hchar2⟩ :=
      addTravelArcsArc_core g1 g2 arc (by rw [hgf1]; exact hlf) hinv1 hstep
    refine ⟨hinv2, hn2.trans hn1, hnt2.trans hnt1, hfe2.trans hfe1,
      hgf2.trans hgf1, hrel2.trans hrel1, ?_⟩
    intro p hp
    rcases hchar2 p hp with hp1 | ⟨a, b, ha, hb, hne2, hbound⟩
    · exact hchar1 p hp1
    · right
      refine ⟨a, b, ?_, ?_, hne2, ?_⟩
      · rw [← hn1]
        exact ha
      · rw [← hn1]
        exact hb
      · intro hrelf
        apply hbound
        rw [hrel1]
        exact hrelf

theorem create_spec (fg : FlatGraph) (ntt : List (List Int)) (rel : Bool)
    (g : DiscretizedGraph)
    (hlf : FlatGraph.loopFree fg)
    (hlen : ntt.length = fg.nodes.length)
    (h : DiscretizedGraph.create fg ntt rel = some g) :
    CoreInv g ∧ g.g_flat = fg ∧ g.relaxed = rel ∧ g.node_to_times = ntt ∧
    (rel = false → TravelArcLB g) := by
  unfold DiscretizedGraph.create at h
  rw [option_bind_eq_some] at h
  obtain ⟨g1, h1, h⟩ := h
  rw [option_bind_eq_some] at h
  obtain ⟨gH, h2, h3⟩ := h
  unfold DiscretizedGraph._add_timed_nodes at h1
  obtain ⟨tgf, trel, tnt, ted, tnx, tfa, tlen, tw⟩ :=
    timed_fold_spec ⟨fg, rel, ntt, [], [], 0, [], []⟩ rfl rfl
      fg.nodes.length g1 h1
  have tgf' : g1.g_flat = fg := tgf
  have trel' : g1.relaxed = rel := trel
  have tnt' : g1.node_to_times = ntt := tnt
  have tw' : ∀ w, w < fg.nodes.length → ∃ ids times,
      g1.flat_to_expanded_nodes.get? w = some ids ∧
      ntt.get? w = some times ∧
      ids.length = times.length ∧ ids.Nodup ∧
      ∀ m nid, ids.get? m = some nid →
        ∃ nd, g1.nodes.get? nid = some nd ∧ nd.flat_node = w ∧
          times.get? m = some nd.time := tw
  unfold DiscretizedGraph._add_holding_arcs at h2
  have hids : ∀ w, w < g1.flat_to_expanded_nodes.length → ∃ ids,
      g1.flat_to_expanded_nodes.get? w = some ids ∧ ids.Nodup ∧
      ∀ m nid, ids.get? m = some nid →
        ∃ nd, g1.nodes.get? nid = some nd ∧ nd.flat_node = w := by
    intro w hw
    rw [tlen] at hw
    obtain ⟨ids, times, a1, a2, a3, a4, a5⟩ := tw' w hw
    refine ⟨ids, a1, a4, ?_⟩
    intro m nid hm
    obtain ⟨nd, b1, b2, b3⟩ := a5 m nid hm
    exact ⟨nd, b1, b2⟩
  have hNeq : g1.g_flat.nodes.length = fg.nodes.length := by rw [tgf']
  obtain ⟨hgfH, hrelH, hntH, hnH, hfeH, hfaH, hbd, hndup, hchar, hcnt⟩ :=
    holding_fold_spec g1 ted hids g1.g_flat.nodes.length gH
      (by rw [hNeq, tlen]) h2
  have hexpH : ∀ v ids, g1.flat_to_expanded_nodes.get? v = some ids →
      expOf gH v = ids := by
    intro v ids hv
    show gH.flat_to_expanded_nodes.getD v [] = ids
    rw [hfeH]
    exact getD_of_get? _ _ _ _ hv
  have hnttH : ∀ v times, ntt.get? v = some times → nttOf gH v = times := by
    intro v times hv
    show gH.node_to_times.getD v [] = times
    rw [hntH, tnt']
    exact getD_of_get? _ _ _ _ hv
  have hinvH : CoreInv gH := by
    constructor
    · rw [hfeH, hgfH, hNeq, tlen]
    · rw [hntH, tnt', hgfH, hNeq]
      exact hlen
    · intro v hv
      rw [hgfH, hNeq] at hv
      obtain ⟨ids, times, a1, a2, a3, a4, a5⟩ := tw' v hv
      rw [hexpH v ids a1, hnttH v times a2]
      exact a3
    · intro v hv k nid hk
      rw [hgfH, hNeq] at hv
      obtain ⟨ids, times, a1, a2, a3, a4, a5⟩ := tw' v hv
      rw [hexpH v ids a1] at hk
      obtain ⟨nd, b1, b2, b3⟩ := a5 k nid hk
      refine ⟨nd, ?_, b2, ?_⟩
      · rw [hnH]
        exact b1
      · rw [hnttH v times a2]
        exact b3
    · intro v hv
      rw [hgfH, hNeq] at hv
      obtain ⟨ids, times, a1, a2, a3, a4, a5⟩ := tw' v hv
      rw [hexpH v ids a1]
      exact a4
    · intro p hp
      obtain ⟨hdata, w, ids, m, hw, hidsw, hsrc, hdst⟩ := hchar p hp
      rw [hNeq] at hw
      obtain ⟨ids2, times, a1, a2, a3, a4, a5⟩ := tw' w hw
      rw [hidsw] at a1
      have hideq : ids = ids2 := Option.some.inj a1
      have hsrc2 := hsrc
      have hdst2 := hdst
      rw [hideq] at hsrc2 hdst2
      obtain ⟨nd1, b1, _, _⟩ := a5 m p.2.src hsrc2
      obtain ⟨nd2, c1, _, _⟩ := a5 (m + 1) p.2.dst hdst2
      constructor
      · rw [hnH]
        exact lt_of_get?_eq_some _ _ _ b1
      · rw [hnH]
        exact lt_of_get?_eq_some _ _ _ c1
    · exact hbd
    · exact hndup
    · intro p hp a b ha hb hsame
      obtain ⟨hdata, w, ids, m, hw, hidsw, hsrc, hdst⟩ := hchar p hp
      rw [hNeq] at hw
      obtain ⟨ids2, times, a1, a2, a3, a4, a5⟩ := tw' w hw
      rw [hidsw] at a1
      have hideq : ids = ids2 := Option.some.inj a1
      have hsrc2 := hsrc
      rw [hideq] at hsrc2
      obtain ⟨nd1, b1, b2, _⟩ := a5 m p.2.src hsrc2
      have haeq : a = nd1 := by
        rw [hnH] at ha
        rw [b1] at ha
        exact (Option.some.inj ha).symm
      refine ⟨hdata, m, ?_, ?_⟩
      · rw [haeq, b2, hexpH w ids hidsw]
        exact hsrc
      · rw [haeq, b2, hexpH w ids hidsw]
        exact hdst
    · intro v hv k hk
      rw [hgfH, hNeq] at hv
      obtain ⟨ids, times, a1, a2, a3, a4, a5⟩ := tw' v hv
      rw [hexpH v ids a1] at hk ⊢
      exact hcnt v ids (by rw [hNeq]; exact hv) a1 k hk
    · intro p hp a b ha hb hne2
      exfalso
      obtain ⟨hdata, w, ids, m, hw, hidsw, hsrc, hdst⟩ := hchar p hp
      rw [hNeq] at hw
      obtain ⟨ids2, times, a1, a2, a3, a4, a5⟩ := tw' w hw
      rw [hidsw] at a1
      have hideq : ids = ids2 := Option.some.inj a1
      have hsrc2 := hsrc
      have hdst2 := hdst
      rw [hideq] at hsrc2 hdst2
      obtain ⟨nd1, b1, b2, _⟩ := a5 m p.2.src hsrc2
      obtain ⟨nd2, c1, c2, _⟩ := a5 (m + 1) p.2.dst hdst2
      have haeq : a = nd1 := by
        rw [hnH] at ha
        rw [b1] at ha
        exact (Option.some.inj ha).symm
      have hbeq : b = nd2 := by
        rw [hnH] at hb
        rw [c1] at hb
        exact (Option.some.inj hb).symm
      apply hne2
      rw [haeq, hbeq, b2, c2]
  obtain ⟨jinv, jn, jnt, jfe, jgf, jrel, jchar⟩ := travel_phase_core gH g
    (by rw [hgfH, tgf']; exact hlf) hinvH h3
  refine ⟨jinv, by rw [jgf, hgfH, tgf'], by rw [jrel, hrelH, trel'],
    by rw [jnt, hntH, tnt'], ?_⟩
  intro hrelf
  intro p hp a b ha hb hne2
  rcases jchar p hp with hp1 | ⟨a2, b2, ha2, hb2, hne3, hbound⟩
  · exfalso
    obtain ⟨hdata, w, ids, m, hw, hidsw, hsrc, hdst⟩ := hchar p hp1
    rw [hNeq] at hw
    obtain ⟨ids2, times, a1, a2x, a3, a4, a5⟩ := tw' w hw
    rw [hidsw] at a1
    have hideq : ids = ids2 := Option.some.inj a1
    have hsrc2 := hsrc
    have hdst2 := hdst
    rw [hideq] at hsrc2 hdst2
    obtain ⟨nd1, b1, b2x, _⟩ := a5 m p.2.src hsrc2
    obtain ⟨nd2, c1, c2, _⟩ := a5 (m + 1) p.2.dst hdst2
    have haeq : a = nd1 := by
      rw [jn, hnH] at ha
      rw [b1] at ha
      exact (Option.some.inj ha).symm
    have hbeq : b = nd2 := by
      rw [jn, hnH] at hb
      rw [c1] at hb
      exact (Option.some.inj hb).symm
    apply hne2
    rw [haeq, hbeq, b2x, c2]
  · have haeq : a = a2 := by
      rw [jn] at ha
      rw [ha2] at ha
      exact (Option.some.inj ha).symm
    have hbeq : b = b2 := by
      rw [jn] at hb
      rw [hb2] at hb
      exact (Option.some.inj hb).symm
    rw [haeq, hbeq]
    apply hbound
    rw [hrelH, trel']
    exact hrelf

/-! ## Construction: the relaxed upper bound -/

theorem getD_zero_of_head? (l : List Int) (x : Int) (h : l.head? = some x) :
    l.getD 0 0 = x := by
  cases l with
  | nil => simp at h
  | cons a t =>
    exact Option.some.inj h

theorem travel_sweep_ub (arc : Nat) (data : ArcData) (pe_end : List Nat)
    (times_end : List Int) (N0 : List TimeNodeData)
    (hposmap : ∀ k en, pe_end.get? k = some en → ∃ nd,
      N0.get? en = some nd ∧ nd.time = times_end.getD k 0) :
    ∀ (l : List Nat) (st stf : DiscretizedGraph × Nat),
      l.foldlM (DiscretizedGraph.addTravelArcStep arc data pe_end) st =
        some stf →
      st.1.nodes = N0 → st.1.relaxed = true →
      (∀ s nds, s ∈ l → N0.get? s = some nds → st.2 < pe_end.length →
        times_end.getD st.2 0 ≤ nds.time + data.travel_time) →
      l.Pairwise (fun s1 s2 => ∀ nd1 nd2, N0.get? s1 = some nd1 →
        N0.get? s2 = some nd2 → nd1.time ≤ nd2.time) →
      ∀ p ∈ stf.1.edges, p ∈ st.1.edges ∨
        (p.2.data = data ∧ ∃ a b, N0.get? p.2.src = some a ∧
          N0.get? p.2.dst = some b ∧ b.time ≤ a.time + data.travel_time) := by
  intro l
  induction l with
  | nil =>
    intro st stf h hn hrel hptr hpair p hp
    simp only [List.foldlM_nil, Option.pure_def, Option.some.injEq] at h
    rw [← h] at hp
    exact Or.inl hp
  | cons s l ih =>
    intro st stf h hn hrel hptr hpair p hp
    simp only [List.foldlM_cons] at h
    rw [option_bind_eq_some] at h
    obtain ⟨st1, hstep, hrest⟩ := h
    obtain ⟨hn2, hnt2, hfe2, hgf2, hrel2, nd, endIdx, hnd, hadv, hsnd, hbr⟩ :=
      addTravelArcStep_char arc data pe_end st st1 s hstep
    have hndN : N0.get? s = some nd := by
      rw [← hn]
      exact hnd
    obtain ⟨hacc, hstop, hprog⟩ := advanceEnd_spec st.1 pe_end
      (nd.time + data.travel_time) st.2 endIdx hadv
    have hpairc := List.pairwise_cons.mp hpair
    -- the pointer invariant for the recursive call
    have hptr1 : ∀ s2 nds, s2 ∈ l → N0.get? s2 = some nds →
        st1.2 < pe_end.length →
        times_end.getD st1.2 0 ≤ nds.time + data.travel_time := by
      intro s2 nds hs2 hnds hlt
      rw [hsnd] at hlt ⊢
      rcases hprog with hprog | ⟨nid, ndx, hnid, hndx, hle⟩
      · rw [hprog]
        exact hptr s2 nds (List.mem_cons_of_mem _ hs2) hnds
          (by rw [← hprog]; exact hlt)
      · obtain ⟨ndm, hndm, hndmt⟩ := hposmap endIdx nid hnid
        have hxeq : ndx = ndm := by
          rw [hn] at hndx
          rw [hndm] at hndx
          exact (Option.some.inj hndx).symm
        have hst : nd.time ≤ nds.time := hpairc.1 s2 hs2 nd nds hndN hnds
        rw [← hndmt, ← hxeq]
        omega
    have hmain := ih st1 stf hrest (hn2.trans hn) (hrel2.trans hrel)
      hptr1 hpairc.2 p hp
    rcases hmain with hin | hnew
    · rcases hbr with heq | ⟨en, hedges, hnx2, hmode⟩
      · rw [heq] at hin
        exact Or.inl hin
      · rw [hedges] at hin
        rcases List.mem_append.mp hin with hin1 | hin1
        · exact Or.inl hin1
        · rw [List.mem_singleton] at hin1
          subst hin1
          right
          refine ⟨rfl, ?_⟩
          rcases hmode with ⟨hmr, hm⟩ | ⟨hmr, _, _⟩ | ⟨hmr, _⟩
          · -- relaxed: the end node is pe_end[endIdx]
            obtain ⟨ndm, hndm, hndmt⟩ := hposmap endIdx en hm
            refine ⟨nd, ndm, hndN, hndm, ?_⟩
            rcases hprog with hprog | ⟨nid, ndx, hnid, hndx, hle⟩
            · have hlt : endIdx < pe_end.length :=
                lt_of_get?_eq_some _ _ _ hm
              have hbnd := hptr s nd (List.mem_cons_self _ _) hndN
                (by rw [← hprog]; exact hlt)
              rw [hndmt, hprog]
              exact hbnd
            · have hneq : nid = en := by
                rw [hnid] at hm
                exact Option.some.inj hm
              have hxeq : ndx = ndm := by
                rw [hneq] at hndx
                rw [hn] at hndx
                rw [hndm] at hndx
                exact (Option.some.inj hndx).symm
              rw [← hxeq]
              exact hle
          · rw [hrel] at hmr
            exact absurd hmr (by simp)
          · rw [hrel] at hmr
            exact absurd hmr (by simp)
    · exact Or.inr hnew

theorem addTravelArcsArc_ub (g g2 : DiscretizedGraph) (arc : Nat)
    (hinv : CoreInv g)
    (hrel : g.relaxed = true)
    (hsorted : sortedNtt g) (hhead : head0Ntt g)
    (hnn : FlatGraph.nonnegTravel g.g_flat)
    (h : DiscretizedGraph.addTravelArcsArc g arc = some g2) :
    ∀ p ∈ g2.edges, p ∈ g.edges ∨
      (∃ a b, g.nodes.get? p.2.src = some a ∧ g.nodes.get? p.2.dst = some b ∧
        b.time ≤ a.time + p.2.data.travel_time) := by
  unfold DiscretizedGraph.addTravelArcsArc at h
  rw [option_bind_eq_some] at h
  obtain ⟨fa, hfa, h⟩ := h
  rw [option_bind_eq_some] at h
  obtain ⟨pe_start, hps, h⟩ := h
  rw [option_bind_eq_some] at h
  obtain ⟨pe_end, hpe, h⟩ := h
  rw [option_bind_eq_some] at h
  obtain ⟨stf, hst, h⟩ := h
  simp only [Option.pure_def, Option.some.injEq] at h
  subst h
  have hfam : fa ∈ g.g_flat.arcs := List.get?_mem hfa
  have hps' : g.flat_to_expanded_nodes.get? fa.src = some pe_start := hps
  have hpe' : g.flat_to_expanded_nodes.get? fa.dst = some pe_end := hpe
  have hsrclt : fa.src < g.g_flat.nodes.length := by
    rw [← hinv.exp_len]
    exact lt_of_get?_eq_some _ _ _ hps'
  have hdstlt : fa.dst < g.g_flat.nodes.length := by
    rw [← hinv.exp_len]
    exact lt_of_get?_eq_some _ _ _ hpe'
  have hexps : expOf g fa.src = pe_start := getD_of_get? _ _ _ _ hps'
  have hexpe : expOf g fa.dst = pe_end := getD_of_get? _ _ _ _ hpe'
  have hposmap : ∀ k en, pe_end.get? k = some en → ∃ nd,
      g.nodes.get? en = some nd ∧
      nd.time = (nttOf g fa.dst).getD k 0 := by
    intro k en hk
    obtain ⟨nd, h1, h2, h3⟩ := hinv.node_mem fa.dst hdstlt k en
      (by rw [hexpe]; exact hk)
    exact ⟨nd, h1, (getD_of_get? _ _ _ _ h3).symm⟩
  have hτ : 0 ≤ fa.data.travel_time := hnn fa hfam
  have hsrt : (nttOf g fa.src).Pairwise (· ≤ ·) := hsorted fa.src hsrclt
  have hnonneg : ∀ x ∈ nttOf g fa.src, 0 ≤ x :=
    head0_nonneg _ (hhead fa.src hsrclt) hsrt
  have hptr0 : ∀ s nds, s ∈ pe_start → g.nodes.get? s = some nds →
      (0 : Nat) < pe_end.length →
      (nttOf g fa.dst).getD 0 0 ≤ nds.time + fa.data.travel_time := by
    intro s nds hs hnds hlt
    have hz : (nttOf g fa.dst).getD 0 0 = 0 :=
      getD_zero_of_head? _ _ (hhead fa.dst hdstlt)
    rw [hz]
    obtain ⟨m, hm⟩ := List.get?_of_mem hs
    obtain ⟨nd, h1, h2, h3⟩ := hinv.node_mem fa.src hsrclt m s
      (by rw [hexps]; exact hm)
    have hndeq : nd = nds := by
      rw [h1] at hnds
      exact Option.some.inj hnds
    have htm : 0 ≤ nd.time := hnonneg nd.time (List.get?_mem h3)
    rw [← hndeq]
    omega
  have hpair : pe_start.Pairwise (fun s1 s2 => ∀ nd1 nd2,
      g.nodes.get? s1 = some nd1 → g.nodes.get? s2 = some nd2 →
      nd1.time ≤ nd2.time) := by
    rw [List.pairwise_iff_get]
    intro i j hij
    intro nd1 nd2 h1 h2
    obtain ⟨nda, a1, a2, a3⟩ := hinv.node_mem fa.src hsrclt i
      (pe_start.get i) (by rw [hexps]; exact List.get?_eq_get i.isLt)
    obtain ⟨ndb, b1, b2, b3⟩ := hinv.node_mem fa.src hsrclt j
      (pe_start.get j) (by rw [hexps]; exact List.get?_eq_get j.isLt)
    have e1 : nda = nd1 := by
      rw [a1] at h1
      exact Option.some.inj h1
    have e2 : ndb = nd2 := by
      rw [b1] at h2
      exact Option.some.inj h2
    have hta : (nttOf g fa.src).getD i 0 = nda.time :=
      getD_of_get? _ _ _ _ a3
    have htb : (nttOf g fa.src).getD j 0 = ndb.time :=
      getD_of_get? _ _ _ _ b3
    have hmono := sorted_getD_mono (nttOf g fa.src) hsrt i j
      (le_of_lt hij) (lt_of_get?_eq_some _ _ _ b3)
    rw [← e1, ← e2, ← hta, ← htb]
    exact hmono
  have hsweep := travel_sweep_ub arc fa.data pe_end (nttOf g fa.dst) g.nodes
    hposmap pe_start _ stf hst rfl hrel hptr0 hpair
  intro p hp
  rcases hsweep p hp with hin | ⟨hdata, a, b, ha, hb, hbound⟩
  · exact Or.inl hin
  · right
    refine ⟨a, b, ha, hb, ?_⟩
    rw [hdata]
    exact hbound

theorem travel_phase_ub (g gT : DiscretizedGraph)
    (hlf : FlatGraph.loopFree g.g_flat) (hinv : CoreInv g)
    (hrel : g.relaxed = true) (hsorted : sortedNtt g) (hhead : head0Ntt g)
    (hnn : FlatGraph.nonnegTravel g.g_flat)
    (h : g._add_travel_arcs = some gT) :
    ∀ p ∈ gT.edges, p ∈ g.edges ∨
      (∃ a b, g.nodes.get? p.2.src = some a ∧ g.nodes.get? p.2.dst = some b ∧
        b.time ≤ a.time + p.2.data.travel_time) := by
  unfold DiscretizedGraph._add_travel_arcs at h
  have hmain := foldlM_option_preserve
    (fun g1 : DiscretizedGraph => CoreInv g1 ∧ g1.nodes = g.nodes ∧
      g1.node_to_times = g.node_to_times ∧ g1.g_flat = g.g_flat ∧
      g1.relaxed = g.relaxed ∧
      (∀ p ∈ g1.edges, p ∈ g.edges ∨
        (∃ a b, g.nodes.get? p.2.src = some a ∧
          g.nodes.get? p.2.dst = some b ∧
          b.time ≤ a.time + p.2.data.travel_time)))
    DiscretizedGraph.addTravelArcsArc (List.range g.g_flat.arcs.length)
    g gT h ⟨hinv, rfl, rfl, rfl, rfl, fun p hp => Or.inl hp⟩ ?_
  · exact hmain.2.2.2.2.2
  · rintro g1 arc g2 harc ⟨hinv1, hn1, hnt1, hgf1, hrel1, hchar1⟩ hstep
    have hs1 : sortedNtt g1 := by
      intro v hv
      have he : nttOf g1 v = nttOf g v := by
        unfold nttOf
        rw [hnt1]
      rw [he]
      apply hsorted
      rw [← hgf1]
      exact hv
    have hh1 : head0Ntt g1 := by
      intro v hv
      have he : nttOf g1 v = nttOf g v := by
        unfold nttOf
        rw [hnt1]
      rw [he]
      apply hhead
      rw [← hgf1]
      exact hv
    obtain ⟨hinv2, hn2, hnt2, hfe2, hgf2, hrel2, _⟩ :=
      addTravelArcsArc_core g1 g2 arc (by rw [hgf1]; exact hlf) hinv1 hstep
    have hchar2 := addTravelArcsArc_ub g1 g2 arc hinv1
      (by rw [hrel1]; exact hrel) hs1 hh1 (by rw [hgf1]; exact hnn) hstep
    refine ⟨hinv2, hn2.trans hn1, hnt2.trans hnt1, hgf2.trans hgf1,
      hrel2.trans hrel1, ?_⟩
    intro p hp
    rcases hchar2 p hp with hp1 | ⟨a, b, ha, hb, hbound⟩
    · exact hchar1 p hp1
    · right
      refine ⟨a, b, ?_, ?_, hbound⟩
      · rw [← hn1]
        exact ha
      · rw [← hn1]
        exact hb

theorem create_mid_spec (fg : FlatGraph) (ntt : List (List Int)) (rel : Bool)
    (g1 gH : DiscretizedGraph)
    (hlen : ntt.length = fg.nodes.length)
    (h1 : DiscretizedGraph._add_timed_nodes
      ⟨fg, rel, ntt, [], [], 0, [], []⟩ = some g1)
    (h2 : g1._add_holding_arcs = some gH) :
    CoreInv gH ∧ gH.g_flat = fg ∧ gH.relaxed = rel ∧
    gH.node_to_times = ntt ∧
    (∀ p ∈ gH.edges, ∀ a b, gH.nodes.get? p.2.src = some a →
      gH.nodes.get? p.2.dst = some b → a.flat_node = b.flat_node) := by
  unfold DiscretizedGraph._add_timed_nodes at h1
  obtain ⟨tgf, trel, tnt, ted, tnx, tfa, tlen, tw⟩ :=
    timed_fold_spec ⟨fg, rel, ntt, [], [], 0, [], []⟩ rfl rfl
      fg.nodes.length g1 h1
  have tgf' : g1.g_flat = fg := tgf
  have trel' : g1.relaxed = rel := trel
  have tnt' : g1.node_to_times = ntt := tnt
  have tw' : ∀ w, w < fg.nodes.length → ∃ ids times,
      g1.flat_to_expanded_nodes.get? w = some ids ∧
      ntt.get? w = some times ∧
      ids.length = times.length ∧ ids.Nodup ∧
      ∀ m nid, ids.get? m = some nid →
        ∃ nd, g1.nodes.get? nid = some nd ∧ nd.flat_node = w ∧
          times.get? m = some nd.time := tw
  unfold DiscretizedGraph._add_holding_arcs at h2
  have hids : ∀ w, w < g1.flat_to_expanded_nodes.length → ∃ ids,
      g1.flat_to_expanded_nodes.get? w = some ids ∧ ids.Nodup ∧
      ∀ m nid, ids.get? m = some nid →
        ∃ nd, g1.nodes.get? nid = some nd ∧ nd.flat_node = w := by
    intro w hw
    rw [tlen] at hw
    obtain ⟨ids, times, a1, a2, a3, a4, a5⟩ := tw' w hw
    refine ⟨ids, a1, a4, ?_⟩
    intro m nid hm
    obtain ⟨nd, b1, b2, b3⟩ := a5 m nid hm
    exact ⟨nd, b1, b2⟩
  have hNeq : g1.g_flat.nodes.length = fg.nodes.length := by rw [tgf']
  obtain ⟨hgfH, hrelH, hntH, hnH, hfeH, hfaH, hbd, hndup, hchar, hcnt⟩ :=
    holding_fold_spec g1 ted hids g1.g_flat.nodes.length gH
      (by rw [hNeq, tlen]) h2
  have hexpH : ∀ v ids, g1.flat_to_expanded_nodes.get? v = some ids →
      expOf gH v = ids := by
    intro v ids hv
    show gH.flat_to_expanded_nodes.getD v [] = ids
    rw [hfeH]
    exact getD_of_get? _ _ _ _ hv
  have hnttH : ∀ v times, ntt.get? v = some times → nttOf gH v = times := by
    intro v times hv
    show gH.node_to_times.getD v [] = times
    rw [hntH, tnt']
    exact getD_of_get? _ _ _ _ hv
  have hsame : ∀ p ∈ gH.edges, ∀ a b, gH.nodes.get? p.2.src = some a →
      gH.nodes.get? p.2.dst = some b → a.flat_node = b.flat_node := by
    intro p hp a b ha hb
    obtain ⟨hdata, w, ids, m, hw, hidsw, hsrc, hdst⟩ := hchar p hp
    rw [hNeq] at hw
    obtain ⟨ids2, times, a1, a2, a3, a4, a5⟩ := tw' w hw
    rw [hidsw] at a1
    have hideq : ids = ids2 := Option.some.inj a1
    have hsrc2 := hsrc
    have hdst2 := hdst
    rw [hideq] at hsrc2 hdst2
    obtain ⟨nd1, b1, b2, _⟩ := a5 m p.2.src hsrc2
    obtain ⟨nd2, c1, c2, _⟩ := a5 (m + 1) p.2.dst hdst2
    have haeq : a = nd1 := by
      rw [hnH] at ha
      rw [b1] at ha
      exact (Option.some.inj ha).symm
    have hbeq : b = nd2 := by
      rw [hnH] at hb
      rw [c1] at hb
      exact (Option.some.inj hb).symm
    rw [haeq, hbeq, b2, c2]
  refine ⟨?_, by rw [hgfH, tgf'], by rw [hrelH, trel'],
    by rw [hntH, tnt'], hsame⟩
  constructor
  · rw [hfeH, hgfH, hNeq, tlen]
  · rw [hntH, tnt', hgfH, hNeq]
    exact hlen
  · intro v hv
    rw [hgfH, hNeq] at hv
    obtain ⟨ids, times, a1, a2, a3, a4, a5⟩ := tw' v hv
    rw [hexpH v ids a1, hnttH v times a2]
    exact a3
  · intro v hv k nid hk
    rw [hgfH, hNeq] at hv
    obtain ⟨ids, times, a1, a2, a3, a4, a5⟩ := tw' v hv
    rw [hexpH v ids a1] at hk
    obtain ⟨nd, b1, b2, b3⟩ := a5 k nid hk
    refine ⟨nd, ?_, b2, ?_⟩
    · rw [hnH]
      exact b1
    · rw [hnttH v times a2]
      exact b3
  · intro v hv
    rw [hgfH, hNeq] at hv
    obtain ⟨ids, times, a1, a2, a3, a4, a5⟩ := tw' v hv
    rw [hexpH v ids a1]
    exact a4
  · intro p hp
    obtain ⟨hdata, w, ids, m, hw, hidsw, hsrc, hdst⟩ := hchar p hp
    rw [hNeq] at hw
    obtain ⟨ids2, times, a1, a2, a3, a4, a5⟩ := tw' w hw
    rw [hidsw] at a1
    have hideq : ids = ids2 := Option.some.inj a1
    have hsrc2 := hsrc
    have hdst2 := hdst
    rw [hideq] at hsrc2 hdst2
    obtain ⟨nd1, b1, _, _⟩ := a5 m p.2.src hsrc2
    obtain ⟨nd2, c1, _, _⟩ := a5 (m + 1) p.2.dst hdst2
    constructor
    · rw [hnH]
      exact lt_of_get?_eq_some _ _ _ b1
    · rw [hnH]
      exact lt_of_get?_eq_some _ _ _ c1
  · exact hbd
  · exact hndup
  · intro p hp a b ha hb hsame2
    obtain ⟨hdata, w, ids, m, hw, hidsw, hsrc, hdst⟩ := hchar p hp
    rw [hNeq] at hw
    obtain ⟨ids2, times, a1, a2, a3, a4, a5⟩ := tw' w hw
    rw [hidsw] at a1
    have hideq : ids = ids2 := Option.some.inj a1
    have hsrc2 := hsrc
    rw [hideq] at hsrc2
    obtain ⟨nd1, b1, b2, _⟩ := a5 m p.2.src hsrc2
    have haeq : a = nd1 := by
      rw [hnH] at ha
      rw [b1] at ha
      exact (Option.some.inj ha).symm
    refine ⟨hdata, m, ?_, ?_⟩
    · rw [haeq, b2, hexpH w ids hidsw]
      exact hsrc
    · rw [haeq, b2, hexpH w ids hidsw]
      exact hdst
  · intro v hv k hk
    rw [hgfH, hNeq] at hv
    obtain ⟨ids, times, a1, a2, a3, a4, a5⟩ := tw' v hv
    rw [hexpH v ids a1] at hk ⊢
    exact hcnt v ids (by rw [hNeq]; exact hv) a1 k hk
  · intro p hp a b ha hb hne2
    exact absurd (hsame p hp a b ha hb) hne2

theorem create_ub (fg : FlatGraph) (ntt : List (List Int))
    (g : DiscretizedGraph)
    (hlf : FlatGraph.loopFree fg)
    (hlen : ntt.length = fg.nodes.length)
    (hsort : ∀ l ∈ ntt, l.Pairwise (· ≤ ·))
    (hhead : ∀ l ∈ ntt, l.head? = some 0)
    (hnn : FlatGraph.nonnegTravel fg)
    (h : DiscretizedGraph.create fg ntt true = some g) : TravelArcUB g := by
  unfold DiscretizedGraph.create at h
  rw [option_bind_eq_some] at h
  obtain ⟨g1, h1, h⟩ := h
  rw [option_bind_eq_some] at h
  obtain ⟨gH, h2, h3⟩ := h
  obtain ⟨hinvH, hgfH, hrelH, hntH, hsame⟩ :=
    create_mid_spec fg ntt true g1 gH hlen h1 h2
  have hsortedH : sortedNtt gH := by
    intro v hv
    have he : nttOf gH v = ntt.getD v [] := by
      unfold nttOf
      rw [hntH]
    rw [he]
    by_cases hvn : v < ntt.length
    · exact hsort _ (List.get?_mem (get?_eq_getD ntt v [] hvn))
    · rw [List.getD_eq_default _ _ (by omega)]
      exact List.Pairwise.nil
  have hheadH : head0Ntt gH := by
    intro v hv
    have he : nttOf gH v = ntt.getD v [] := by
      unfold nttOf
      rw [hntH]
    rw [he]
    apply hhead
    apply List.get?_mem (get?_eq_getD ntt v [] ?_)
    rw [hlen, ← hgfH]
    exact hv
  obtain ⟨jinv, jn, jnt, jfe, jgf, jrel, _⟩ := travel_phase_core gH g
    (by rw [hgfH]; exact hlf) hinvH h3
  have hchar := travel_phase_ub gH g (by rw [hgfH]; exact hlf) hinvH hrelH
    hsortedH hheadH (by rw [hgfH]; exact hnn) h3
  intro p hp a b ha hb hne2
  rcases hchar p hp with hp1 | ⟨a2, b2, ha2, hb2, hbound⟩
  · exfalso
    apply hne2
    apply hsame p hp1 a b
    · rw [← jn]
      exact ha
    · rw [← jn]
      exact hb
  · have haeq : a = a2 := by
      rw [jn] at ha
      rw [ha2] at ha
      exact (Option.some.inj ha).symm
    have hbeq : b = b2 := by
      rw [jn] at hb
      rw [hb2] at hb
      exact (Option.some.inj hb).symm
    rw [haeq, hbeq]
    exact hbound

/-! ## Refinement preserves the relaxed upper bound -/

theorem refine_prefix_ub (g0 : DiscretizedGraph) (v : Nat) (t : Int)
    (times : List Int) (exp : List Nat) (k : Nat) (prev : Nat)
    (nxt_opt : Option Nat) (name : String) (g4 : DiscretizedGraph)
    (hinv : CoreInv g0)
    (hub : TravelArcUB g0)
    (htimes : g0.node_to_times.get? v = some times)
    (hexp : g0.flat_to_expanded_nodes.get? v = some exp)
    (hprev : exp.get? (k - 1) = some prev)
    (hnext : (nxt_opt = none ∧ times.length ≤ k) ∨
      (∃ nxt, nxt_opt = some nxt ∧ exp.get? k = some nxt))
    (hrun : DiscretizedGraph._refine_holding_arc
      { g0 with
        node_to_times := g0.node_to_times.set v (pyInsert times k t),
        nodes := g0.nodes ++ [TimeNodeData.mk v t name],
        flat_to_expanded_nodes :=
          g0.flat_to_expanded_nodes.set v (pyInsert exp k g0.nodes.length) }
      g0.nodes.length prev nxt_opt = some g4) :
    TravelArcUB g4 := by
  obtain ⟨hn4, hnt4, hfe4, hgf4, hrel4, _, hcase⟩ :=
    refine_holding_char _ _ _ _ _ hrun
  have hn4' : g4.nodes = g0.nodes ++ [TimeNodeData.mk v t name] := hn4
  have hvlt : v < g0.node_to_times.length := lt_of_get?_eq_some _ _ _ htimes
  have hvN : v < g0.g_flat.nodes.length := by
    rw [← hinv.ntt_len]
    exact hvlt
  have hexp0 : expOf g0 v = exp := getD_of_get? _ _ _ _ hexp
  obtain ⟨ndp, hndp, hndpf, _⟩ := hinv.node_mem v hvN (k - 1) prev
    (by rw [hexp0]; exact hprev)
  have hprev_lt : prev < g0.nodes.length := lt_of_get?_eq_some _ _ _ hndp
  -- lookups of old nodes transfer to g4
  have hold : ∀ nid a, nid < g0.nodes.length →
      g4.nodes.get? nid = some a → g0.nodes.get? nid = some a := by
    intro nid a hlt ha
    rw [hn4', List.get?_append hlt] at ha
    exact ha
  have hnewlook : g4.nodes.get? g0.nodes.length =
      some (TimeNodeData.mk v t name) := by
    rw [hn4']
    exact List.get?_concat_length _ _
  -- the upper bound transfers for an old edge of g0
  have hteold : ∀ p, p ∈ g0.edges → ∀ a b,
      g4.nodes.get? p.2.src = some a → g4.nodes.get? p.2.dst = some b →
      a.flat_node ≠ b.flat_node →
      b.time ≤ a.time + p.2.data.travel_time := by
    intro p hp a b ha hb hne2
    obtain ⟨hslt, hdlt⟩ := hinv.edge_valid p hp
    exact hub p hp a b (hold _ _ hslt ha) (hold _ _ hdlt hb) hne2
  -- a holding arc `prev → new` is same-flat
  have htenew : ∀ a b,
      g4.nodes.get? prev = some a →
      g4.nodes.get? g0.nodes.length = some b →
      a.flat_node = b.flat_node := by
    intro a b ha hb
    have ha0 : a = ndp := by
      have := hold _ _ hprev_lt ha
      rw [hndp] at this
      exact (Option.some.inj this).symm
    have hb0 : b = TimeNodeData.mk v t name := by
      rw [hnewlook] at hb
      exact (Option.some.inj hb).symm
    rw [ha0, hb0, hndpf]
  rcases hcase with ⟨hno, hedges, hnx⟩ | ⟨nxt, ha, hsome, hge, hedges, hnx⟩
  · intro p hp a b hpa hpb hne2
    rw [hedges] at hp
    rcases List.mem_append.mp hp with hp1 | hp1
    · exact hteold p hp1 a b hpa hpb hne2
    · rw [List.mem_singleton] at hp1
      subst hp1
      exfalso
      apply hne2
      exact htenew a b hpa hpb
  · obtain ⟨nxtv, hnxteq, hnxtk⟩ := hnext.resolve_left (by
      intro hc
      rw [hc.1] at hsome
      exact absurd hsome (by simp))
    have hnxteq2 : nxt = nxtv := by
      rw [hnxteq] at hsome
      exact (Option.some.inj hsome).symm
    subst hnxteq2
    obtain ⟨ndx, hndx, hndxf, _⟩ := hinv.node_mem v hvN k nxt
      (by rw [hexp0]; exact hnxtk)
    have hnxt_lt : nxt < g0.nodes.length := lt_of_get?_eq_some _ _ _ hndx
    intro p hp a b hpa hpb hne2
    rw [hedges] at hp
    rcases List.mem_append.mp hp with hp1 | hp1
    · have hp2 := (List.mem_filter.mp hp1).1
      rcases List.mem_append.mp hp2 with hp3 | hp3
      · exact hteold p hp3 a b hpa hpb hne2
      · rw [List.mem_singleton] at hp3
        subst hp3
        exfalso
        apply hne2
        exact htenew a b hpa hpb
    · rw [List.mem_singleton] at hp1
      subst hp1
      exfalso
      apply hne2
      have ha0 : a = TimeNodeData.mk v t name := by
        rw [hnewlook] at hpa
        exact (Option.some.inj hpa).symm
      have hb0 : b = ndx := by
        have := hold _ _ hnxt_lt hpb
        rw [hndx] at this
        exact (Option.some.inj this).symm
      rw [ha0, hb0, hndxf]
  
theorem lengthen_ub (g : DiscretizedGraph) (new prev : Nat) (t : Int)
    (g' : DiscretizedGraph) (ndn : TimeNodeData)
    (hnew : g.nodes.get? new = some ndn) (htn : ndn.time = t)
    (hub : TravelArcUB g)
    (h : g._lengthen_travel_arcs_relaxed new prev t = some g') :
    TravelArcUB g' := by
  unfold DiscretizedGraph._lengthen_travel_arcs_relaxed at h
  have hmain := foldlM_option_preserve
    (fun g1 : DiscretizedGraph => g1.nodes = g.nodes ∧ TravelArcUB g1)
    (DiscretizedGraph.lengthenStep new prev t) (g.in_edges prev) g g' h
    ⟨rfl, hub⟩ ?_
  · exact hmain.2
  · rintro g1 ija g2 hija ⟨hn1, hub1⟩ hstep
    obtain ⟨e, hem, hedst, hijaeq⟩ := mem_in_edges _ _ _ hija
    subst hijaeq
    rcases lengthenStep_char new prev t g1 g2 e.2.src e.2.dst e.2.data hstep
      with heq | ⟨ndi, ndj, rm, hndi, hndj, hflat, hguard, hrm, hedges, hnx,
        hn2, hnt2, hfe2, hgf2, hrel2⟩
    · rw [heq]
      exact ⟨hn1, hub1⟩
    · refine ⟨hn2.trans hn1, ?_⟩
      intro p hp a b ha hb hne2
      rw [hedges] at hp
      rcases List.mem_append.mp hp with hp1 | hp1
      · have hp2 := (List.mem_filter.mp hp1).1
        apply hub1 p hp2 a b ?_ ?_ hne2
        · rw [← hn2]
          exact ha
        · rw [← hn2]
          exact hb
      · rw [List.mem_singleton] at hp1
        subst hp1
        have ha2 : g1.nodes.get? e.2.src = some a := by
          rw [← hn2]
          exact ha
        have hb2 : g1.nodes.get? new = some b := by
          rw [← hn2]
          exact hb
        have hnewg1 : g1.nodes.get? new = some ndn := by
          rw [hn1]
          exact hnew
        have haeq : a = ndi := by
          rw [hndi] at ha2
          exact (Option.some.inj ha2).symm
        have hbeq : b = ndn := by
          rw [hnewg1] at hb2
          exact (Option.some.inj hb2).symm
        show b.time ≤ a.time + e.2.data.travel_time
        rw [haeq, hbeq, htn]
        exact hguard

theorem travel_new_ub (g : DiscretizedGraph) (new : Nat)
    (g' : DiscretizedGraph) (ndn : TimeNodeData)
    (hinv : CoreInv g)
    (hrel : g.relaxed = true)
    (hs : sortedNtt g) (hh : head0Ntt g)
    (hnn : FlatGraph.nonnegTravel g.g_flat)
    (hub : TravelArcUB g)
    (hnew : g.nodes.get? new = some ndn)
    (htpos : 0 < ndn.time)
    (h : g._add_travel_arcs_new_node new = some g') : TravelArcUB g' := by
  unfold DiscretizedGraph._add_travel_arcs_new_node at h
  rw [option_bind_eq_some] at h
  obtain ⟨nd0, hnd0, h⟩ := h
  have hnd0e : ndn = nd0 := by
    rw [hnew] at hnd0
    exact Option.some.inj hnd0
  have hmain := foldlM_option_preserve
    (fun g1 : DiscretizedGraph => g1.nodes = g.nodes ∧
      g1.node_to_times = g.node_to_times ∧
      g1.flat_to_expanded_nodes = g.flat_to_expanded_nodes ∧
      g1.g_flat = g.g_flat ∧ g1.relaxed = g.relaxed ∧ TravelArcUB g1)
    (DiscretizedGraph.addTravelArcNewNodeStep nd0.time new)
    (g.g_flat.out_edges nd0.flat_node) g g' h
    ⟨rfl, rfl, rfl, rfl, rfl, hub⟩ ?_
  · exact hmain.2.2.2.2.2
  · rintro g1 ija g2 hija ⟨hn1, hnt1, hfe1, hgf1, hrel1, hub1⟩ hstep
    obtain ⟨fa, hfam, hfasrc, hijaeq⟩ := mem_out_edges _ _ _ hija
    subst hijaeq
    rcases travel_new_step_char nd0.time new g1 g2 fa.src fa.dst fa.data hstep
      with heq | ⟨times_j, exp_j, j_ex, htj, hej, htgt, hedges, hnx2, hn2,
        hnt2, hfe2, hgf2, hrel2⟩
    · rw [heq]
      exact ⟨hn1, hnt1, hfe1, hgf1, hrel1, hub1⟩
    · refine ⟨hn2.trans hn1, hnt2.trans hnt1, hfe2.trans hfe1,
        hgf2.trans hgf1, hrel2.trans hrel1, ?_⟩
      have htj' : g.node_to_times.get? fa.dst = some times_j := by
        rw [← hnt1]
        exact htj
      have hej' : g.flat_to_expanded_nodes.get? fa.dst = some exp_j := by
        rw [← hfe1]
        exact hej
      have hdlt : fa.dst < g.g_flat.nodes.length := by
        rw [← hinv.exp_len]
        exact lt_of_get?_eq_some _ _ _ hej'
      have hnttj : nttOf g fa.dst = times_j := getD_of_get? _ _ _ _ htj'
      have hexpj : expOf g fa.dst = exp_j := getD_of_get? _ _ _ _ hej'
      have hsortedj : times_j.Pairwise (· ≤ ·) := by
        rw [← hnttj]
        exact hs fa.dst hdlt
      have hheadj : times_j.head? = some 0 := by
        rw [← hnttj]
        exact hh fa.dst hdlt
      have hlenj : exp_j.length = times_j.length := by
        have := hinv.len_eq fa.dst hdlt
        rw [hexpj, hnttj] at this
        exact this
      have harr : 0 < nd0.time + fa.data.travel_time := by
        have h1 := hnn fa hfam
        rw [← hnd0e]
        omega
      obtain ⟨m, hm, hrelcase, _⟩ := travelNewTarget_char g1 _ times_j exp_j
        j_ex htgt
      obtain ⟨ndb, hndb, hndbf, hndbt⟩ := hinv.node_mem fa.dst hdlt m j_ex
        (by rw [hexpj]; exact hm)
      have hndbt' : times_j.get? m = some ndb.time := by
        rw [← hnttj]
        exact hndbt
      have hgetb : times_j.getD m 0 = ndb.time := getD_of_get? _ _ _ _ hndbt'
      intro p hp a b ha hb hne2
      rw [hedges] at hp
      rcases List.mem_append.mp hp with hp1 | hp1
      · apply hub1 p hp1 a b ?_ ?_ hne2
        · rw [← hn2]
          exact ha
        · rw [← hn2]
          exact hb
      · rw [List.mem_singleton] at hp1
        subst hp1
        have ha2 : g.nodes.get? new = some a := by
          rw [← hn1, ← hn2]
          exact ha
        have hb2 : g.nodes.get? j_ex = some b := by
          rw [← hn1, ← hn2]
          exact hb
        have haeq : a = ndn := by
          rw [hnew] at ha2
          exact (Option.some.inj ha2).symm
        have hbeq : b = ndb := by
          rw [hndb] at hb2
          exact (Option.some.inj hb2).symm
        show b.time ≤ a.time + fa.data.travel_time
        rw [haeq, hbeq, hnd0e]
        have hrel1' : g1.relaxed = true := by
          rw [hrel1]
          exact hrel
        rcases hrelcase hrel1' with ⟨hk1len, hm1, hmne⟩ |
          ⟨hklt, hmeq, nd2, hnd2, hnd2t⟩ | ⟨hklt, hk1, hmeq⟩ |
          ⟨hk0, hlen0, hm1, hmne⟩
        · have hpos : 0 < exp_j.length := List.length_pos.mpr hmne
          have hmlt : m < times_j.length := by omega
          have := bisect_left_lt times_j (nd0.time + fa.data.travel_time)
            hsortedj m (by omega)
          omega
        · have hnd2' : g.nodes.get? j_ex = some nd2 := by
            rw [← hn1]
            exact hnd2
          have : ndb = nd2 := by
            rw [hndb] at hnd2'
            exact Option.some.inj hnd2'
          rw [this, hnd2t]
        · have := bisect_left_lt times_j (nd0.time + fa.data.travel_time)
            hsortedj m (by omega)
          omega
        · exfalso
          have h1 := bisect_left_ge times_j (nd0.time + fa.data.travel_time)
            hsortedj 0 (by omega) hlen0
          have h2 : times_j.getD 0 0 = 0 := getD_zero_of_head? _ _ hheadj
          omega

theorem refine_preserves_ub (g g' : DiscretizedGraph) (v : Nat) (t : Int)
    (hlf : ∀ a ∈ g.g_flat.arcs, a.src ≠ a.dst)
    (hinv : CoreInv g) (hs : sortedNtt g) (hh : head0Ntt g)
    (hnn : FlatGraph.nonnegTravel g.g_flat)
    (hrel : g.relaxed = true)
    (hub : TravelArcUB g)
    (h : g.refine_discretization v t = some g') : TravelArcUB g' := by
  cases hts : g.node_to_times.get? v with
  | none =>
    exfalso
    unfold DiscretizedGraph.refine_discretization at h
    rw [hts] at h
    exact absurd h (by simp)
  | some times =>
  have hk1 : 1 ≤ bisect_left times t := by
    by_contra hc
    have := refine_k0_fails g v t times hinv hts (by omega)
    rw [this] at h
    exact absurd h (by simp)
  have hvlt : v < g.node_to_times.length := lt_of_get?_eq_some _ _ _ hts
  have hvN : v < g.g_flat.nodes.length := by
    rw [← hinv.ntt_len]
    exact hvlt
  unfold DiscretizedGraph.refine_discretization at h
  rw [option_bind_eq_some] at h
  obtain ⟨times2, htimes2, h⟩ := h
  rw [hts] at htimes2
  injection htimes2 with htimes2
  subst htimes2
  simp only [] at h
  rw [option_bind_eq_some] at h
  obtain ⟨exp, hexp, h⟩ := h
  have hexp0 : expOf g v = exp := getD_of_get? _ _ _ _ hexp
  have hntt0 : nttOf g v = times := getD_of_get? _ _ _ _ hts
  have hsortedv : times.Pairwise (· ≤ ·) := by
    rw [← hntt0]
    exact hs v hvN
  have hheadv : times.head? = some 0 := by
    rw [← hntt0]
    exact hh v hvN
  rw [option_bind_eq_some] at h
  obtain ⟨prev, hprevP, h⟩ := h
  have hprev : exp.get? (bisect_left times t - 1) = some prev := by
    rw [pyGet_nonneg exp _ (by omega)] at hprevP
    have htn : ((bisect_left times t : Int) - 1).toNat =
        bisect_left times t - 1 := by omega
    rw [htn] at hprevP
    exact hprevP
  rw [option_bind_eq_some] at h
  obtain ⟨nxtopt, hnxtopt, h⟩ := h
  have hnext : (nxtopt = none ∧ times.length ≤ bisect_left times t) ∨
      (∃ nxt, nxtopt = some nxt ∧ exp.get? (bisect_left times t) = some nxt) := by
    unfold DiscretizedGraph.refineNextNode at hnxtopt
    by_cases hklen : bisect_left times t < times.length
    · rw [if_pos hklen] at hnxtopt
      rw [Option.map_eq_some'] at hnxtopt
      obtain ⟨n, hn1, hn2⟩ := hnxtopt
      exact Or.inr ⟨n, hn2.symm, hn1⟩
    · rw [if_neg hklen] at hnxtopt
      simp only [Option.pure_def, Option.some.injEq] at hnxtopt
      exact Or.inl ⟨hnxtopt.symm, by omega⟩
  rw [option_bind_eq_some] at h
  obtain ⟨fnd, hfnd, h⟩ := h
  rw [option_bind_eq_some] at h
  obtain ⟨g4, hg4, h⟩ := h
  obtain ⟨hinv4, hn4, hnt4, hfe4, hgf4, hrel4⟩ :=
    refine_prefix_core g v t times exp (bisect_left times t) prev nxtopt
      (fnd.name ++ "_" ++ toString t) g4 hinv hts hexp hk1
      (bisect_left_le_length times t) hprev hnext hg4
  have hub4 : TravelArcUB g4 :=
    refine_prefix_ub g v t times exp (bisect_left times t) prev nxtopt
      (fnd.name ++ "_" ++ toString t) g4 hinv hub hts hexp hprev hnext hg4
  -- sortedness and head-zero for the intermediate graph
  have hs4 : sortedNtt g4 := by
    intro w hw
    rw [hgf4] at hw
    by_cases hwv : w = v
    · rw [hwv]
      have hntt4 : nttOf g4 v = pyInsert times (bisect_left times t) t := by
        show g4.node_to_times.getD v [] = _
        rw [hnt4]
        exact getD_set_self _ _ _ _ hvlt
      rw [hntt4]
      apply pyInsert_sorted times (bisect_left times t) t hsortedv
        (bisect_left_le_length times t)
      · intro i hi
        exact le_of_lt (bisect_left_lt times t hsortedv i hi)
      · intro i hi1 hi2
        exact bisect_left_ge times t hsortedv i hi1 hi2
    · have hntt4 : nttOf g4 w = nttOf g w := by
        show g4.node_to_times.getD w [] = g.node_to_times.getD w []
        rw [hnt4]
        exact getD_set_ne _ _ _ _ _ (fun hc => hwv hc.symm)
      rw [hntt4]
      exact hs w hw
  have hh4 : head0Ntt g4 := by
    intro w hw
    rw [hgf4] at hw
    by_cases hwv : w = v
    · rw [hwv]
      have hntt4 : nttOf g4 v = pyInsert times (bisect_left times t) t := by
        show g4.node_to_times.getD v [] = _
        rw [hnt4]
        exact getD_set_self _ _ _ _ hvlt
      rw [hntt4]
      rcases pyInsert_head? times (bisect_left times t) t hk1 with h1 | h1
      · rw [h1]
        rw [← hntt0]
        exact hh v hvN
      · exfalso
        have hble := bisect_left_le_length times t
        rw [h1] at hble hk1
        simp only [List.length_nil] at hble
        omega
    · have hntt4 : nttOf g4 w = nttOf g w := by
        show g4.node_to_times.getD w [] = g.node_to_times.getD w []
        rw [hnt4]
        exact getD_set_ne _ _ _ _ _ (fun hc => hwv hc.symm)
      rw [hntt4]
      exact hh w hw
  rw [option_bind_eq_some] at h
  obtain ⟨g5, hg5, h⟩ := h
  obtain ⟨hinv5, hn5, hnt5, hfe5, hgf5, hrel5⟩ :=
    travel_new_core g4 g.nodes.length g5
      (by rw [hgf4]; exact hlf) hinv4 hg5
  have hnew4 : g4.nodes.get? g.nodes.length =
      some (TimeNodeData.mk v t (fnd.name ++ "_" ++ toString t)) := by
    rw [hn4]
    exact List.get?_concat_length _ _
  have htpos : (0 : Int) < t := by
    have h1 := bisect_left_lt times t hsortedv 0 (by omega)
    have h2 : times.getD 0 0 = 0 := getD_zero_of_head? _ _ hheadv
    omega
  have hub5 : TravelArcUB g5 := by
    apply travel_new_ub g4 g.nodes.length g5
      (TimeNodeData.mk v t (fnd.name ++ "_" ++ toString t)) hinv4
      (by rw [hrel4]; exact hrel) hs4 hh4 (by rw [hgf4]; exact hnn) hub4
      hnew4 htpos hg5
  have hnew5 : g5.nodes.get? g.nodes.length =
      some (TimeNodeData.mk v t (fnd.name ++ "_" ++ toString t)) := by
    rw [hn5]
    exact hnew4
  have hrel5' : g5.relaxed = true := by
    rw [hrel5, hrel4]
    exact hrel
  rw [if_pos hrel5'] at h
  exact lengthen_ub g5 g.nodes.length prev t g'
    (TimeNodeData.mk v t (fnd.name ++ "_" ++ toString t)) hnew5 rfl hub5 h

theorem reaches_relaxed_ub (g0 g : DiscretizedGraph)
    (hlf : ∀ a ∈ g0.g_flat.arcs, a.src ≠ a.dst)
    (hinv : CoreInv g0) (hs : sortedNtt g0) (hh : head0Ntt g0)
    (hnn : FlatGraph.nonnegTravel g0.g_flat)
    (hrel : g0.relaxed = true)
    (hub : TravelArcUB g0) (hr : Reaches g0 g) :
    TravelArcUB g ∧ CoreInv g ∧ sortedNtt g ∧ head0Ntt g ∧
    g.g_flat = g0.g_flat ∧ g.relaxed = g0.relaxed := by
  induction hr with
  | refl => exact ⟨hub, hinv, hs, hh, rfl, rfl⟩
  | step v t hr hrefine ih =>
    obtain ⟨hub1, hinv1, hs1, hh1, hgf1, hrel1⟩ := ih
    obtain ⟨hinv2, hgf2, hrel2, _⟩ := refine_preserves_core _ _ v t
      (by rw [hgf1]; exact hlf) hinv1 hrefine
    refine ⟨?_, hinv2, ?_, ?_, by rw [hgf2, hgf1], by rw [hrel2, hrel1]⟩
    · exact refine_preserves_ub _ _ v t (by rw [hgf1]; exact hlf) hinv1 hs1
        hh1 (by rw [hgf1]; exact hnn) (by rw [hrel1]; exact hrel) hub1
        hrefine
    · exact refine_preserves_sorted _ _ v t (by rw [hgf1]; exact hlf) hinv1
        hs1 hrefine
    · exact refine_preserves_head0 _ _ v t (by rw [hgf1]; exact hlf) hinv1
        hh1 hrefine

/-! ## C6: flow-conservation right-hand sides -/

theorem flowFold_spec (g : DiscretizedGraph) :
    ∀ (cl : List Commodity) (acc res : List FlowConstr),
      cl.foldlM (fun (acc : List FlowConstr) com => do
        let timesS ← g.node_to_times.get? com.source_node
        let k_source := bisect_left timesS com.release
        let expS ← g.flat_to_expanded_nodes.get? com.source_node
        let source_node ← expS.get? k_source
        let timesT ← g.node_to_times.get? com.sink_node
        let k_sink := bisect_left timesT com.deadline
        let expT ← g.flat_to_expanded_nodes.get? com.sink_node
        let sink_node ← expT.get? k_sink
        let cs := (List.range g.nodes.length).map (fun node =>
          FlowConstr.mk com.id node (g.get_out_edge_indices node)
            (g.get_in_edge_indices node)
            (if node = source_node then 1 else
              if node = sink_node then -1 else 0))
        pure (acc ++ cs)) acc = some res →
      (∀ x ∈ acc, x ∈ res) ∧
      (∀ x ∈ res, x ∈ acc ∨ ∃ com ∈ cl, ∃ timesS expS sn timesT expT tn,
        g.node_to_times.get? com.source_node = some timesS ∧
        g.flat_to_expanded_nodes.get? com.source_node = some expS ∧
        expS.get? (bisect_left timesS com.release) = some sn ∧
        g.node_to_times.get? com.sink_node = some timesT ∧
        g.flat_to_expanded_nodes.get? com.sink_node = some expT ∧
        expT.get? (bisect_left timesT com.deadline) = some tn ∧
        ∃ node, node < g.nodes.length ∧
          x = FlowConstr.mk com.id node (g.get_out_edge_indices node)
            (g.get_in_edge_indices node)
            (if node = sn then 1 else if node = tn then -1 else 0)) ∧
      (∀ com ∈ cl, ∃ timesS expS sn timesT expT tn,
        g.node_to_times.get? com.source_node = some timesS ∧
        g.flat_to_expanded_nodes.get? com.source_node = some expS ∧
        expS.get? (bisect_left timesS com.release) = some sn ∧
        g.node_to_times.get? com.sink_node = some timesT ∧
        g.flat_to_expanded_nodes.get? com.sink_node = some expT ∧
        expT.get? (bisect_left timesT com.deadline) = some tn ∧
        ∀ node, node < g.nodes.length →
          FlowConstr.mk com.id node (g.get_out_edge_indices node)
            (g.get_in_edge_indices node)
            (if node = sn then 1 else if node = tn then -1 else 0) ∈ res) := by
  intro cl
  induction cl with
  | nil =>
    intro acc res h
    simp only [List.foldlM_nil, Option.pure_def, Option.some.injEq] at h
    subst h
    exact ⟨fun x hx => hx, fun x hx => Or.inl hx,
      fun com hcom => by simp at hcom⟩
  | cons c cl ih =>
    intro acc res h
    rw [List.foldlM_cons] at h
    rw [option_bind_eq_some] at h
    obtain ⟨mid, hmid, hrest⟩ := h
    obtain ⟨timesS, expS, sn, timesT, expT, tn, h1, h2, h3, h4, h5, h6,
        hmid2⟩ :
        ∃ timesS expS sn timesT expT tn,
          g.node_to_times.get? c.source_node = some timesS ∧
          g.flat_to_expanded_nodes.get? c.source_node = some expS ∧
          expS.get? (bisect_left timesS c.release) = some sn ∧
          g.node_to_times.get? c.sink_node = some timesT ∧
          g.flat_to_expanded_nodes.get? c.sink_node = some expT ∧
          expT.get? (bisect_left timesT c.deadline) = some tn ∧
          mid = acc ++ (List.range g.nodes.length).map (fun node =>
            FlowConstr.mk c.id node (g.get_out_edge_indices node)
              (g.get_in_edge_indices node)
              (if node = sn then 1 else if node = tn then -1 else 0)) := by
      cases ha : g.node_to_times.get? c.source_node with
      | none => rw [ha] at hmid; simp at hmid
      | some timesS =>
      rw [ha] at hmid
      simp only [Option.bind_eq_bind, Option.some_bind] at hmid
      cases hb : g.flat_to_expanded_nodes.get? c.source_node with
      | none => rw [hb] at hmid; simp at hmid
      | some expS =>
      rw [hb] at hmid
      simp only [Option.some_bind] at hmid
      cases hcn : expS.get? (bisect_left timesS c.release) with
      | none => rw [hcn] at hmid; simp at hmid
      | some sn =>
      rw [hcn] at hmid
      simp only [Option.some_bind] at hmid
      cases hd : g.node_to_times.get? c.sink_node with
      | none => rw [hd] at hmid; simp at hmid
      | some timesT =>
      rw [hd] at hmid
      simp only [Option.some_bind] at hmid
      cases he : g.flat_to_expanded_nodes.get? c.sink_node with
      | none => rw [he] at hmid; simp at hmid
      | some expT =>
      rw [he] at hmid
      simp only [Option.some_bind] at hmid
      cases hf : expT.get? (bisect_left timesT c.deadline) with
      | none => rw [hf] at hmid; simp at hmid
      | some tn =>
      rw [hf] at hmid
      simp only [Option.some_bind, Option.pure_def, Option.some.injEq] at hmid
      exact ⟨timesS, expS, sn, timesT, expT, tn, rfl, rfl, hcn, rfl, rfl,
        hf, hmid.symm⟩
    obtain ⟨him, hrev, hall⟩ := ih mid res hrest
    subst hmid2
    refine ⟨fun x hx => him x (List.mem_append_left _ hx), ?_, ?_⟩
    · intro x hx
      rcases hrev x hx with hx2 | ⟨com, hcom, rest⟩
      · rcases List.mem_append.mp hx2 with hx3 | hx3
        · exact Or.inl hx3
        · obtain ⟨node, hnode, hxeq⟩ := List.mem_map.mp hx3
          exact Or.inr ⟨c, by simp, timesS, expS, sn, timesT, expT, tn,
            h1, h2, h3, h4, h5, h6, node, List.mem_range.mp hnode, hxeq.symm⟩
      · exact Or.inr ⟨com, by simp [hcom], rest⟩
    · intro com hcom
      rcases List.mem_cons.mp hcom with hc | hc
      · subst hc
        exact ⟨timesS, expS, sn, timesT, expT, tn, h1, h2, h3, h4, h5, h6,
          fun node hnode => him _ (List.mem_append_right _
            (List.mem_map.mpr ⟨node, List.mem_range.mpr hnode, rfl⟩))⟩
      · exact hall com hc

theorem get_in_eq (g : DiscretizedGraph) (n : Nat) :
    g.get_in_edge_indices n =
      (g.edges.filter (fun e => e.2.dst == n)).map Prod.fst := by
  unfold DiscretizedGraph.get_in_edge_indices
  congr 1
  rw [List.filter_filter]
  apply List.filter_congr
  intro e _
  cases h1 : (e.2.src == n) <;> cases h2 : (e.2.dst == n) <;> simp [h1, h2]

theorem IsFirstTimedAtLeast_unique (g : DiscretizedGraph) (v : Nat)
    (bound : Int) (n1 n2 : Nat) (h1 : IsFirstTimedAtLeast g v bound n1)
    (h2 : IsFirstTimedAtLeast g v bound n2) : n1 = n2 := by
  obtain ⟨k1, he1, ⟨t1, ht1, hb1⟩, hm1⟩ := h1
  obtain ⟨k2, he2, ⟨t2, ht2, hb2⟩, hm2⟩ := h2
  have hk : k1 = k2 := by
    by_contra hne
    rcases Nat.lt_or_ge k1 k2 with h | h
    · have := hm2 k1 t1 h ht1; omega
    · have := hm1 k2 t2 (by omega) ht2; omega
  subst hk
  rw [he1] at he2
  injection he2

theorem rhsCharacterization (sn tn : Nat) (hneq : sn ≠ tn) (node : Nat) :
    (((if node = sn then 1 else if node = tn then -1 else 0) : Int) = 1 ↔
      node = sn) ∧
    (((if node = sn then 1 else if node = tn then -1 else 0) : Int) = -1 ↔
      node = tn) ∧
    (node ≠ sn → node ≠ tn →
      ((if node = sn then 1 else if node = tn then -1 else 0) : Int) = 0) := by
  by_cases hns : node = sn
  · subst hns
    rw [if_pos rfl]
    refine ⟨by simp, ?_, fun h _ => absurd rfl h⟩
    constructor
    · intro habs
      exact absurd habs (by decide)
    · intro h
      exact absurd h hneq
  · rw [if_neg hns]
    by_cases hnt : node = tn
    · subst hnt
      rw [if_pos rfl]
      refine ⟨?_, by simp, fun _ h => absurd rfl h⟩
      constructor
      · intro habs
        exact absurd habs (by decide)
      · intro h
        exact absurd h hns
    · rw [if_neg hnt]
      refine ⟨?_, ?_, fun _ _ => rfl⟩
      · constructor
        · intro habs
          exact absurd habs (by decide)
        · intro h
          exact absurd h hns
      · constructor
        · intro habs
          exact absurd habs (by decide)
        · intro h
          exact absurd h hnt

/-- C6 (amended with the hypothesis that the source and sink timed
nodes differ): the flow-conservation constraints of a commodity have
right-hand side `+1` exactly at the first timed node of the source
whose time is at least the release, `−1` exactly at the first timed
node of the sink whose time is at least the deadline, and `0`
elsewhere; the left-hand side indexes the flow variables of the
outgoing arcs positively and of the ingoing arcs negatively. -/
theorem C6_flow_conservation (g : DiscretizedGraph) (coms : List Commodity)
    (cs : List FlowConstr) (com : Commodity) (sn tn : Nat)
    (hcs : add_flow_conservation_constraints g coms = some cs)
    (hcom : com ∈ coms)
    (hidsu : ∀ c1 ∈ coms, ∀ c2 ∈ coms, c1.id = c2.id → c1 = c2)
    (hsorted_s : (nttOf g com.source_node).Pairwise (· ≤ ·))
    (hsorted_t : (nttOf g com.sink_node).Pairwise (· ≤ ·))
    (hlen_s : (expOf g com.source_node).length ≤
      (nttOf g com.source_node).length)
    (hlen_t : (expOf g com.sink_node).length ≤
      (nttOf g com.sink_node).length)
    (hsn : IsFirstTimedAtLeast g com.source_node com.release sn)
    (htn : IsFirstTimedAtLeast g com.sink_node com.deadline tn)
    (hneq : sn ≠ tn) :
    (∀ n, n < g.nodes.length → ∃ c ∈ cs, c.com_id = com.id ∧ c.node = n) ∧
    (∀ c ∈ cs, c.com_id = com.id →
      (c.rhs = 1 ↔ c.node = sn) ∧ (c.rhs = -1 ↔ c.node = tn) ∧
      (c.node ≠ sn → c.node ≠ tn → c.rhs = 0) ∧
      c.outs = (g.edges.filter (fun e => e.2.src == c.node)).map Prod.fst ∧
      c.ins = (g.edges.filter (fun e => e.2.dst == c.node)).map Prod.fst) := by
  unfold add_flow_conservation_constraints at hcs
  obtain ⟨him, hrev, hall⟩ := flowFold_spec g coms [] cs hcs
  obtain ⟨timesS, expS, sn0, timesT, expT, tn0, h1, h2, h3, h4, h5, h6,
    hblock⟩ := hall com hcom
  have hnttS : nttOf g com.source_node = timesS := getD_of_get? _ _ _ _ h1
  have hexpS : expOf g com.source_node = expS := getD_of_get? _ _ _ _ h2
  have hnttT : nttOf g com.sink_node = timesT := getD_of_get? _ _ _ _ h4
  have hexpT : expOf g com.sink_node = expT := getD_of_get? _ _ _ _ h5
  have hsortS : timesS.Pairwise (· ≤ ·) := hnttS ▸ hsorted_s
  have hsortT : timesT.Pairwise (· ≤ ·) := hnttT ▸ hsorted_t
  have hfirst : ∀ (times : List Int) (expl : List Nat) (v : Nat)
      (bound : Int) (n0 : Nat), nttOf g v = times → expOf g v = expl →
      times.Pairwise (· ≤ ·) → expl.length ≤ times.length →
      expl.get? (bisect_left times bound) = some n0 →
      IsFirstTimedAtLeast g v bound n0 := by
    intro times expl v bound n0 hntt hexp hsort hlen hget
    have hntt2 : g.node_to_times.getD v [] = times := hntt
    have hexp2 : g.flat_to_expanded_nodes.getD v [] = expl := hexp
    have hklt : bisect_left times bound < expl.length := by
      by_contra hk
      rw [List.get?_eq_none.mpr (by omega)] at hget
      exact absurd hget (by simp)
    have hklen : bisect_left times bound < times.length := by omega
    refine ⟨bisect_left times bound, by rw [hexp2]; exact hget, ?_, ?_⟩
    · refine ⟨times.getD (bisect_left times bound) 0, ?_, ?_⟩
      · rw [hntt2, List.getD_eq_getElem times 0 hklen]
        rw [List.get?_eq_get hklen]
        rfl
      · exact bisect_left_ge times bound hsort _ (le_refl _) hklen
    · intro i t hi hti
      have hgd : times.getD i 0 = t := getD_of_get? _ _ _ _ (hntt2 ▸ hti)
      rw [← hgd]
      exact bisect_left_lt times bound hsort i hi
  have hsn0 := hfirst timesS expS com.source_node com.release sn0
    hnttS hexpS hsortS (by rw [← hnttS, ← hexpS]; exact hlen_s) h3
  have htn0 := hfirst timesT expT com.sink_node com.deadline tn0
    hnttT hexpT hsortT (by rw [← hnttT, ← hexpT]; exact hlen_t) h6
  have hsneq : sn = sn0 := IsFirstTimedAtLeast_unique g _ _ _ _ hsn hsn0
  have htneq : tn = tn0 := IsFirstTimedAtLeast_unique g _ _ _ _ htn htn0
  subst hsneq
  subst htneq
  constructor
  · intro n hn
    exact ⟨_, hblock n hn, rfl, rfl⟩
  · intro c hc hcid
    rcases hrev c hc with habs | ⟨com2, hcom2, tS2, eS2, sn2, tT2, eT2, tn2,
      g1, g2, g3, g4, g5, g6, node, hnode, hceq⟩
    · simp at habs
    · have hcom2eq : com2 = com := by
        refine hidsu com2 hcom2 com hcom ?_
        rw [hceq] at hcid
        exact hcid
      subst hcom2eq
      rw [h1] at g1
      injection g1 with g1
      subst g1
      rw [h2] at g2
      injection g2 with g2
      subst g2
      rw [h3] at g3
      injection g3 with g3
      subst g3
      rw [h4] at g4
      injection g4 with g4
      subst g4
      rw [h5] at g5
      injection g5 with g5
      subst g5
      rw [h6] at g6
      injection g6 with g6
      subst g6
      subst hceq
      exact ⟨(rhsCharacterization sn tn hneq node).1,
        (rhsCharacterization sn tn hneq node).2.1,
        (rhsCharacterization sn tn hneq node).2.2, rfl, get_in_eq g node⟩

theorem C4_get_solution_type_error_witness :
    ((∃ p ∈ tinyG.edges, p.2.data.capacity ≠ none ∧
        pyRound ((fun _ => (1 : ℚ)) p.1) ≠ 0) →
      get_solution GRB_OPTIMAL 0 (fun _ _ => 0) (fun _ => 1) [] tinyG =
        .error "TypeError: __init__ missing required argument") ∧
    (∀ sol, get_solution GRB_OPTIMAL 0 (fun _ _ => 0) (fun _ => 1) []
      tinyG = .ok sol → sol.services = []) :=
  C4_get_solution_type_error 0 (fun _ _ => 0) (fun _ => 1) [] tinyG
    (by decide) (by decide)

theorem C7_duration_and_linking_witness :
    (∀ i com, [c7com].get? i = some com → com.id = i) ∧
    get_commodity_node_paths c7sol [c7com] = some [[0, 2]] ∧
    add_duration_variables c7sol [c7com] [[0, 2]] = some [⟨0, 0, 2⟩] ∧
    add_linking_constraints c7sol [⟨0, 0, 2⟩] [[0, 2]] [c7com] =
      some [⟨0, 0, 1, 2⟩] ∧
    (findDurVar [(⟨0, 0, 2⟩ : DurVar)] c7com.id 0 =
        some ⟨c7com.id, 0, c7service.end_time - c7service.start_time⟩ ∧
      (⟨c7com.id, 0, c7service.travel_time,
        c7service.end_time - c7service.start_time⟩ : LinkConstr) ∈
        [(⟨0, 0, 1, 2⟩ : LinkConstr)]) := by
  have hids : ∀ i com, [c7com].get? i = some com → com.id = i := by
    intro i com h
    cases i with
    | zero =>
      simp only [List.get?_cons_zero, Option.some.injEq] at h
      rw [← h]
      rfl
    | succ n => simp at h
  refine ⟨hids, by decide, by decide, by decide, ?_⟩
  exact C7_duration_and_linking c7sol [c7com] [[0, 2]] [⟨0, 0, 2⟩]
    [⟨0, 0, 1, 2⟩] hids (by decide) (by decide) (by decide)
    0 c7com (by decide) ⟨2, 2, [c7service]⟩ (by decide) 0 c7service
    (by decide)

/-- C6 is false as stated: for the degenerate commodity with
`source = sink = 0` and `release = deadline = 0` on the tiny relaxed
graph, the constraint at the first timed node of the sink whose time is
at least the deadline (node 0) has right-hand side `1`, not `-1`. -/
theorem C6_counterexample :
    ∃ cs, add_flow_conservation_constraints tinyG [c6degCom] = some cs ∧
      IsFirstTimedAtLeast tinyG c6degCom.sink_node c6degCom.deadline 0 ∧
      (∀ c ∈ cs, c.node = 0 → c.rhs = 1) ∧ (1 : Int) ≠ -1 := by
  refine ⟨(add_flow_conservation_constraints tinyG [c6degCom]).getD [],
    by decide, ⟨0, by decide, ⟨0, by decide, by decide⟩, ?_⟩, by decide,
    by decide⟩
  intro i t hi
  omega

theorem C6_flow_conservation_witness :
    (∀ n, n < tinyG.nodes.length →
      ∃ c ∈ tinyCs, c.com_id = c7com.id ∧ c.node = n) ∧
    (∀ c ∈ tinyCs, c.com_id = c7com.id →
      (c.rhs = 1 ↔ c.node = 0) ∧ (c.rhs = -1 ↔ c.node = 7) ∧
      (c.node ≠ 0 → c.node ≠ 7 → c.rhs = 0) ∧
      c.outs = (tinyG.edges.filter
        (fun e => e.2.src == c.node)).map Prod.fst ∧
      c.ins = (tinyG.edges.filter
        (fun e => e.2.dst == c.node)).map Prod.fst) :=
  C6_flow_conservation tinyG [c7com] tinyCs c7com 0 7 (by decide)
    (by decide) (by decide) (by decide) (by decide) (by decide) (by decide)
    ⟨0, by decide, ⟨0, by decide, by decide⟩, fun i t hi _ => by omega⟩
    (by
      have hl : tinyG.node_to_times.getD c7com.sink_node [] = [0, 2, 3] := by
        decide
      refine ⟨2, by decide, ⟨3, by decide, by decide⟩, ?_⟩
      intro i t hi hti
      rw [hl] at hti
      show t < 3
      cases i with
      | zero => simp at hti; omega
      | succ n =>
        cases n with
        | zero => simp at hti; omega
        | succ m => omega)
    (by decide)

/-! ## C9: the instance reader's conversions -/

theorem arcsFold_spec (n_nodes : Nat) (delta_t : ℚ) :
    ∀ (ls : List (List ℚ)) (acc res : List FlatArc),
      ls.foldlM (fun (acc : List FlatArc) line => do
        let fa ← lineToFlatArc n_nodes delta_t line
        pure (acc ++ [fa])) acc = some res →
      res.length = acc.length + ls.length ∧
      (∀ i, i < acc.length → res.get? i = acc.get? i) ∧
      (∀ j, j < ls.length → ∃ line fa, ls.get? j = some line ∧
        lineToFlatArc n_nodes delta_t line = some fa ∧
        res.get? (acc.length + j) = some fa) := by
  intro ls
  induction ls with
  | nil =>
    intro acc res h
    simp only [List.foldlM_nil, Option.pure_def, Option.some.injEq] at h
    subst h
    exact ⟨by simp, fun i _ => rfl, fun j hj => by simp at hj⟩
  | cons line ls ih =>
    intro acc res h
    rw [List.foldlM_cons, option_bind_eq_some] at h
    obtain ⟨mid, hmid, hrest⟩ := h
    obtain ⟨fa, hfa, hmid2⟩ : ∃ fa,
        lineToFlatArc n_nodes delta_t line = some fa ∧
        mid = acc ++ [fa] := by
      cases hf : lineToFlatArc n_nodes delta_t line with
      | none => rw [hf] at hmid; simp at hmid
      | some fa =>
        rw [hf] at hmid
        simp only [Option.bind_eq_bind, Option.some_bind, Option.pure_def,
          Option.some.injEq] at hmid
        exact ⟨fa, rfl, hmid.symm⟩
    subst hmid2
    obtain ⟨hlen, hpre, hnew⟩ := ih _ _ hrest
    refine ⟨by simp at hlen ⊢; omega, ?_, ?_⟩
    · intro i hi
      rw [hpre i (by simp; omega)]
      exact List.get?_append (by omega)
    · intro j hj
      cases j with
      | zero =>
        refine ⟨line, fa, rfl, hfa, ?_⟩
        rw [Nat.add_zero, hpre acc.length (by simp)]
        rw [List.get?_append_right (by omega)]
        simp
      | succ j =>
        simp only [List.length_cons] at hj
        obtain ⟨line2, fa2, hl2, hf2, hres2⟩ := hnew j (by omega)
        refine ⟨line2, fa2, by simpa using hl2, hf2, ?_⟩
        rw [← hres2]
        congr 1
        simp
        omega

theorem comsFold_spec (delta_t : ℚ) :
    ∀ (ls : List (List ℚ)) (acc res : List Commodity),
      ls.foldlM (fun (acc : List Commodity) line => do
        let com ← lineToCommodity delta_t acc.length line
        pure (acc ++ [com])) acc = some res →
      res.length = acc.length + ls.length ∧
      (∀ i, i < acc.length → res.get? i = acc.get? i) ∧
      (∀ j, j < ls.length → ∃ line com, ls.get? j = some line ∧
        lineToCommodity delta_t (acc.length + j) line = some com ∧
        res.get? (acc.length + j) = some com) := by
  intro ls
  induction ls with
  | nil =>
    intro acc res h
    simp only [List.foldlM_nil, Option.pure_def, Option.some.injEq] at h
    subst h
    exact ⟨by simp, fun i _ => rfl, fun j hj => by simp at hj⟩
  | cons line ls ih =>
    intro acc res h
    rw [List.foldlM_cons, option_bind_eq_some] at h
    obtain ⟨mid, hmid, hrest⟩ := h
    obtain ⟨com, hcom, hmid2⟩ : ∃ com,
        lineToCommodity delta_t acc.length line = some com ∧
        mid = acc ++ [com] := by
      cases hf : lineToCommodity delta_t acc.length line with
      | none => rw [hf] at hmid; simp at hmid
      | some com =>
        rw [hf] at hmid
        simp only [Option.bind_eq_bind, Option.some_bind, Option.pure_def,
          Option.some.injEq] at hmid
        exact ⟨com, rfl, hmid.symm⟩
    subst hmid2
    obtain ⟨hlen, hpre, hnew⟩ := ih _ _ hrest
    refine ⟨by simp at hlen ⊢; omega, ?_, ?_⟩
    · intro i hi
      rw [hpre i (by simp; omega)]
      exact List.get?_append (by omega)
    · intro j hj
      cases j with
      | zero =>
        refine ⟨line, com, rfl, hcom, ?_⟩
        rw [Nat.add_zero, hpre acc.length (by simp)]
        rw [List.get?_append_right (by omega)]
        simp
      | succ j =>
        simp only [List.length_cons] at hj
        obtain ⟨line2, com2, hl2, hf2, hres2⟩ := hnew j (by omega)
        have hidq : (acc ++ [com]).length + j = acc.length + (j + 1) := by
          simp
          omega
        rw [hidq] at hf2 hres2
        exact ⟨line2, com2, by simpa using hl2, hf2, hres2⟩

theorem lineToFlatArc_char (n_nodes : Nat) (delta_t : ℚ) (line : List ℚ)
    (fa : FlatArc) (h : lineToFlatArc n_nodes delta_t line = some fa) :
    ∃ i jj fc cap fx tt, line.take 6 = [i, jj, fc, cap, fx, tt] ∧
      delta_t ≠ 0 ∧
      (fa.src : Int) = pyTrunc i - 1 ∧ (fa.dst : Int) = pyTrunc jj - 1 ∧
      fa.data = ⟨(tt / delta_t).ceil, fc, fx, some cap⟩ := by
  unfold lineToFlatArc at h
  split at h
  case h_1 i jj fc cap fx tt heq =>
    split_ifs at h with h0 h1
    injection h with h
    subst h
    obtain ⟨ha, hb, hc, hd⟩ := h1
    exact ⟨i, jj, fc, cap, fx, tt, heq, h0,
      Int.toNat_of_nonneg ha, Int.toNat_of_nonneg hc, rfl⟩
  case h_2 => simp at h

theorem lineToCommodity_char (delta_t : ℚ) (idx : Nat) (line : List ℚ)
    (com : Commodity) (h : lineToCommodity delta_t idx line = some com) :
    ∃ s t q r d, line.take 5 = [s, t, q, r, d] ∧
      delta_t ≠ 0 ∧ com.id = idx ∧
      (com.source_node : Int) = pyTrunc s - 1 ∧
      (com.sink_node : Int) = pyTrunc t - 1 ∧
      com.quantity = q ∧ com.release = (r / delta_t).ceil ∧
      com.deadline = (d / delta_t).floor := by
  unfold lineToCommodity at h
  split at h
  case h_1 s t q r d heq =>
    split_ifs at h with h0 h1
    injection h with h
    subst h
    obtain ⟨ha, hb⟩ := h1
    exact ⟨s, t, q, r, d, heq, h0, rfl,
      Int.toNat_of_nonneg ha, Int.toNat_of_nonneg hb, rfl, rfl, rfl⟩
  case h_2 => simp at h

/-- C9: whenever `read_modified_dow_instance` successfully parses a
file, every arc record's 1-based node ids are stored 0-based
(`int(i) − 1`), its travel time is `ceil(travel_time / delta_t)`, and
every commodity record's node ids are stored 0-based with
`release = ceil(release / delta_t)` and
`deadline = floor(deadline / delta_t)`. -/
theorem C9_reader_conversions (lines : List (List ℚ)) (delta_t : ℚ)
    (ins : InstanceM)
    (h : read_modified_dow_instance lines delta_t = some ins) :
    ∃ n_arcs : Nat,
      (∀ j fa, ins.flat_graph.arcs.get? j = some fa →
        ∃ line i jj fc cap fx tt,
          ((lines.drop 2).take n_arcs).get? j = some line ∧
          line.take 6 = [i, jj, fc, cap, fx, tt] ∧
          (fa.src : Int) = pyTrunc i - 1 ∧
          (fa.dst : Int) = pyTrunc jj - 1 ∧
          fa.data.travel_time = (tt / delta_t).ceil ∧
          fa.data.flow_cost = fc ∧ fa.data.fixed_cost = fx ∧
          fa.data.capacity = some cap) ∧
      (∀ j com, ins.commodities.get? j = some com →
        ∃ line s t q r d,
          (lines.drop (n_arcs + 2)).get? j = some line ∧
          line.take 5 = [s, t, q, r, d] ∧ com.id = j ∧
          (com.source_node : Int) = pyTrunc s - 1 ∧
          (com.sink_node : Int) = pyTrunc t - 1 ∧
          com.quantity = q ∧ com.release = (r / delta_t).ceil ∧
          com.deadline = (d / delta_t).floor) := by
  unfold read_modified_dow_instance at h
  rw [option_bind_eq_some] at h
  obtain ⟨l1, hl1, h⟩ := h
  split at h
  case h_2 => simp at h
  case h_1 a b c =>
  rw [option_bind_eq_some] at h
  obtain ⟨na, hna, h⟩ := h
  rw [option_bind_eq_some] at h
  obtain ⟨nb, hnb, h⟩ := h
  rw [option_bind_eq_some] at h
  obtain ⟨nc, hnc, h⟩ := h
  rw [option_bind_eq_some] at h
  obtain ⟨arcs, harcs, h⟩ := h
  rw [option_bind_eq_some] at h
  obtain ⟨commodities, hcoms, h⟩ := h
  simp only [Option.pure_def, Option.some.injEq] at h
  subst h
  refine ⟨nb.toNat, ?_, ?_⟩
  · intro j fa hfa
    have hfa0 : arcs.get? j = some fa := hfa
    obtain ⟨hlen, _, hchar⟩ := arcsFold_spec na.toNat delta_t _ [] arcs harcs
    simp only [List.length_nil, Nat.zero_add] at hlen
    have hj : j < ((lines.drop 2).take nb.toNat).length := by
      have : j < arcs.length := by
        by_contra hc
        rw [List.get?_eq_none.mpr (by omega)] at hfa0
        exact absurd hfa0 (by simp)
      omega
    obtain ⟨line, fa2, hline, hfa2, hget⟩ := hchar j hj
    simp only [List.length_nil, Nat.zero_add] at hget
    rw [hfa0] at hget
    injection hget with hget
    subst hget
    obtain ⟨i, jj, fc, cap, fx, tt, ht, h0, hsrc, hdst, hdata⟩ :=
      lineToFlatArc_char na.toNat delta_t line fa hfa2
    exact ⟨line, i, jj, fc, cap, fx, tt, hline, ht, hsrc, hdst,
      by rw [hdata], by rw [hdata], by rw [hdata], by rw [hdata]⟩
  · intro j com hcom
    have hcom0 : commodities.get? j = some com := hcom
    obtain ⟨hlen, _, hchar⟩ := comsFold_spec delta_t _ [] commodities hcoms
    simp only [List.length_nil, Nat.zero_add] at hlen
    have hj : j < (lines.drop (nb.toNat + 2)).length := by
      have : j < commodities.length := by
        by_contra hc
        rw [List.get?_eq_none.mpr (by omega)] at hcom0
        exact absurd hcom0 (by simp)
      omega
    obtain ⟨line, com2, hline, hcom2, hget⟩ := hchar j hj
    simp only [List.length_nil, Nat.zero_add] at hcom2 hget
    rw [hcom0] at hget
    injection hget with hget
    subst hget
    obtain ⟨s, t, q, r, d, ht, h0, hid, hsrc, hdst, hq, hr, hd⟩ :=
      lineToCommodity_char delta_t j line com hcom2
    exact ⟨line, s, t, q, r, d, hline, ht, hid, hsrc, hdst, hq, hr, hd⟩

/-- Witness for C9: the concrete file `c9lines` parses to `c9ins`, and
its stored arc and commodity fields are the converted line tokens. -/
theorem C9_reader_conversions_witness :
    read_modified_dow_instance c9lines 1 = some c9ins ∧
    (∃ n_arcs : Nat,
      (∀ j fa, c9ins.flat_graph.arcs.get? j = some fa →
        ∃ line i jj fc cap fx tt,
          ((c9lines.drop 2).take n_arcs).get? j = some line ∧
          line.take 6 = [i, jj, fc, cap, fx, tt] ∧
          (fa.src : Int) = pyTrunc i - 1 ∧
          (fa.dst : Int) = pyTrunc jj - 1 ∧
          fa.data.travel_time = (tt / 1).ceil ∧
          fa.data.flow_cost = fc ∧ fa.data.fixed_cost = fx ∧
          fa.data.capacity = some cap) ∧
      (∀ j com, c9ins.commodities.get? j = some com →
        ∃ line s t q r d,
          (c9lines.drop (n_arcs + 2)).get? j = some line ∧
          line.take 5 = [s, t, q, r, d] ∧ com.id = j ∧
          (com.source_node : Int) = pyTrunc s - 1 ∧
          (com.sink_node : Int) = pyTrunc t - 1 ∧
          com.quantity = q ∧ com.release = (r / 1).ceil ∧
          com.deadline = (d / 1).floor)) := by
  have h : read_modified_dow_instance c9lines 1 = some c9ins := by
    norm_num [read_modified_dow_instance, c9lines, c9ins, lineToFlatArc,
      lineToCommodity, pyIntOfToken, pyTrunc, Rat.ceil, Rat.floor]
    exact ⟨rfl, rfl⟩
  exact ⟨h, C9_reader_conversions c9lines 1 c9ins h⟩

/-- C2: constructing the relaxed time-expanded graph of the tiny
instance from `T = [[0,1],[0,1,2],[0,2,3]]` yields exactly 8 timed
nodes and 12 edges, whose travel arcs are exactly the seven listed
pairs and whose holding arcs are the five consecutive pairs. -/
theorem C2_tiny_construction :
    DiscretizedGraph.create tinyFlat tinyNtt true = some tinyG ∧
    tinyG.nodes.length = 8 ∧ tinyG.edges.length = 12 ∧
    (travelEdges tinyG).map (arcPair tinyG) =
      [((0, 0), (1, 1)), ((0, 1), (1, 2)), ((1, 0), (2, 0)),
       ((1, 1), (2, 2)), ((1, 2), (2, 3)), ((0, 0), (2, 0)),
       ((0, 1), (2, 2))] ∧
    (holdingEdges tinyG).map (arcPair tinyG) =
      [((0, 0), (0, 1)), ((1, 0), (1, 1)), ((1, 1), (1, 2)),
       ((2, 0), (2, 2)), ((2, 2), (2, 3))] := by
  decide

/-- C3: on the tiny relaxed graph, `refine_discretization(2, 1)` adds
exactly one node and (net) one edge; both ingoing travel arcs of
`(2,0)` (their arrival times are `≥ 1`) are removed and replaced by
arcs into `(2,1)` carrying the same arc data, and the holding arc
`(2,0)→(2,2)` is replaced by `(2,0)→(2,1)` and `(2,1)→(2,2)`. -/
theorem C3_tiny_refine :
    tinyG.refine_discretization 2 1 = some tinyG2 ∧
    tinyG2.nodes.length = tinyG.nodes.length + 1 ∧
    tinyG2.edges.length = tinyG.edges.length + 1 ∧
    edgeDataBetween tinyG (0, 0) (2, 0) = [⟨1, 2, 2, some 2⟩] ∧
    edgeDataBetween tinyG (1, 0) (2, 0) = [⟨1, 1, 1, some 2⟩] ∧
    edgeDataBetween tinyG (2, 0) (2, 2) = [holdingArcData] ∧
    edgeDataBetween tinyG2 (0, 0) (2, 0) = [] ∧
    edgeDataBetween tinyG2 (1, 0) (2, 0) = [] ∧
    edgeDataBetween tinyG2 (0, 0) (2, 1) = [⟨1, 2, 2, some 2⟩] ∧
    edgeDataBetween tinyG2 (1, 0) (2, 1) = [⟨1, 1, 1, some 2⟩] ∧
    edgeDataBetween tinyG2 (2, 0) (2, 2) = [] ∧
    edgeDataBetween tinyG2 (2, 0) (2, 1) = [holdingArcData] ∧
    edgeDataBetween tinyG2 (2, 1) (2, 2) = [holdingArcData] := by
  decide

/-- C1 is false as stated: (i) on the sorted lists `[[0],[5]]` the
relaxed construction produces the travel arc `((0,0),(1,5))` with
travel time 1, violating `t_e ≤ t_s + τ`; (ii) on `[[0],[0,3]]` in
non-relaxed mode, `refine_discretization(1, 1)` leaves the travel arc
`((0,0),(1,1))` with travel time 2, violating `t_e ≥ t_s + τ`. -/
theorem C1_counterexample :
    (DiscretizedGraph.create cexRelaxedFlat cexRelaxedNtt true =
        some cexRelaxedG ∧
      cexRelaxedG.relaxed = true ∧
      (∀ l ∈ cexRelaxedNtt, l.Pairwise (· ≤ ·)) ∧
      (travelEdges cexRelaxedG).map
        (fun p => (arcPair cexRelaxedG p, p.2.data.travel_time)) =
        [(((0, 0), (1, 5)), 1)] ∧
      ¬ ((5 : Int) ≤ 0 + 1)) ∧
    (DiscretizedGraph.create cexUnrelFlat cexUnrelNtt false =
        some cexUnrelG0 ∧
      cexUnrelG0.relaxed = false ∧
      (∀ l ∈ cexUnrelNtt, l.Pairwise (· ≤ ·)) ∧
      cexUnrelG0.refine_discretization 1 1 = some cexUnrelG1 ∧
      (travelEdges cexUnrelG1).map
        (fun p => (arcPair cexUnrelG1 p, p.2.data.travel_time)) =
        [(((0, 0), (1, 1)), 2)] ∧
      ¬ ((0 : Int) + 2 ≤ 1)) := by
  decide

/-- C8 is false as stated: `2` is already a time point of flat node `2`
in the tiny relaxed graph, yet `refine_discretization(2, 2)` completes
normally instead of failing. -/
theorem C8_counterexample :
    (2 : Int) ∈ nttOf tinyG 2 ∧
    (tinyG.refine_discretization 2 2).isSome = true := by
  decide

/-- C10 is false as stated: `-1` is smaller than every time point of
flat node `2` in the tiny relaxed graph, and `refine_discretization`
fails (the `get_edge_index` assertion finds no holding arc from the
latest to the earliest timed node) instead of completing. -/
theorem C10_counterexample :
    (∀ u ∈ nttOf tinyG 2, (-1 : Int) < u) ∧
    tinyG.refine_discretization 2 (-1) = none := by
  decide

/-! ## Claim theorems -/

/-- C5: in every reachable time-expanded graph state (construction from a
loop-free flat graph followed by any sequence of successful
`refine_discretization` calls), there is exactly one holding arc between
each pair of consecutive expanded nodes of a flat node, and every
same-flat-node edge is such a holding arc (zero payload, consecutive
positions); `refine_discretization` preserves this structure. -/
theorem C5_holding_arcs (fg : FlatGraph) (ntt : List (List Int)) (rel : Bool)
    (g0 g : DiscretizedGraph)
    (hlf : FlatGraph.loopFree fg)
    (hlen : ntt.length = fg.nodes.length)
    (hcreate : DiscretizedGraph.create fg ntt rel = some g0)
    (hreach : Reaches g0 g) : HoldingArcsExact g := by
  obtain ⟨hinv0, hgf0, hrel0, hnt0, _⟩ := create_spec fg ntt rel g0 hlf hlen
    hcreate
  obtain ⟨hinv, _, _⟩ := reaches_core g0 g (by rw [hgf0]; exact hlf) hinv0
    hreach
  exact ⟨hinv.holding_one, hinv.same_flat_holding⟩

theorem C5_holding_arcs_witness :
    FlatGraph.loopFree tinyFlat ∧ tinyNtt.length = tinyFlat.nodes.length ∧
    DiscretizedGraph.create tinyFlat tinyNtt true = some tinyG ∧
    tinyG.refine_discretization 2 1 = some tinyG2 ∧
    HoldingArcsExact tinyG2 :=
  ⟨by unfold FlatGraph.loopFree; decide, by decide, by decide, by decide,
    C5_holding_arcs tinyFlat tinyNtt true tinyG tinyG2
      (by unfold FlatGraph.loopFree; decide) (by decide)
      (by decide) (Reaches.step 2 1 (Reaches.refl tinyG) (by decide))⟩

/-- C1 (amended): over states built from a loop-free flat graph with
nonnegative travel times and sorted per-node time lists starting at 0,
the relaxed upper bound `t_e ≤ t_s + τ` holds for every travel arc of
every reachable state, while the non-relaxed lower bound
`t_e ≥ t_s + τ` holds for every travel arc of the freshly constructed
state (refinement does not preserve it, see the counterexample). -/
theorem C1_travel_arc_bounds (fg : FlatGraph) (ntt : List (List Int))
    (rel : Bool) (g0 g : DiscretizedGraph)
    (hlf : FlatGraph.loopFree fg)
    (hnn : FlatGraph.nonnegTravel fg)
    (hlen : ntt.length = fg.nodes.length)
    (hsort : ∀ l ∈ ntt, l.Pairwise (· ≤ ·))
    (hhead : ∀ l ∈ ntt, l.head? = some 0)
    (hcreate : DiscretizedGraph.create fg ntt rel = some g0)
    (hreach : Reaches g0 g) :
    (rel = true → TravelArcUB g) ∧ (rel = false → TravelArcLB g0) := by
  obtain ⟨hinv0, hgf0, hrel0, hnt0, hlb⟩ := create_spec fg ntt rel g0 hlf
    hlen hcreate
  constructor
  · intro hr
    subst hr
    have hub0 : TravelArcUB g0 := create_ub fg ntt g0 hlf hlen hsort hhead
      hnn hcreate
    have hs0 : sortedNtt g0 := by
      intro w hw
      show (g0.node_to_times.getD w []).Pairwise (· ≤ ·)
      rw [hnt0]
      by_cases hvn : w < ntt.length
      · exact hsort _ (List.get?_mem (get?_eq_getD ntt w [] hvn))
      · rw [List.getD_eq_default _ _ (by omega)]
        exact List.Pairwise.nil
    have hh0 : head0Ntt g0 := by
      intro w hw
      show (g0.node_to_times.getD w []).head? = some 0
      rw [hnt0]
      apply hhead
      apply List.get?_mem (get?_eq_getD ntt w [] ?_)
      rw [hlen, ← hgf0]
      exact hw
    exact (reaches_relaxed_ub g0 g (by rw [hgf0]; exact hlf) hinv0 hs0 hh0
      (by rw [hgf0]; exact hnn) hrel0 hub0 hreach).1
  · intro hr
    subst hr
    exact hlb rfl

theorem C1_travel_arc_bounds_witness :
    FlatGraph.loopFree tinyFlat ∧ FlatGraph.nonnegTravel tinyFlat ∧
    tinyNtt.length = tinyFlat.nodes.length ∧
    (∀ l ∈ tinyNtt, l.Pairwise (· ≤ ·)) ∧
    (∀ l ∈ tinyNtt, l.head? = some 0) ∧
    DiscretizedGraph.create tinyFlat tinyNtt true = some tinyG ∧
    ((true = true → TravelArcUB tinyG) ∧
      (true = false → TravelArcLB tinyG)) :=
  ⟨by unfold FlatGraph.loopFree; decide,
    by unfold FlatGraph.nonnegTravel; decide,
    by decide, by decide, by decide, by decide,
    C1_travel_arc_bounds tinyFlat tinyNtt true tinyG tinyG
      (by unfold FlatGraph.loopFree; decide)
      (by unfold FlatGraph.nonnegTravel; decide)
      (by decide) (by decide) (by decide) (by decide)
      (Reaches.refl tinyG)⟩

/-- C8 (amended): inserting a time point `t` that is less than or equal
to every element of `T(v)` — in particular a duplicate of the minimum —
makes `refine_discretization` fail (the `get_edge_index` assertion finds
no holding arc from the latest to the earliest timed node); a duplicate
in the interior of the list completes normally, see the
counterexample. -/
theorem C8_min_duplicate_refine_fails (fg : FlatGraph)
    (ntt : List (List Int)) (rel : Bool) (g0 g : DiscretizedGraph)
    (v : Nat) (t : Int)
    (hlf : FlatGraph.loopFree fg)
    (hlen : ntt.length = fg.nodes.length)
    (hsort : ∀ l ∈ ntt, l.Pairwise (· ≤ ·))
    (hcreate : DiscretizedGraph.create fg ntt rel = some g0)
    (hreach : Reaches g0 g)
    (hmem : t ∈ nttOf g v)
    (hmin : ∀ u ∈ nttOf g v, t ≤ u) :
    g.refine_discretization v t = none := by
  obtain ⟨hinv0, hgf0, hrel0, hnt0, _⟩ := create_spec fg ntt rel g0 hlf hlen
    hcreate
  have hs0 : sortedNtt g0 := by
    intro w hw
    show (g0.node_to_times.getD w []).Pairwise (· ≤ ·)
    rw [hnt0]
    by_cases hvn : w < ntt.length
    · exact hsort _ (List.get?_mem (get?_eq_getD ntt w [] hvn))
    · rw [List.getD_eq_default _ _ (by omega)]
      exact List.Pairwise.nil
  obtain ⟨hinv, hsg, hgf, hrel⟩ := reaches_core_sorted g0 g
    (by rw [hgf0]; exact hlf) hinv0 hs0 hreach
  cases hts : g.node_to_times.get? v with
  | none =>
    unfold DiscretizedGraph.refine_discretization
    rw [hts]
    rfl
  | some times =>
  have hnttv : nttOf g v = times := getD_of_get? _ _ _ _ hts
  have hvlt : v < g.node_to_times.length := lt_of_get?_eq_some _ _ _ hts
  have hvN : v < g.g_flat.nodes.length := by
    rw [← hinv.ntt_len]
    exact hvlt
  have hsortv : times.Pairwise (· ≤ ·) := by
    rw [← hnttv]
    exact hsg v hvN
  have hne : times ≠ [] := by
    intro hc
    rw [hnttv, hc] at hmem
    exact absurd hmem (by simp)
  have hk0 : bisect_left times t = 0 := by
    apply bisect_left_eq_zero times t hsortv
    apply hmin
    rw [hnttv]
    exact List.get?_mem (get?_eq_getD times 0 0 (List.length_pos.mpr hne))
  exact refine_k0_fails g v t times hinv hts hk0

theorem C8_min_duplicate_refine_fails_witness :
    FlatGraph.loopFree tinyFlat ∧ tinyNtt.length = tinyFlat.nodes.length ∧
    (∀ l ∈ tinyNtt, l.Pairwise (· ≤ ·)) ∧
    DiscretizedGraph.create tinyFlat tinyNtt true = some tinyG ∧
    (0 : Int) ∈ nttOf tinyG 2 ∧ (∀ u ∈ nttOf tinyG 2, (0 : Int) ≤ u) ∧
    tinyG.refine_discretization 2 0 = none :=
  ⟨by unfold FlatGraph.loopFree; decide,
    by decide, by decide, by decide, by decide, by decide,
    C8_min_duplicate_refine_fails tinyFlat tinyNtt true tinyG tinyG 2 0
      (by unfold FlatGraph.loopFree; decide) (by decide) (by decide)
      (by decide) (Reaches.refl tinyG) (by decide) (by decide)⟩

/-- C10 (amended): calling `refine_discretization(v, t)` with `t`
strictly smaller than every element of `T(v)` does fail: bisect gives
insertion index 0 and the predecessor index `-1` wraps to the latest
timed node, but `_refine_holding_arc` then asserts exactly one holding
arc from that latest node to the earliest one, finds none, and the call
returns an error; no backwards-in-time holding arc is added. -/
theorem C10_small_time_refine_fails (fg : FlatGraph)
    (ntt : List (List Int)) (rel : Bool) (g0 g : DiscretizedGraph)
    (v : Nat) (t : Int)
    (hlf : FlatGraph.loopFree fg)
    (hlen : ntt.length = fg.nodes.length)
    (hsort : ∀ l ∈ ntt, l.Pairwise (· ≤ ·))
    (hcreate : DiscretizedGraph.create fg ntt rel = some g0)
    (hreach : Reaches g0 g)
    (hlt : ∀ u ∈ nttOf g v, t < u) :
    g.refine_discretization v t = none := by
  obtain ⟨hinv0, hgf0, hrel0, hnt0, _⟩ := create_spec fg ntt rel g0 hlf hlen
    hcreate
  have hs0 : sortedNtt g0 := by
    intro w hw
    show (g0.node_to_times.getD w []).Pairwise (· ≤ ·)
    rw [hnt0]
    by_cases hvn : w < ntt.length
    · exact hsort _ (List.get?_mem (get?_eq_getD ntt w [] hvn))
    · rw [List.getD_eq_default _ _ (by omega)]
      exact List.Pairwise.nil
  obtain ⟨hinv, hsg, hgf, hrel⟩ := reaches_core_sorted g0 g
    (by rw [hgf0]; exact hlf) hinv0 hs0 hreach
  cases hts : g.node_to_times.get? v with
  | none =>
    unfold DiscretizedGraph.refine_discretization
    rw [hts]
    rfl
  | some times =>
  have hnttv : nttOf g v = times := getD_of_get? _ _ _ _ hts
  have hvlt : v < g.node_to_times.length := lt_of_get?_eq_some _ _ _ hts
  have hvN : v < g.g_flat.nodes.length := by
    rw [← hinv.ntt_len]
    exact hvlt
  have hsortv : times.Pairwise (· ≤ ·) := by
    rw [← hnttv]
    exact hsg v hvN
  have hk0 : bisect_left times t = 0 := by
    by_cases hne : times = []
    · have h0 := bisect_left_le_length times t
      rw [hne] at h0 ⊢
      simp only [List.length_nil] at h0
      omega
    · apply bisect_left_eq_zero times t hsortv
      apply le_of_lt
      apply hlt
      rw [hnttv]
      exact List.get?_mem (get?_eq_getD times 0 0 (List.length_pos.mpr hne))
  exact refine_k0_fails g v t times hinv hts hk0

theorem C10_small_time_refine_fails_witness :
    FlatGraph.loopFree tinyFlat ∧ tinyNtt.length = tinyFlat.nodes.length ∧
    (∀ l ∈ tinyNtt, l.Pairwise (· ≤ ·)) ∧
    DiscretizedGraph.create tinyFlat tinyNtt true = some tinyG ∧
    (∀ u ∈ nttOf tinyG 2, (-5 : Int) < u) ∧
    tinyG.refine_discretization 2 (-5) = none :=
  ⟨by unfold FlatGraph.loopFree; decide,
    by decide, by decide, by decide, by decide,
    C10_small_time_refine_fails tinyFlat tinyNtt true tinyG tinyG 2 (-5)
      (by unfold FlatGraph.loopFree; decide) (by decide) (by decide)
      (by decide) (Reaches.refl tinyG) (by decide)⟩

end DDD
